import Mathlib

/-!
# Receipt processor: the points engine and the handlers of `main.go`

A shallow embedding of `calculatePoints` (`main.go`, lines 84-160) together
with the parts of the Go standard library it calls (`range` over a string,
`strings.TrimSpace`, `strconv.Atoi`, `strconv.ParseFloat`, `math.Ceil`,
float64 multiplication and the float/integer conversions), and of the two
handlers (lines 44-82) on the map `receipts`, with `fmt.Sprintf("%d", n)` and
the regular expression `idRegex`.

Conventions of the embedding:

* a Go `string` is a finite sequence of bytes (`GoString`);
* `int` and `int64` are 64 bit wide (amd64, arm64); a machine integer is an
  `Int` kept in range by `wrap64`;
* a `float64` is `F64`: NaN, an infinity, or a finite value carried as the
  rational number it denotes (the two zeros are identified: nothing in
  `calculatePoints` tells them apart);
* the result of converting a float that an `int64` cannot hold is left open
  by the Go language ("implementation-dependent"); it is the parameter `cv`;
* a run-time panic (slice bounds out of range) is the result `none`;
* the map `receipts` is the list of its assignments, the latest first; a
  handler is a function of the map, and for calls running concurrently a
  step is either line 51 or the critical section of lines 52-54;
* the library functions follow the documented behaviour of the Go standard
  library: `ParseFloat` accepts decimal and hexadecimal floating-point
  literals, underscores, infinities and NaN, and returns the nearest float64
  (ties to even); `Atoi` accepts an optionally signed run of decimal digits;
  `TrimSpace` removes Unicode white space, decoding UTF-8 as Go does.

The definitions come first; the theorems on them follow, the claims of the
specification marked `Claim Cn`.
-/

namespace ReceiptProcessor

/-! ## Go strings -/

/-- One byte of a Go string. -/
abbrev Byte := Fin 256

/-- A Go `string`: an immutable sequence of bytes. -/
abbrev GoString := List Byte

/-- UTF-8 encoding of one code point (used to write string literals). -/
def encodeRune (c : Nat) : GoString :=
  if c < 0x80 then [Fin.ofNat c]
  else if c < 0x800 then [Fin.ofNat (0xC0 + c / 64), Fin.ofNat (0x80 + c % 64)]
  else if c < 0x10000 then
    [Fin.ofNat (0xE0 + c / 4096), Fin.ofNat (0x80 + c / 64 % 64), Fin.ofNat (0x80 + c % 64)]
  else
    [Fin.ofNat (0xF0 + c / 262144), Fin.ofNat (0x80 + c / 4096 % 64),
      Fin.ofNat (0x80 + c / 64 % 64), Fin.ofNat (0x80 + c % 64)]

/-- The Go string written as the literal `s` (its UTF-8 bytes). -/
def go (s : String) : GoString := s.data.flatMap fun c => encodeRune c.toNat

/-! ## `unicode/utf8` and the `range` loop over a string -/

/-- `utf8.RuneError`, the code point produced for an invalid encoding. -/
def RuneError : Nat := 0xFFFD

/-- Continuation byte test: `locb <= b && b <= hicb`. -/
def isCont (b : Byte) : Bool := 0x80 ≤ b.val && b.val ≤ 0xBF

/-- `utf8.DecodeRuneInString`: the first code point of `s` and its width in
bytes; `(RuneError, 1)` for an invalid or truncated encoding and
`(RuneError, 0)` for the empty string. -/
def decodeRune : GoString → Nat × Nat
  | [] => (RuneError, 0)
  | b0 :: rest =>
    if b0.val < 0x80 then (b0.val, 1)
    else if b0.val < 0xC2 then (RuneError, 1)
    else if b0.val < 0xE0 then
      match rest with
      | b1 :: _ =>
        if isCont b1 then (b0.val % 32 * 64 + b1.val % 64, 2) else (RuneError, 1)
      | _ => (RuneError, 1)
    else if b0.val < 0xF0 then
      match rest with
      | b1 :: b2 :: _ =>
        if (if b0.val = 0xE0 then 0xA0 else 0x80) ≤ b1.val
            ∧ b1.val ≤ (if b0.val = 0xED then 0x9F else 0xBF) ∧ isCont b2 then
          (b0.val % 16 * 4096 + b1.val % 64 * 64 + b2.val % 64, 3)
        else (RuneError, 1)
      | _ => (RuneError, 1)
    else if b0.val < 0xF5 then
      match rest with
      | b1 :: b2 :: b3 :: _ =>
        if (if b0.val = 0xF0 then 0x90 else 0x80) ≤ b1.val
            ∧ b1.val ≤ (if b0.val = 0xF4 then 0x8F else 0xBF) ∧ isCont b2 ∧ isCont b3 then
          (b0.val % 8 * 262144 + b1.val % 64 * 4096 + b2.val % 64 * 64 + b3.val % 64, 4)
        else (RuneError, 1)
      | _ => (RuneError, 1)
    else (RuneError, 1)

/-- The code points visited by `for _, char := range s`, in order; `fuel`
bounds the number of iterations (`s.length` is always enough). -/
def runesAux : Nat → GoString → List Nat
  | 0, _ => []
  | _ + 1, [] => []
  | fuel + 1, b :: rest =>
    (decodeRune (b :: rest)).1 :: runesAux fuel ((b :: rest).drop (decodeRune (b :: rest)).2)

/-- The code points visited by `for _, char := range s`. -/
def runes (s : GoString) : List Nat := runesAux s.length s

/-! ## `strings.TrimSpace` -/

/-- The table `asciiSpace` of package `strings`. -/
def asciiSpace (c : Byte) : Bool :=
  c.val = 9 || c.val = 10 || c.val = 11 || c.val = 12 || c.val = 13 || c.val = 32

/-- `unicode.IsSpace`. -/
def isSpace (r : Nat) : Bool :=
  r = 9 || r = 10 || r = 11 || r = 12 || r = 13 || r = 32 || r = 0x85 || r = 0xA0
    || r = 0x1680 || (0x2000 ≤ r && r ≤ 0x200A) || r = 0x2028 || r = 0x2029
    || r = 0x202F || r = 0x205F || r = 0x3000

/-- `strings.TrimLeftFunc(s, unicode.IsSpace)`. -/
def trimLeftAux : Nat → GoString → GoString
  | 0, _ => []
  | _ + 1, [] => []
  | fuel + 1, b :: rest =>
    if isSpace (decodeRune (b :: rest)).1 then
      trimLeftAux fuel ((b :: rest).drop (decodeRune (b :: rest)).2)
    else b :: rest

/-- `strings.TrimLeftFunc(s, unicode.IsSpace)`. -/
def trimLeftFunc (s : GoString) : GoString := trimLeftAux s.length s

/-- `utf8.RuneStart`. -/
def runeStart (b : Byte) : Bool := !isCont b

/-- The index at which `utf8.DecodeLastRuneInString` starts decoding: the
nearest rune start among the up to three bytes before the last one. -/
def lastStart (s : GoString) : Nat :=
  let lim := s.length - 4
  match ((List.range' lim (s.length - 1 - lim)).reverse).find?
      (fun k => match s.get? k with
        | some b => runeStart b
        | none => false) with
  | some k => k
  | none => lim - 1

/-- `utf8.DecodeLastRuneInString`. -/
def decodeLastRune (s : GoString) : Nat × Nat :=
  match s.getLast? with
  | none => (RuneError, 0)
  | some last =>
    if last.val < 0x80 then (last.val, 1)
    else
      let start := lastStart s
      let d := decodeRune (s.drop start)
      if start + d.2 ≠ s.length then (RuneError, 1) else d

/-- The loop of `lastIndexFunc(s, unicode.IsSpace, false)` followed by the
slice taken by `strings.TrimRightFunc`; `i` is the loop index. -/
def trimRightAux (s : GoString) : Nat → Nat → GoString
  | 0, _ => []
  | fuel + 1, i =>
    if i = 0 then []
    else
      let d := decodeLastRune (s.take i)
      let j := i - d.2
      if isSpace d.1 then trimRightAux s fuel j
      else
        match s.get? j with
        | some b => if 0x80 ≤ b.val then s.take (j + (decodeRune (s.drop j)).2) else s.take (j + 1)
        | none => s.take (j + 1)

/-- `strings.TrimRightFunc(s, unicode.IsSpace)`. -/
def trimRightFunc (s : GoString) : GoString := trimRightAux s (s.length + 1) s.length

/-- The second loop of `strings.TrimSpace`, on the reversed string: drop
trailing ASCII spaces, switching to `TrimRightFunc` at a non-ASCII byte. -/
def trimSpaceEnd : GoString → GoString
  | [] => []
  | c :: rest =>
    if 0x80 ≤ c.val then trimRightFunc (c :: rest).reverse
    else if asciiSpace c then trimSpaceEnd rest
    else (c :: rest).reverse

/-- `strings.TrimSpace`. -/
def TrimSpace : GoString → GoString
  | [] => []
  | c :: rest =>
    if 0x80 ≤ c.val then trimRightFunc (trimLeftFunc (c :: rest))
    else if asciiSpace c then TrimSpace rest
    else trimSpaceEnd (c :: rest).reverse

/-! ## `strconv.Atoi` -/

/-- Value of a string of decimal digits, most significant first, continuing
from `acc`; `none` if some byte is not a digit. -/
def digitsFrom : Nat → GoString → Option Nat
  | acc, [] => some acc
  | acc, c :: rest =>
    if 48 ≤ c.val ∧ c.val ≤ 57 then digitsFrom (acc * 10 + (c.val - 48)) rest else none

/-- `strconv.ParseUint(s, 10, 64)` without the range check. -/
def parseDigits : GoString → Option Nat
  | [] => none
  | s => digitsFrom 0 s

/-- `strconv.Atoi` with `err != nil` as `none`: an optional sign and at
least one decimal digit, the value within the range of `int`. -/
def Atoi : GoString → Option Int
  | [] => none
  | c :: rest =>
    if c.val = 43 then
      match parseDigits rest with
      | some n => if n < 2 ^ 63 then some n else none
      | none => none
    else if c.val = 45 then
      match parseDigits rest with
      | some n => if n ≤ 2 ^ 63 then some (-(n : Int)) else none
      | none => none
    else
      match parseDigits (c :: rest) with
      | some n => if n < 2 ^ 63 then some n else none
      | none => none

/-! ## float64 -/

/-- A `float64` value. A finite value is carried as the rational number it
denotes; the results of `round64` are exactly the binary64 numbers. -/
inductive F64 where
  | nan
  | inf (neg : Bool)
  | fin (q : ℚ)
deriving DecidableEq

/-- Number of binary digits of `n`, by halving at most `fuel` times. -/
def bitsAux : Nat → Nat → Nat
  | 0, _ => 0
  | fuel + 1, n => if n = 0 then 0 else bitsAux fuel (n / 2) + 1

/-- Number of binary digits of `n` (`0` for `0`). -/
def bitLen (n : Nat) : Nat := bitsAux n n

/-- The integer nearest to `n / d`, ties to the even one. -/
def rne (n d : Nat) : Nat :=
  if 2 * (n % d) < d then n / d
  else if d < 2 * (n % d) then n / d + 1
  else if n / d % 2 = 0 then n / d else n / d + 1

/-- The exponent of the binary64 grid around `n / d > 0`: the `e` with
`2^52 ≤ (n / d) / 2^e < 2^53`, but not below `-1074` (subnormal numbers). -/
def gridExp (n d : Nat) : Int :=
  let s : Int := (bitLen n : Int) - (bitLen d : Int) - 53
  max (if n * 2 ^ (-s).toNat < d * 2 ^ s.toNat * 2 ^ 53 then s else s + 1) (-1074)

/-- The multiple of `2 ^ gridExp n d` nearest to `n / d`, as a number of
grid steps (IEEE 754 roundTiesToEven with 53 significant bits). -/
def gridSteps (n d : Nat) : Nat :=
  rne (n * 2 ^ (-(gridExp n d)).toNat) (d * 2 ^ (gridExp n d).toNat)

/-- The binary64 number nearest to `n / d > 0`, or `none` when the rounded
value is `2^1024` or more (overflow). -/
def roundPos (n d : Nat) : Option ℚ :=
  if gridSteps n d * 2 ^ (gridExp n d).toNat < 2 ^ 1024 * 2 ^ (-(gridExp n d)).toNat then
    some (((gridSteps n d * 2 ^ (gridExp n d).toNat : ℕ) : ℚ)
      / ((2 ^ (-(gridExp n d)).toNat : ℕ) : ℚ))
  else none

/-- The float64 nearest to the rational `q` (roundTiesToEven), an infinity
on overflow. -/
def round64 (q : ℚ) : F64 :=
  if q = 0 then .fin 0
  else
    match roundPos q.num.natAbs q.den with
    | some v => .fin (if q < 0 then -v else v)
    | none => .inf (decide (q < 0))

namespace F64

/-- The float64 product `x * y`. -/
def mul : F64 → F64 → F64
  | fin a, fin b => round64 (a * b)
  | fin a, inf t => if a = 0 then nan else inf (t != decide (a < 0))
  | inf s, fin b => if b = 0 then nan else inf (s != decide (b < 0))
  | inf s, inf t => inf (s != t)
  | _, _ => nan

/-- `math.Ceil`. -/
def ceil : F64 → F64
  | fin a => fin ⌈a⌉
  | x => x

/-- The comparison `x == y` of two float64 values. -/
def eq : F64 → F64 → Bool
  | fin a, fin b => decide (a = b)
  | inf s, inf t => s == t
  | _, _ => false

end F64

/-- The value of the signed 64 bit integer with the bits of `x`. -/
def wrap64 (x : Int) : Int := (x + 2 ^ 63) % 2 ^ 64 - 2 ^ 63

/-- The `int64` sum `x + y`. -/
def add64 (x y : Int) : Int := wrap64 (x + y)

/-- What converting a float64 that no `int64` can hold yields: left to the
implementation by the Go specification. -/
abbrev Conv := F64 → Int

/-- The integer part of `q`: the fraction is discarded (truncation towards
zero). -/
def trunc (q : ℚ) : Int := q.num.tdiv q.den

/-- The conversions `int(x)` and `int64(x)` of a float64: the fraction is
discarded; when the result does not fit 64 bits, `cv` decides. -/
def toInt (cv : Conv) : F64 → Int
  | .fin q => if -2 ^ 63 ≤ trunc q ∧ trunc q < 2 ^ 63 then trunc q else wrap64 (cv (.fin q))
  | x => wrap64 (cv x)

/-- The conversion `float64(n)` of an integer. -/
def ofInt (n : Int) : F64 := round64 n

/-- The amd64 conversion (CVTTSD2SQ): the "integer indefinite" value. -/
def amd64 : Conv := fun _ => -2 ^ 63

/-- The arm64 conversion (FCVTZS): saturating, NaN to zero. -/
def arm64 : Conv
  | .nan => 0
  | .inf neg => if neg then -2 ^ 63 else 2 ^ 63 - 1
  | .fin q => if q < 0 then -2 ^ 63 else 2 ^ 63 - 1

/-! ## `strconv.ParseFloat` -/

/-- The helper `lower` of `strconv`: `c | 0x20`. -/
def lower (c : Byte) : Nat := if c.val / 32 % 2 = 0 then c.val + 32 else c.val

/-- `commonPrefixLenIgnoreCase(s, pre)`: `pre` is in lower case. -/
def commonPrefixLenIgnoreCase : GoString → GoString → Nat
  | c :: s, p :: pre =>
    if (if 65 ≤ c.val ∧ c.val ≤ 90 then c.val + 32 else c.val) = p.val then
      commonPrefixLenIgnoreCase s pre + 1
    else 0
  | _, _ => 0

/-- Length of the prefix of `s` that spells an infinity, if any. -/
def infinityLen (s : GoString) : Option Nat :=
  let n := commonPrefixLenIgnoreCase s (go "infinity")
  if n = 8 then some 8 else if 3 ≤ n then some 3 else none

/-- The function `special` of `strconv`: a possibly signed infinity or
`nan`, in any case, with the number of bytes read. -/
def special : GoString → Option (F64 × Nat)
  | [] => none
  | c :: rest =>
    if c.val = 43 ∨ c.val = 45 then
      (infinityLen rest).map fun n => (.inf (decide (c.val = 45)), n + 1)
    else if c.val = 105 ∨ c.val = 73 then
      (infinityLen (c :: rest)).map fun n => (.inf false, n)
    else if c.val = 110 ∨ c.val = 78 then
      if commonPrefixLenIgnoreCase (c :: rest) (go "nan") = 3 then some (.nan, 3) else none
    else none

/-- The state of the digit loop of `readFloat`; `mantissa` holds all the
digits read (not only the first 19), so the value read is exact. -/
structure Digits where
  mantissa : Nat := 0
  nd : Nat := 0
  dp : Int := 0
  sawdot : Bool := false
  sawdigits : Bool := false
  underscores : Bool := false

/-- The digit loop of `readFloat`: the state at the first byte that is not
part of the mantissa, and the bytes from there on. -/
def readDigits (hex : Bool) : GoString → Digits → Digits × GoString
  | [], st => (st, [])
  | c :: rest, st =>
    if c.val = 95 then readDigits hex rest { st with underscores := true }
    else if c.val = 46 then
      if st.sawdot then (st, c :: rest)
      else readDigits hex rest { st with sawdot := true, dp := st.nd }
    else if 48 ≤ c.val ∧ c.val ≤ 57 then
      if c.val = 48 ∧ st.nd = 0 then
        readDigits hex rest { st with sawdigits := true, dp := st.dp - 1 }
      else
        readDigits hex rest { st with
          sawdigits := true, nd := st.nd + 1,
          mantissa := st.mantissa * (if hex then 16 else 10) + (c.val - 48) }
    else if hex ∧ 97 ≤ lower c ∧ lower c ≤ 102 then
      readDigits hex rest { st with
        sawdigits := true, nd := st.nd + 1, mantissa := st.mantissa * 16 + (lower c - 87) }
    else (st, c :: rest)

/-- The exponent digit loop of `readFloat`: digits and underscores; the
exponent stops growing at 10000. Returns the exponent, whether an
underscore was seen, and the bytes left. -/
def readExpDigits : GoString → Nat → Bool → Nat × Bool × GoString
  | [], e, u => (e, u, [])
  | c :: rest, e, u =>
    if c.val = 95 then readExpDigits rest e true
    else if 48 ≤ c.val ∧ c.val ≤ 57 then
      readExpDigits rest (if e < 10000 then e * 10 + (c.val - 48) else e) u
    else (e, u, c :: rest)

/-- The optional exponent of `readFloat`, from the exponent character on:
the signed exponent, whether an underscore was seen, and the bytes left;
`none` when no digit follows the exponent character and its sign. -/
def readExp : GoString → Option (Int × Bool × GoString)
  | [] => none
  | c :: rest =>
    let neg := decide (c.val = 45)
    let ds := if c.val = 43 ∨ c.val = 45 then rest else c :: rest
    match ds with
    | [] => none
    | d :: _ =>
      if 48 ≤ d.val ∧ d.val ≤ 57 then
        match readExpDigits ds 0 false with
        | (e, u, left) => some (if neg then -(e : Int) else (e : Int), u, left)
      else none

/-- The scan of `underscoreOK` over the number proper; `saw` is `0` at the
beginning, `1` after a digit or base prefix, `2` after an underscore and
`3` after anything else. -/
def underscoreScan (hex : Bool) : GoString → Nat → Bool
  | [], saw => saw != 2
  | c :: rest, saw =>
    if (48 ≤ c.val ∧ c.val ≤ 57) ∨ (hex ∧ 97 ≤ lower c ∧ lower c ≤ 102) then
      underscoreScan hex rest 1
    else if c.val = 95 then
      if saw != 1 then false else underscoreScan hex rest 2
    else if saw = 2 then false
    else underscoreScan hex rest 3

/-- `underscoreOK`: underscores only between digits, or between a base
prefix and a digit. -/
def underscoreOK (s : GoString) : Bool :=
  let t := match s with
    | c :: rest => if c.val = 45 ∨ c.val = 43 then rest else s
    | [] => s
  match t with
  | c0 :: c1 :: rest =>
    if c0.val = 48 ∧ (lower c1 = 98 ∨ lower c1 = 111 ∨ lower c1 = 120) then
      underscoreScan (decide (lower c1 = 120)) rest 1
    else underscoreScan false t 0
  | _ => underscoreScan false t 0

/-- What `readFloat` reads from a well-formed number that fills the whole
string: the sign and the exact value `mantissa * base ^ exp`. -/
structure Number where
  neg : Bool
  hex : Bool
  mantissa : Nat
  exp : Int

/-- `readFloat` on the whole of `s`: `none` when `s` is not, from its first
to its last byte, a decimal or hexadecimal floating-point number. -/
def readFloat (s : GoString) : Option Number :=
  match s with
  | [] => none
  | c :: rest =>
    let neg := decide (c.val = 45)
    let t := if c.val = 43 ∨ c.val = 45 then rest else s
    let hex := match t with
      | c0 :: c1 :: _ :: _ => decide (c0.val = 48 ∧ lower c1 = 120)
      | _ => false
    match readDigits hex (if hex then t.drop 2 else t) {} with
    | (st, left) =>
      if !st.sawdigits then none
      else
        let dp : Int := if st.sawdot then st.dp else st.nd
        let dp : Int := if hex then dp * 4 else dp
        let nd : Int := if hex then st.nd * 4 else st.nd
        match left with
        | [] =>
          if hex then none
          else if st.underscores && !underscoreOK s then none
          else some ⟨neg, hex, st.mantissa, dp - nd⟩
        | x :: more =>
          if lower x = (if hex then 112 else 101) then
            match readExp more with
            | some (e, u, []) =>
              if (st.underscores || u) && !underscoreOK s then none
              else some ⟨neg, hex, st.mantissa, dp + e - nd⟩
            | _ => none
          else none

/-- The exact value of a number read by `readFloat`. -/
def Number.value (x : Number) : ℚ :=
  let b : ℚ := if x.hex then 2 else 10
  let v : ℚ := if 0 ≤ x.exp then x.mantissa * b ^ x.exp.toNat else x.mantissa / b ^ (-x.exp).toNat
  if x.neg then -v else v

/-- `strconv.ParseFloat(s, 64)`: the float64 and whether `err != nil`.
A syntax error comes with the value `0`; a number too large for a float64
comes with an infinity and a range error. -/
def ParseFloat (s : GoString) : F64 × Bool :=
  match special s with
  | some (v, n) => if n = s.length then (v, false) else (.fin 0, true)
  | none =>
    match readFloat s with
    | none => (.fin 0, true)
    | some x =>
      match round64 x.value with
      | .inf neg => (.inf neg, true)
      | v => (v, false)

/-! ## The data model (`main.go`, lines 17-28) -/

/-- The Go struct `Item`. -/
structure Item where
  shortDescription : GoString
  price : GoString
deriving DecidableEq

/-- The Go struct `Receipt`. -/
structure Receipt where
  retailer : GoString
  purchaseDate : GoString
  purchaseTime : GoString
  items : List Item
  total : GoString
deriving DecidableEq

/-! ## `calculatePoints` (`main.go`, lines 84-160)

Each block of the function body is one function from the value of `points`
before the block to its value after it. -/

/-- The test of line 91 on one code point of the retailer name. -/
def isAlnum (char : Nat) : Bool :=
  (97 ≤ char && char ≤ 122) || (65 ≤ char && char ≤ 90) || (48 ≤ char && char ≤ 57)

/-- Lines 88-94: the counter `totalCharacters` after the loop. -/
def totalCharacters (retailer : GoString) : Int :=
  (runes retailer).foldl (fun n char => if isAlnum char then add64 n 1 else n) 0

/-- Lines 87-96: one point for every alphanumeric character in the
retailer name. -/
def retailerRule (retailer : GoString) (points : Int) : Int :=
  add64 points (totalCharacters retailer)

/-- Lines 98-105: 50 points if the total is a round dollar amount. -/
def roundDollarRule (cv : Conv) (total : GoString) (points : Int) : Int :=
  let totalFloat := (ParseFloat total).1
  let err := (ParseFloat total).2
  if err then points
  else if F64.eq totalFloat (ofInt (toInt cv totalFloat)) then add64 points 50
  else points

/-- Lines 107-111: 25 points if the total is a multiple of 0.25; the block
reads `totalFloat` whether or not the parse succeeded. -/
def quarterRule (cv : Conv) (total : GoString) (points : Int) : Int :=
  let totalFloat := (ParseFloat total).1
  if (toInt cv (totalFloat.mul (.fin 100))).tmod 25 = 0
      ∧ F64.eq (ofInt (toInt cv (totalFloat.mul (.fin 100)))) (totalFloat.mul (.fin 100)) then
    add64 points 25
  else points

/-- Lines 113-119: 5 points for every two items. -/
def pairRule (items : List Item) (points : Int) : Int :=
  add64 points (wrap64 (wrap64 ((items.length : Int).tdiv 2) * 5))

/-- Lines 125-136: the body of the loop over the items. -/
def itemStep (cv : Conv) (points : Int) (item : Item) : Int :=
  if (TrimSpace item.shortDescription).length % 3 = 0 then
    let price := (ParseFloat item.price).1
    let err := (ParseFloat item.price).2
    if err then points
    else add64 points (toInt cv (F64.ceil (price.mul (round64 (1 / 5)))))
  else points

/-- Lines 121-137: the description-length bonus of every item. -/
def descriptionRule (cv : Conv) (items : List Item) (points : Int) : Int :=
  items.foldl (itemStep cv) points

/-- Lines 139-146: 6 points if the day in the purchase date is odd; the
slice `PurchaseDate[8:]` panics on a string of fewer than 8 bytes. -/
def dayRule (purchaseDate : GoString) (points : Int) : Option Int :=
  if purchaseDate.length < 8 then none
  else
    match Atoi (purchaseDate.drop 8) with
    | none => some points
    | some day => if day.tmod 2 ≠ 0 then some (add64 points 6) else some points

/-- Lines 148-156: 10 points if the time of purchase is after 2:00pm and
before 4:00pm; the slices `PurchaseTime[:2]` and `PurchaseTime[3:]` panic
on a string of fewer than 2, respectively 3, bytes. -/
def timeRule (purchaseTime : GoString) (points : Int) : Option Int :=
  if purchaseTime.length < 2 then none
  else if purchaseTime.length < 3 then none
  else
    match Atoi (purchaseTime.take 2), Atoi (purchaseTime.drop 3) with
    | some hour, some minute =>
      if (hour > 14 ∨ (hour = 14 ∧ minute > 0)) ∧ hour < 16 then some (add64 points 10)
      else some points
    | _, _ => some points

/-- The value of `points` after line 96. -/
def afterRetailer (receipt : Receipt) : Int := retailerRule receipt.retailer 0

/-- The value of `points` after line 105. -/
def afterRoundDollar (cv : Conv) (receipt : Receipt) : Int :=
  roundDollarRule cv receipt.total (afterRetailer receipt)

/-- The value of `points` after line 111. -/
def afterQuarter (cv : Conv) (receipt : Receipt) : Int :=
  quarterRule cv receipt.total (afterRoundDollar cv receipt)

/-- The value of `points` after line 119. -/
def afterPairs (cv : Conv) (receipt : Receipt) : Int :=
  pairRule receipt.items (afterQuarter cv receipt)

/-- The value of `points` after line 137. -/
def afterItems (cv : Conv) (receipt : Receipt) : Int :=
  descriptionRule cv receipt.items (afterPairs cv receipt)

/-- The value of `points` after line 146, `none` if line 140 panicked. -/
def afterDay (cv : Conv) (receipt : Receipt) : Option Int :=
  dayRule receipt.purchaseDate (afterItems cv receipt)

/-- The function `calculatePoints`: the score of a receipt, `none` if the
call panics. -/
def calculatePoints (cv : Conv) (receipt : Receipt) : Option Int :=
  (afterDay cv receipt).bind (timeRule receipt.purchaseTime)

/-! ## The receipt store (`main.go`, lines 38-42)

The Go map `receipts` is carried as the list of its assignments, the latest
first; a key is looked up from the front, so that the latest assignment to a
key is the one that counts. -/

/-- The type `map[string]Receipt` of the variable `receipts`. -/
abbrev Store := List (GoString × Receipt)

/-- The keys of the map. -/
def Store.keys (receipts : Store) : List GoString := (receipts.map Prod.fst).dedup

/-- The builtin `len(receipts)`: the number of keys. -/
def Store.len (receipts : Store) : Int := (receipts.keys.length : Nat)

/-- The lookup `receipt, exists := receipts[id]`; `none` is `exists == false`. -/
def Store.get (receipts : Store) (id : GoString) : Option Receipt :=
  (receipts.find? fun e => decide (e.1 = id)).map Prod.snd

/-- The assignment `receipts[id] = receipt`. -/
def Store.set (receipts : Store) (id : GoString) (receipt : Receipt) : Store :=
  (id, receipt) :: receipts

/-- The class `\s` of the regular expression syntax on a code point: tab,
line feed, form feed, carriage return, space. -/
def reSpace (r : Nat) : Bool := r = 9 || r = 10 || r = 12 || r = 13 || r = 32

/-- The call `idRegex.MatchString(id)` for the expression `^\S+$`: the
string is read code point by code point, as by `range`; it matches when it
has at least one code point and none of them is in the class `\s`. -/
def idRegex (id : GoString) : Bool :=
  !(runes id).isEmpty && (runes id).all fun r => !reSpace r

/-- The digit loop of `fmt` in base 10: the digits of `u` are written in
front of `buf`, the least significant first; `fuel` bounds the number of
iterations (`u` is always enough). -/
def fmtDecimal : Nat → Nat → GoString → GoString
  | 0, u, buf => Fin.ofNat (48 + u) :: buf
  | fuel + 1, u, buf =>
    if 10 ≤ u then fmtDecimal fuel (u / 10) (Fin.ofNat (48 + (u - u / 10 * 10)) :: buf)
    else Fin.ofNat (48 + u) :: buf

/-- The call `fmt.Sprintf("%d", n)`. -/
def Sprintf (n : Int) : GoString :=
  (if n < 0 then [45] else []) ++ fmtDecimal n.natAbs n.natAbs []

/-! ## The handlers (`main.go`, lines 44-82) -/

/-- `http.StatusBadRequest`. -/
def StatusBadRequest : Nat := 400

/-- `http.StatusNotFound`. -/
def StatusNotFound : Nat := 404

/-- What a handler writes: `http.Error` with a status code, or one of the two
JSON bodies, with status 200. -/
inductive Response where
  | error (code : Nat)
  | receiptResponse (id : GoString)
  | pointsResponse (points : Int)
deriving DecidableEq

/-- Line 51: the identifier of the next receipt, read from the size of the
map. -/
def nextId (receipts : Store) : GoString := Sprintf (receipts.len + 1)

/-- Lines 51-54 run without interruption: the map after the submission and
the identifier. -/
def submit (receipts : Store) (receipt : Receipt) : Store × GoString :=
  let id := nextId receipts
  (receipts.set id receipt, id)

/-- The function `processReceiptHandler`, run without interruption; `body` is
the result of decoding the request body, `none` when decoding fails. -/
def processReceiptHandler (receipts : Store) (body : Option Receipt) : Store × Response :=
  match body with
  | none => (receipts, .error StatusBadRequest)
  | some receipt => ((submit receipts receipt).1, .receiptResponse (submit receipts receipt).2)

/-- The function `getPointsHandler` on the path variable `id`; `none` when
`calculatePoints` panics. -/
def getPointsHandler (cv : Conv) (receipts : Store) (id : GoString) : Option Response :=
  if !idRegex id then some (.error StatusBadRequest)
  else
    match receipts.get id with
    | none => some (.error StatusNotFound)
    | some receipt => (calculatePoints cv receipt).map .pointsResponse

/-! ### Calls of `processReceiptHandler` running concurrently

Every request is served on a goroutine of its own. Line 51 runs without the
mutex; lines 52-54 run with `mu` held, so the assignment of one call is never
interleaved with that of another: each is one atomic step. -/

/-- A call of `processReceiptHandler` whose body has been decoded: `id` is
the local variable, `none` until line 51 has run; `stored` tells whether
lines 52-54 have run. -/
structure Call where
  receipt : Receipt
  id : Option GoString
  stored : Bool
deriving DecidableEq

/-- The shared map and the calls in flight. -/
structure World where
  receipts : Store
  calls : List Call
deriving DecidableEq

/-- The steps of the call number `i`: line 51, and lines 52-54. -/
inductive Step where
  | line51 (i : Nat)
  | line53 (i : Nat)

/-- One step of one call; a step that is not the next one of its call
leaves the state as it is. -/
def step (w : World) : Step → World
  | .line51 i =>
    match w.calls.get? i with
    | some c =>
      if c.id.isNone then
        { w with calls := w.calls.set i { c with id := some (nextId w.receipts) } }
      else w
    | none => w
  | .line53 i =>
    match w.calls.get? i with
    | some c =>
      match c.id with
      | some id =>
        if c.stored then w
        else
          { receipts := w.receipts.set id c.receipt
            calls := w.calls.set i { c with stored := true } }
      | none => w
    | none => w

/-- The state after the steps of `schedule`, in order. -/
def run (w : World) (schedule : List Step) : World := schedule.foldl step w

/-- The state in which the map is empty and the calls, one for each of the
receipts, have not started. -/
def start (rs : List Receipt) : World :=
  { receipts := [], calls := rs.map fun r => { receipt := r, id := none, stored := false } }

/-! ## Vocabulary of the statements -/

/-- The rational `q` is a binary64 number: `M * 2 ^ e` with at most 53
significant bits, an exponent from `-1074` up, and below `2 ^ 1024` in
magnitude. -/
def IsF64 (q : ℚ) : Prop :=
  ∃ M e : ℤ, |M| < 2 ^ 53 ∧ -1074 ≤ e ∧ q = M * (2 : ℚ) ^ e ∧ |q| < (2 : ℚ) ^ (1024 : ℤ)

/-- The bonus of one item in the words of the specification: when the
trimmed description has a length that is a multiple of 3 and the price
parses, the least integer that is not below one fifth (`0.2`) of the parsed
price, taken exactly; 0 otherwise. -/
def specBonus (item : Item) : Int :=
  if (TrimSpace item.shortDescription).length % 3 = 0 then
    match ParseFloat item.price with
    | (.fin price, false) => ⌈price * (1 / 5)⌉
    | _ => 0
  else 0

/-- Number of bytes of `s` that are ASCII letters or digits. -/
def alnumBytes (s : GoString) : Nat := s.countP fun b => isAlnum b.val

/-- The ASCII digit for `n % 10`. -/
def digit (n : Nat) : Byte := Fin.ofNat (48 + n % 10)

/-- The two-digit decimal numeral of `n < 100`. -/
def twoDigits (n : Nat) : GoString := [digit (n / 10), digit n]

/-- The strict `HH:MM` string for hour `h` and minute `m`. -/
def hhmm (h m : Nat) : GoString := twoDigits h ++ 58 :: twoDigits m

/-- The strict `YYYY-MM-DD` string for year `y`, month `m` and day `d`. -/
def ymd (y m d : Nat) : GoString :=
  twoDigits (y / 100) ++ twoDigits y ++ 45 :: twoDigits m ++ 45 :: twoDigits d

/-- The receipt of the end-to-end scenario: retailer "Target", five items. -/
def sample : Receipt :=
  { retailer := go "Target"
    purchaseDate := go "2022-01-01"
    purchaseTime := go "13:01"
    items :=
      [⟨go "Mountain Dew 12PK", go "6.49"⟩, ⟨go "Emils Cheese Pizza", go "12.25"⟩,
        ⟨go "Knorr Creamy Chicken", go "1.26"⟩, ⟨go "Doritos Nacho Cheese", go "3.35"⟩,
        ⟨go "   Klarbrunn 12-PK 12 FL OZ  ", go "12.00"⟩]
    total := go "35.35" }

/-- A receipt on which every rule but those under study scores nothing: no
retailer, no items, total "1.10", an even day, one o'clock. -/
def plain : Receipt :=
  { retailer := [], purchaseDate := go "2022-01-02", purchaseTime := go "13:00",
    items := [], total := go "1.10" }

/-- Submissions served one after another, starting from `receipts`: the map
after the last one, and the identifiers returned, in order. -/
def submitAll (receipts : Store) : List Receipt → Store × List GoString
  | [] => (receipts, [])
  | r :: rs =>
    ((submitAll (submit receipts r).1 rs).1,
      (submit receipts r).2 :: (submitAll (submit receipts r).1 rs).2)

/-- The decimal numeral of `n > 0`: its digits in base 10, the most
significant first, as ASCII. -/
def decimal (n : Nat) : GoString := (Nat.digits 10 n).reverse.map fun d => Fin.ofNat (48 + d)

/-- The points that one iteration of the loop of lines 124-137 adds for
`item`. -/
def bonus (cv : Conv) (item : Item) : Int := itemStep cv 0 item

/-- The zero value of `Receipt`, which the request body `{}` decodes to: every
string empty, no items. -/
def blank : Receipt :=
  { retailer := [], purchaseDate := [], purchaseTime := [], items := [], total := [] }

/-! ## Machine integers -/

theorem wrap64_of_range {x : Int} (h1 : -2 ^ 63 ≤ x) (h2 : x < 2 ^ 63) : wrap64 x = x := by
  unfold wrap64; omega

theorem wrap64_range (x : Int) : -2 ^ 63 ≤ wrap64 x ∧ wrap64 x < 2 ^ 63 := by
  unfold wrap64; omega

theorem wrap64_add_wrap64_left (a b : Int) : wrap64 (wrap64 a + b) = wrap64 (a + b) := by
  unfold wrap64; omega

theorem wrap64_add_wrap64_right (a b : Int) : wrap64 (a + wrap64 b) = wrap64 (a + b) := by
  unfold wrap64; omega

theorem wrap64_wrap64 (a : Int) : wrap64 (wrap64 a) = wrap64 a := by
  unfold wrap64; omega

theorem add64_right_comm (p a b : Int) : add64 (add64 p a) b = add64 (add64 p b) a := by
  unfold add64 wrap64; omega

theorem add64_wrap64_right (p a : Int) : add64 p (wrap64 a) = add64 p a :=
  wrap64_add_wrap64_right p a

theorem add64_zero_of_range {p : Int} (h1 : -2 ^ 63 ≤ p) (h2 : p < 2 ^ 63) : add64 p 0 = p := by
  unfold add64; rw [Int.add_zero]; exact wrap64_of_range h1 h2

/-! ## The `range` loop over the retailer name -/

theorem isAlnum_of_ge {n : Nat} (h : 123 ≤ n) : isAlnum n = false := by
  simp [isAlnum]; omega

/-- What `decodeRune` returns on a non-empty string: an ASCII byte as itself,
or a code point of at least `0x80` read from bytes that are all at least
`0x80`. -/
theorem decodeRune_cons (b : Byte) (rest : GoString) :
    (b.val < 128 ∧ decodeRune (b :: rest) = (b.val, 1)) ∨
      (128 ≤ (decodeRune (b :: rest)).1 ∧ 1 ≤ (decodeRune (b :: rest)).2 ∧
        ∀ x ∈ (b :: rest).take (decodeRune (b :: rest)).2, 128 ≤ x.val) := by
  by_cases h1 : b.val < 128
  · left; exact ⟨h1, by simp [decodeRune, h1]⟩
  · right
    rcases rest with _ | ⟨b1, _ | ⟨b2, _ | ⟨b3, r⟩⟩⟩ <;>
      simp only [decodeRune, h1, if_false, isCont, RuneError] <;>
      split_ifs <;>
      simp_all <;> omega

/-- One step of the `range` loop sees as many alphanumeric code points (one
or none) as there are alphanumeric bytes among the bytes it consumes. -/
theorem countP_take_decodeRune (b : Byte) (rest : GoString) :
    ((b :: rest).take (decodeRune (b :: rest)).2).countP (fun x => isAlnum x.val)
      = if isAlnum (decodeRune (b :: rest)).1 then 1 else 0 := by
  rcases decodeRune_cons b rest with ⟨_, h⟩ | ⟨h1, _, h3⟩
  · rw [h]; simp [List.countP_cons]
  · rw [isAlnum_of_ge (by omega)]
    simp only [Bool.false_eq_true, if_false, List.countP_eq_zero]
    intro x hx
    simp [isAlnum_of_ge (show 123 ≤ x.val by have := h3 x hx; omega)]

theorem countP_runesAux (fuel : Nat) :
    ∀ s : GoString, s.length ≤ fuel →
      (runesAux fuel s).countP isAlnum = alnumBytes s := by
  induction fuel with
  | zero =>
    intro s hs
    have : s = [] := List.length_eq_zero.mp (Nat.le_zero.mp hs)
    subst this; simp [runesAux, alnumBytes]
  | succ fuel ih =>
    intro s hs
    cases s with
    | nil => simp [runesAux, alnumBytes]
    | cons b rest =>
      have hw : 1 ≤ (decodeRune (b :: rest)).2 := by
        rcases decodeRune_cons b rest with ⟨_, h⟩ | ⟨_, h, _⟩
        · rw [h]
        · exact h
      have hlen : ((b :: rest).drop (decodeRune (b :: rest)).2).length ≤ fuel := by
        rw [List.length_drop]; simp only [List.length_cons] at hs ⊢; omega
      have hsplit : alnumBytes (b :: rest)
          = ((b :: rest).take (decodeRune (b :: rest)).2).countP (fun x => isAlnum x.val)
            + alnumBytes ((b :: rest).drop (decodeRune (b :: rest)).2) := by
        unfold alnumBytes
        rw [← List.countP_append, List.take_append_drop]
      rw [runesAux, List.countP_cons, ih _ hlen, hsplit, countP_take_decodeRune]
      omega

/-- The alphanumeric code points seen by `range s` are as many as the
alphanumeric bytes of `s`. -/
theorem countP_runes (s : GoString) : (runes s).countP isAlnum = alnumBytes s :=
  countP_runesAux s.length s (Nat.le_refl _)

theorem wrap64_foldl_count (l : List Nat) :
    ∀ acc : Int, wrap64 (l.foldl (fun n char => if isAlnum char then add64 n 1 else n) acc)
      = wrap64 (acc + (l.countP isAlnum : Nat)) := by
  induction l with
  | nil => intro acc; simp
  | cons c l ih =>
    intro acc
    rw [List.foldl_cons, ih, List.countP_cons]
    by_cases hc : isAlnum c = true
    · simp only [hc, if_true, add64]
      rw [wrap64_add_wrap64_left]; push_cast; congr 1; omega
    · simp [hc]

/-- Lines 88-96 add the number of ASCII letters and digits of the retailer
name. -/
theorem retailerRule_eq (retailer : GoString) (points : Int) :
    retailerRule retailer points = add64 points (alnumBytes retailer) := by
  unfold retailerRule totalCharacters
  rw [← add64_wrap64_right, wrap64_foldl_count, countP_runes, add64_wrap64_right]
  simp

/-! ## Every block adds an amount that does not depend on `points` -/

theorem roundDollarRule_add64 (cv : Conv) (total : GoString) (p c : Int) :
    roundDollarRule cv total (add64 p c) = add64 (roundDollarRule cv total p) c := by
  unfold roundDollarRule
  simp only []
  split_ifs
  · rfl
  · exact add64_right_comm p c 50
  · rfl

theorem quarterRule_add64 (cv : Conv) (total : GoString) (p c : Int) :
    quarterRule cv total (add64 p c) = add64 (quarterRule cv total p) c := by
  unfold quarterRule
  simp only []
  split_ifs
  · exact add64_right_comm p c 25
  · rfl

theorem pairRule_add64 (items : List Item) (p c : Int) :
    pairRule items (add64 p c) = add64 (pairRule items p) c := by
  unfold pairRule; exact add64_right_comm p c _

theorem itemStep_add64 (cv : Conv) (item : Item) (p c : Int) :
    itemStep cv (add64 p c) item = add64 (itemStep cv p item) c := by
  unfold itemStep
  simp only []
  split_ifs
  · rfl
  · exact add64_right_comm p c _
  · rfl

theorem descriptionRule_add64 (cv : Conv) (items : List Item) :
    ∀ p c : Int, descriptionRule cv items (add64 p c) = add64 (descriptionRule cv items p) c := by
  unfold descriptionRule
  induction items with
  | nil => intro p c; rfl
  | cons item items ih => intro p c; rw [List.foldl_cons, List.foldl_cons, itemStep_add64, ih]

theorem dayRule_add64 (purchaseDate : GoString) (p c : Int) :
    dayRule purchaseDate (add64 p c) = (dayRule purchaseDate p).map fun q => add64 q c := by
  unfold dayRule
  split_ifs
  · rfl
  · split
    · rfl
    · split_ifs
      · simp [add64_right_comm p c 6]
      · rfl

theorem timeRule_add64 (purchaseTime : GoString) (p c : Int) :
    timeRule purchaseTime (add64 p c) = (timeRule purchaseTime p).map fun q => add64 q c := by
  unfold timeRule
  split_ifs
  · rfl
  · rfl
  · split
    · split_ifs
      · simp [add64_right_comm p c 10]
      · rfl
    · rfl

/-! ## `strconv.Atoi` on two digits -/

theorem Atoi_twoDigits (n : Nat) (h : n < 100) : Atoi (twoDigits n) = some (n : Int) := by
  interval_cases n <;> decide

/-! ## Claims on the control flow of `calculatePoints` -/

/-- Claim C2 (code bug): `calculatePoints` does abort. With an empty
`purchaseDate` the slice `receipt.PurchaseDate[8:]` of line 140 is out of
range, whatever the other fields are: the call panics and no score is
returned. -/
theorem calculatePoints_empty_date_panics (cv : Conv) (retailer purchaseTime total : GoString)
    (items : List Item) :
    calculatePoints cv
      { retailer := retailer, purchaseDate := go "", purchaseTime := purchaseTime,
        items := items, total := total } = none := by
  simp [calculatePoints, afterDay, dayRule, go]

/-- Claim C3 (code bug): a total that is not a number does not make rule 3
contribute 0. `ParseFloat` returns the value 0 with its syntax error, line
108 reads that 0, and 0 passes the multiple-of-0.25 test: rule 2 adds
nothing and rule 3 adds 25 points. -/
theorem unparsable_total_earns_quarter_points (cv : Conv) (r : Receipt)
    (h : ParseFloat r.total = (.fin 0, true)) :
    afterRoundDollar cv r = afterRetailer r ∧
      afterQuarter cv r = add64 (afterRetailer r) 25 := by
  have hmul : F64.mul (F64.fin 0) (F64.fin 100) = F64.fin 0 := by
    simp [F64.mul, round64]
  have hto : toInt cv (F64.fin 0) = 0 := by
    simp [toInt, trunc]
  have hof : ofInt 0 = F64.fin 0 := by
    simp [ofInt, round64]
  have h1 : afterRoundDollar cv r = afterRetailer r := by
    simp [afterRoundDollar, roundDollarRule, h]
  refine ⟨h1, ?_⟩
  simp [afterQuarter, quarterRule, h, h1, hmul, hto, hof, F64.eq]

/-- Witness of C3: the total "abc"; the receipt scores 25 although none of
the other five rules contributes. -/
theorem unparsable_total_earns_quarter_points_witness :
    (afterRoundDollar amd64 { plain with total := go "abc" }
        = afterRetailer { plain with total := go "abc" } ∧
      afterQuarter amd64 { plain with total := go "abc" }
        = add64 (afterRetailer { plain with total := go "abc" }) 25) ∧
      calculatePoints amd64 { plain with total := go "abc" } = some 25 ∧
      calculatePoints amd64 plain = some 0 :=
  ⟨unparsable_total_earns_quarter_points amd64 { plain with total := go "abc" } (by decide!),
    by decide!, by decide!⟩

/-- Claim C4: on a strict `HH:MM` purchase time with hour `h` and minute `m`
the afternoon rule adds 10 points to the score exactly when
`(h = 14 and m > 0) or h = 15`, and nothing otherwise. -/
theorem afternoon_rule (cv : Conv) (r : Receipt) (h m : Nat) (hh : h < 100) (hm : m < 100)
    (ht : r.purchaseTime = hhmm h m) :
    calculatePoints cv r
      = (afterDay cv r).map fun p => if (h = 14 ∧ 0 < m) ∨ h = 15 then add64 p 10 else p := by
  have h2 : Atoi ((hhmm h m).take 2) = some (h : Int) := by
    rw [← Atoi_twoDigits h hh]; rfl
  have h3 : Atoi ((hhmm h m).drop 3) = some (m : Int) := by
    rw [← Atoi_twoDigits m hm]; rfl
  have hlen : (hhmm h m).length = 5 := rfl
  have hrule : ∀ p : Int, timeRule (hhmm h m) p
      = some (if (h = 14 ∧ 0 < m) ∨ h = 15 then add64 p 10 else p) := by
    intro p
    unfold timeRule
    rw [h2, h3, hlen]
    simp only [show ¬ (5 < 2) by decide, show ¬ (5 < 3) by decide, if_false]
    have hiff : (((h : Int) > 14 ∨ ((h : Int) = 14 ∧ (m : Int) > 0)) ∧ (h : Int) < 16)
        ↔ ((h = 14 ∧ 0 < m) ∨ h = 15) := by omega
    by_cases hc : (h = 14 ∧ 0 < m) ∨ h = 15
    · rw [if_pos (hiff.mpr hc), if_pos hc]
    · rw [if_neg (fun hx => hc (hiff.mp hx)), if_neg hc]
  unfold calculatePoints
  rw [ht]
  cases afterDay cv r with
  | none => rfl
  | some p => exact hrule p

/-- Witness of C4: "14:01" earns the 10 points, "14:00" and "16:00" do not. -/
theorem afternoon_rule_witness :
    calculatePoints amd64 { plain with purchaseTime := go "14:01" } = some 10 ∧
      calculatePoints amd64 { plain with purchaseTime := go "14:00" } = some 0 ∧
      calculatePoints amd64 { plain with purchaseTime := go "16:00" } = some 0 := by
  refine ⟨?_, ?_, ?_⟩
  · rw [afternoon_rule amd64 { plain with purchaseTime := go "14:01" } 14 1
      (by decide) (by decide) (by decide)]
    decide!
  · rw [afternoon_rule amd64 { plain with purchaseTime := go "14:00" } 14 0
      (by decide) (by decide) (by decide)]
    decide!
  · rw [afternoon_rule amd64 { plain with purchaseTime := go "16:00" } 16 0
      (by decide) (by decide) (by decide)]
    decide!

/-- Claim C8: on a strict `YYYY-MM-DD` purchase date the odd-day rule adds 6
points exactly when the day of the month, the number written from offset 8
on, is odd; the afternoon rule then runs on the result. -/
theorem odd_day_rule (cv : Conv) (r : Receipt) (y mo d : Nat) (hd : d < 100)
    (hdate : r.purchaseDate = ymd y mo d) :
    calculatePoints cv r
      = timeRule r.purchaseTime
          (if d % 2 = 1 then add64 (afterItems cv r) 6 else afterItems cv r) := by
  have h8 : Atoi ((ymd y mo d).drop 8) = some (d : Int) := by
    rw [← Atoi_twoDigits d hd]; rfl
  have hlen : (ymd y mo d).length = 10 := rfl
  unfold calculatePoints afterDay dayRule
  rw [hdate, h8, hlen]
  simp only [show ¬ (10 < 8) by decide, if_false]
  have hiff : (d : Int).tmod 2 ≠ 0 ↔ d % 2 = 1 := by
    rw [Int.tmod_eq_emod (by omega) (by decide)]; omega
  by_cases hc : d % 2 = 1
  · rw [if_pos (hiff.mpr hc), if_pos hc]; rfl
  · rw [if_neg (fun hx => hc (hiff.mp hx)), if_neg hc]; rfl

/-- Witness of C8: "2022-01-01" earns the 6 points and "2022-03-20" does
not. -/
theorem odd_day_rule_witness :
    calculatePoints amd64 { plain with purchaseDate := go "2022-01-01" } = some 6 ∧
      calculatePoints amd64 { plain with purchaseDate := go "2022-03-20" } = some 0 := by
  refine ⟨?_, ?_⟩
  · rw [odd_day_rule amd64 { plain with purchaseDate := go "2022-01-01" } 2022 1 1
      (by decide) (by decide)]
    decide!
  · rw [odd_day_rule amd64 { plain with purchaseDate := go "2022-03-20" } 2022 3 20
      (by decide) (by decide)]
    decide!

/-- Counterexample to C9 as stated: the day "99" is not a day of any month,
yet it parses as the odd integer 99 and the odd-day rule adds its 6 points. -/
theorem out_of_range_day_still_scores :
    Atoi ((go "2022-01-99").drop 8) = some 99 ∧
      afterItems amd64 { plain with purchaseDate := go "2022-01-99" } = 0 ∧
      afterDay amd64 { plain with purchaseDate := go "2022-01-99" } = some 6 ∧
      calculatePoints amd64 { plain with purchaseDate := go "2022-01-99" } = some 6 := by
  refine ⟨by decide, by decide!, by decide!, by decide!⟩

/-- Claim C9 as amended: when the bytes of the purchase date from offset 8 on
are not accepted by `strconv.Atoi` (no integer, or one outside the range of
`int`) the odd-day rule adds nothing; when they are, only the parity of the
integer counts, not whether it is a day of a month. -/
theorem day_rule_unparsable_or_even (cv : Conv) (r : Receipt)
    (hlen : 8 ≤ r.purchaseDate.length)
    (hday : Atoi (r.purchaseDate.drop 8) = none
      ∨ ∃ day : Int, Atoi (r.purchaseDate.drop 8) = some day ∧ day % 2 = 0) :
    calculatePoints cv r = timeRule r.purchaseTime (afterItems cv r) := by
  unfold calculatePoints afterDay dayRule
  rw [if_neg (by omega)]
  rcases hday with h | ⟨day, h, hpar⟩
  · rw [h]; rfl
  · rw [h]
    have : day.tmod 2 = 0 := Int.tmod_eq_zero_of_dvd (Int.dvd_of_emod_eq_zero hpar)
    simp [this]

/-- Witness of C9 as amended: "2022-01-xx" (no integer) and "2022-01-00"
(even) add nothing. -/
theorem day_rule_unparsable_or_even_witness :
    calculatePoints amd64 { plain with purchaseDate := go "2022-01-xx" }
        = timeRule (go "13:00") (afterItems amd64 { plain with purchaseDate := go "2022-01-xx" }) ∧
      calculatePoints amd64 { plain with purchaseDate := go "2022-01-00" }
        = timeRule (go "13:00") (afterItems amd64 { plain with purchaseDate := go "2022-01-00" }) :=
  ⟨day_rule_unparsable_or_even amd64 { plain with purchaseDate := go "2022-01-xx" }
      (by decide) (Or.inl (by decide)),
    day_rule_unparsable_or_even amd64 { plain with purchaseDate := go "2022-01-00" }
      (by decide) (Or.inr ⟨0, by decide, by decide⟩)⟩

/-! ## The retailer rule -/

/-- The score as a function of the points after line 96 and the other four
fields. -/
theorem calculatePoints_unfold (cv : Conv) (r : Receipt) :
    calculatePoints cv r
      = (dayRule r.purchaseDate (descriptionRule cv r.items (pairRule r.items
          (quarterRule cv r.total (roundDollarRule cv r.total
            (add64 0 (alnumBytes r.retailer))))))).bind (timeRule r.purchaseTime) := by
  simp only [calculatePoints, afterDay, afterItems, afterPairs, afterQuarter, afterRoundDollar,
    afterRetailer, retailerRule_eq]

/-- Points added before the other rules run come out added to the score. -/
theorem pipeline_add64 (cv : Conv) (r : Receipt) (p c : Int) :
    (dayRule r.purchaseDate (descriptionRule cv r.items (pairRule r.items
        (quarterRule cv r.total (roundDollarRule cv r.total (add64 p c)))))).bind
          (timeRule r.purchaseTime)
      = ((dayRule r.purchaseDate (descriptionRule cv r.items (pairRule r.items
          (quarterRule cv r.total (roundDollarRule cv r.total p))))).bind
            (timeRule r.purchaseTime)).map fun q => add64 q c := by
  rw [roundDollarRule_add64, quarterRule_add64, pairRule_add64, descriptionRule_add64,
    dayRule_add64]
  cases dayRule r.purchaseDate (descriptionRule cv r.items (pairRule r.items
      (quarterRule cv r.total (roundDollarRule cv r.total p)))) with
  | none => rfl
  | some q => simp [timeRule_add64]

/-- Claim C10: the retailer rule contributes the number of bytes of the
retailer name that are ASCII letters or digits (a non-ASCII letter is made of
bytes from `0x80` up and counts 0): the score with retailer `s` is the score
with the empty retailer plus that count (an `int64` sum). Hence the score
does not change when the bytes of `s` are reordered, and a retailer without
any ASCII letter or digit scores like the empty one. -/
theorem retailer_rule (cv : Conv) (r : Receipt) (s : GoString) :
    calculatePoints cv { r with retailer := s }
        = (calculatePoints cv { r with retailer := [] }).map (fun p => add64 p (alnumBytes s))
      ∧ (∀ t : GoString, s.Perm t →
          calculatePoints cv { r with retailer := s } = calculatePoints cv { r with retailer := t })
      ∧ ((∀ b ∈ s, isAlnum b.val = false) →
          calculatePoints cv { r with retailer := s }
            = calculatePoints cv { r with retailer := [] }) := by
  refine ⟨?_, ?_, ?_⟩
  · rw [calculatePoints_unfold, calculatePoints_unfold]
    have h0 : add64 0 ((alnumBytes ([] : GoString) : Nat) : Int) = 0 := by decide
    simp only [h0]
    exact pipeline_add64 cv r 0 (alnumBytes s)
  · intro t hst
    rw [calculatePoints_unfold, calculatePoints_unfold]
    have : alnumBytes s = alnumBytes t := List.Perm.countP_eq _ hst
    simp only [this]
  · intro hs
    rw [calculatePoints_unfold, calculatePoints_unfold]
    have : alnumBytes s = alnumBytes [] := by
      unfold alnumBytes
      rw [List.countP_nil, List.countP_eq_zero]
      intro b hb
      simp [hs b hb]
    simp only [this]

/-- Instances of C10: "Target" adds 6, "Café 9" adds 4 (the letter é is not
ASCII), and a retailer of punctuation and spaces adds nothing. -/
theorem retailer_rule_witness :
    calculatePoints amd64 { plain with retailer := go "Target" } = some 6 ∧
      calculatePoints amd64 { plain with retailer := go "Café 9" } = some 4 ∧
      calculatePoints amd64 { plain with retailer := go "&- ." } = some 0 := by
  refine ⟨?_, ?_, ?_⟩
  · rw [(retailer_rule amd64 plain (go "Target")).1]; decide!
  · rw [(retailer_rule amd64 plain (go "Café 9")).1]; decide!
  · rw [(retailer_rule amd64 plain (go "&- .")).2.2 (by decide!)]; decide!

/-! ## Rounding to float64 -/

theorem bitsAux_zero (fuel : Nat) : bitsAux fuel 0 = 0 := by
  cases fuel <;> simp [bitsAux]

theorem bitsAux_spec (fuel : Nat) : ∀ n : Nat, n ≤ fuel → n ≠ 0 →
    2 ^ (bitsAux fuel n - 1) ≤ n ∧ n < 2 ^ bitsAux fuel n ∧ 1 ≤ bitsAux fuel n := by
  induction fuel with
  | zero => intro n h hn; omega
  | succ fuel ih =>
    intro n h hn
    rw [bitsAux, if_neg hn]
    by_cases h2 : n / 2 = 0
    · have h1 : n = 1 := by omega
      subst h1
      simp [bitsAux_zero]
    · obtain ⟨a, b, c⟩ := ih (n / 2) (by omega) h2
      have hp : 2 ^ bitsAux fuel (n / 2) = 2 * 2 ^ (bitsAux fuel (n / 2) - 1) := by
        rw [← pow_succ']; congr 1; omega
      refine ⟨?_, ?_, by omega⟩
      · simp only [Nat.add_sub_cancel]; omega
      · rw [pow_succ]; omega

/-- The number `n > 0` has exactly `bitLen n` binary digits. -/
theorem bitLen_spec (n : Nat) (hn : n ≠ 0) :
    2 ^ (bitLen n - 1) ≤ n ∧ n < 2 ^ bitLen n ∧ 1 ≤ bitLen n :=
  bitsAux_spec n n (Nat.le_refl n) hn

theorem bitLen_zpow (n : Nat) (hn : n ≠ 0) :
    (2 : ℚ) ^ ((bitLen n : ℤ) - 1) ≤ n ∧ (n : ℚ) < (2 : ℚ) ^ (bitLen n : ℤ) := by
  obtain ⟨a, b, c⟩ := bitLen_spec n hn
  constructor
  · have : ((bitLen n : ℤ) - 1) = ((bitLen n - 1 : ℕ) : ℤ) := by omega
    rw [this, zpow_natCast]
    exact_mod_cast a
  · rw [zpow_natCast]
    exact_mod_cast b

/-- A power of two with an integer exponent, as the quotient of the two
natural powers the definitions use. -/
theorem pow2_split (e : ℤ) :
    ((2 ^ e.toNat : ℕ) : ℚ) / ((2 ^ (-e).toNat : ℕ) : ℚ) = (2 : ℚ) ^ e := by
  rcases le_total 0 e with h | h
  · have h1 : (-e).toNat = 0 := by omega
    have h2 : ((e.toNat : ℕ) : ℤ) = e := Int.toNat_of_nonneg h
    rw [h1]
    conv_rhs => rw [← h2]
    rw [zpow_natCast]
    simp
  · have h1 : e.toNat = 0 := by omega
    have h2 : (((-e).toNat : ℕ) : ℤ) = -e := Int.toNat_of_nonneg (by omega)
    have h3 : e = -(((-e).toNat : ℕ) : ℤ) := by omega
    rw [h1]
    conv_rhs => rw [h3]
    rw [zpow_neg, zpow_natCast]
    simp

theorem pow2_pos (e : ℤ) : (0 : ℚ) < (2 : ℚ) ^ e := zpow_pos (by norm_num) e

/-- The quotient `n * 2^(-e) / (d * 2^e)` of the definitions is `(n / d) / 2^e`. -/
theorem scaled_eq (n d : Nat) (e : ℤ) :
    ((n * 2 ^ (-e).toNat : ℕ) : ℚ) / ((d * 2 ^ e.toNat : ℕ) : ℚ) = (n : ℚ) / d / (2 : ℚ) ^ e := by
  rw [← pow2_split e]
  push_cast
  have hA : ((2 : ℚ) ^ e.toNat) ≠ 0 := by positivity
  have hB : ((2 : ℚ) ^ (-e).toNat) ≠ 0 := by positivity
  by_cases hd : (d : ℚ) = 0
  · simp [hd]
  · field_simp

theorem zpow_two_lt {a b : ℤ} (h : (2 : ℚ) ^ a < (2 : ℚ) ^ b) : a < b :=
  (zpow_lt_zpow_iff_right₀ (by norm_num : (1 : ℚ) < 2)).mp h

theorem zpow_two_le {a b : ℤ} (h : a ≤ b) : (2 : ℚ) ^ a ≤ (2 : ℚ) ^ b :=
  zpow_le_zpow_right₀ (by norm_num) h

/-- The test of `gridExp` compares `n / d` with `2 ^ (s + 53)`. -/
theorem gridExp_test (n d : Nat) (hd : 0 < d) (s : ℤ) :
    n * 2 ^ (-s).toNat < d * 2 ^ s.toNat * 2 ^ 53 ↔ (n : ℚ) / d < (2 : ℚ) ^ (s + 53) := by
  have hdq : (0 : ℚ) < d := by exact_mod_cast hd
  have hB : (0 : ℚ) < ((2 ^ (-s).toNat : ℕ) : ℚ) := by positivity
  rw [zpow_add₀ (by norm_num : (2 : ℚ) ≠ 0), ← pow2_split s, div_lt_iff₀ hdq]
  rw [← Nat.cast_lt (α := ℚ)]
  push_cast
  rw [div_mul_eq_mul_div, div_mul_eq_mul_div, lt_div_iff₀ (by positivity)]
  constructor <;> intro h <;> nlinarith [h]

/-- The exponent chosen by `gridExp`: the least one from `-1074` up that
leaves at most 53 bits before the binary point. -/
theorem gridExp_spec (n d : Nat) (hn : 0 < n) (hd : 0 < d) :
    -1074 ≤ gridExp n d
      ∧ (n : ℚ) / d < (2 : ℚ) ^ (gridExp n d + 53)
      ∧ (gridExp n d = -1074 ∨ (2 : ℚ) ^ (gridExp n d + 52) ≤ (n : ℚ) / d)
      ∧ ∀ e : ℤ, -1074 ≤ e → (n : ℚ) / d < (2 : ℚ) ^ (e + 53) → gridExp n d ≤ e := by
  have hdq : (0 : ℚ) < d := by exact_mod_cast hd
  obtain ⟨hn1, hn2⟩ := bitLen_zpow n (by omega)
  obtain ⟨hd1, hd2⟩ := bitLen_zpow d (by omega)
  set s : ℤ := (bitLen n : ℤ) - (bitLen d : ℤ) - 53 with hs
  -- 2^(s+52) < n/d < 2^(s+54)
  have hlo : (2 : ℚ) ^ (s + 52) < (n : ℚ) / d := by
    rw [lt_div_iff₀ hdq]
    have h1 : (2 : ℚ) ^ (s + 52) * 2 ^ (bitLen d : ℤ) = 2 ^ ((bitLen n : ℤ) - 1) := by
      rw [← zpow_add₀ (by norm_num : (2 : ℚ) ≠ 0)]; congr 1; omega
    calc (2 : ℚ) ^ (s + 52) * d < (2 : ℚ) ^ (s + 52) * 2 ^ (bitLen d : ℤ) :=
          mul_lt_mul_of_pos_left hd2 (pow2_pos _)
      _ = 2 ^ ((bitLen n : ℤ) - 1) := h1
      _ ≤ n := hn1
  have hhi : (n : ℚ) / d < (2 : ℚ) ^ (s + 54) := by
    rw [div_lt_iff₀ hdq]
    have h1 : (2 : ℚ) ^ (s + 54) * 2 ^ ((bitLen d : ℤ) - 1) = 2 ^ (bitLen n : ℤ) := by
      rw [← zpow_add₀ (by norm_num : (2 : ℚ) ≠ 0)]; congr 1; omega
    calc (n : ℚ) < 2 ^ (bitLen n : ℤ) := hn2
      _ = (2 : ℚ) ^ (s + 54) * 2 ^ ((bitLen d : ℤ) - 1) := h1.symm
      _ ≤ (2 : ℚ) ^ (s + 54) * d := mul_le_mul_of_nonneg_left hd1 (le_of_lt (pow2_pos _))
  have hdef : gridExp n d
      = max (if n * 2 ^ (-s).toNat < d * 2 ^ s.toNat * 2 ^ 53 then s else s + 1) (-1074) := rfl
  rw [hdef]
  simp only [gridExp_test n d hd s]
  by_cases hc : (n : ℚ) / d < (2 : ℚ) ^ (s + 53)
  · rw [if_pos hc]
    refine ⟨le_max_right _ _, ?_, ?_, ?_⟩
    · exact lt_of_lt_of_le hc (zpow_two_le (by have := le_max_left s (-1074); omega))
    · rcases le_total s (-1074) with h | h
      · left; exact max_eq_right h
      · right; rw [max_eq_left h]; exact le_of_lt hlo
    · intro e he hx
      have : s + 52 < e + 53 := zpow_two_lt (lt_trans hlo hx)
      exact max_le (by omega) he
  · rw [if_neg hc]
    have hc' : (2 : ℚ) ^ (s + 53) ≤ (n : ℚ) / d := not_lt.mp hc
    refine ⟨le_max_right _ _, ?_, ?_, ?_⟩
    · have h54 : s + 54 = s + 1 + 53 := by omega
      rw [h54] at hhi
      exact lt_of_lt_of_le hhi (zpow_two_le (by have := le_max_left (s + 1) (-1074); omega))
    · rcases le_total (s + 1) (-1074) with h | h
      · left; exact max_eq_right h
      · right; rw [max_eq_left h]
        have : s + 1 + 52 = s + 53 := by omega
        rw [this]; exact hc'
    · intro e he hx
      have : s + 53 < e + 53 := zpow_two_lt (lt_of_le_of_lt hc' hx)
      exact max_le (by omega) he

/-- The function `rne` returns an integer within one half of `N / D`. -/
theorem rne_spec (N D : Nat) (hD : 0 < D) :
    |((rne N D : ℕ) : ℚ) - (N : ℚ) / D| ≤ 1 / 2 := by
  have hDq : (0 : ℚ) < D := by exact_mod_cast hD
  have hdm : (N : ℚ) = D * ((N / D : ℕ) : ℚ) + ((N % D : ℕ) : ℚ) := by
    exact_mod_cast (Nat.div_add_mod N D).symm
  have hr0 : (0 : ℚ) ≤ ((N % D : ℕ) : ℚ) := by positivity
  have hr : ((N % D : ℕ) : ℚ) < D := by exact_mod_cast Nat.mod_lt N hD
  have hsub : ((rne N D : ℕ) : ℚ) - (N : ℚ) / D = (((rne N D : ℕ) : ℚ) * D - N) / D := by
    field_simp
  rw [hsub, abs_div, abs_of_pos hDq, div_le_iff₀ hDq, abs_le]
  unfold rne
  split_ifs with h1 h2 h3
  · have h1' : (2 : ℚ) * ((N % D : ℕ) : ℚ) < D := by exact_mod_cast h1
    constructor <;> nlinarith
  · have h2' : (D : ℚ) < 2 * ((N % D : ℕ) : ℚ) := by exact_mod_cast h2
    push_cast
    constructor <;> nlinarith
  · have h12 : (2 : ℚ) * ((N % D : ℕ) : ℚ) = D := by
      have : 2 * (N % D) = D := by omega
      exact_mod_cast this
    constructor <;> nlinarith
  · have h12 : (2 : ℚ) * ((N % D : ℕ) : ℚ) = D := by
      have : 2 * (N % D) = D := by omega
      exact_mod_cast this
    push_cast
    constructor <;> nlinarith

/-- The value and the overflow test of `roundPos` in terms of the grid. -/
theorem roundPos_eq (n d : Nat) :
    roundPos n d
      = if ((gridSteps n d : ℕ) : ℚ) * (2 : ℚ) ^ gridExp n d < (2 : ℚ) ^ (1024 : ℤ) then
          some (((gridSteps n d : ℕ) : ℚ) * (2 : ℚ) ^ gridExp n d)
        else none := by
  have hB : (0 : ℚ) < ((2 ^ (-(gridExp n d)).toNat : ℕ) : ℚ) := by positivity
  have hval : ((gridSteps n d * 2 ^ (gridExp n d).toNat : ℕ) : ℚ)
        / ((2 ^ (-(gridExp n d)).toNat : ℕ) : ℚ)
      = ((gridSteps n d : ℕ) : ℚ) * (2 : ℚ) ^ gridExp n d := by
    rw [← pow2_split (gridExp n d)]; push_cast; rw [mul_div_assoc]
  have htest : ∀ T : ℕ, gridSteps n d * 2 ^ (gridExp n d).toNat < T * 2 ^ (-(gridExp n d)).toNat
      ↔ ((gridSteps n d : ℕ) : ℚ) * (2 : ℚ) ^ gridExp n d < (T : ℚ) := by
    intro T
    rw [← hval, div_lt_iff₀ hB, ← Nat.cast_lt (α := ℚ), Nat.cast_mul T]
  have hT : (((2 ^ 1024 : ℕ) : ℕ) : ℚ) = (2 : ℚ) ^ (1024 : ℤ) := by
    rw [Nat.cast_pow, ← zpow_natCast]; rfl
  unfold roundPos
  rw [hval]
  exact if_congr ((htest (2 ^ 1024)).trans (by rw [hT])) rfl rfl

/-- The grid point chosen for `n / d > 0` is within half a grid step of it
and has at most 53 bits (or is `2 ^ 53`). -/
theorem gridSteps_spec (n d : Nat) (hn : 0 < n) (hd : 0 < d) :
    |((gridSteps n d : ℕ) : ℚ) * (2 : ℚ) ^ gridExp n d - (n : ℚ) / d| ≤ (2 : ℚ) ^ gridExp n d / 2
      ∧ gridSteps n d ≤ 2 ^ 53 := by
  have hp := pow2_pos (gridExp n d)
  have hA : 0 < d * 2 ^ (gridExp n d).toNat := Nat.mul_pos hd (by positivity)
  have h := rne_spec (n * 2 ^ (-(gridExp n d)).toNat) (d * 2 ^ (gridExp n d).toNat) hA
  rw [scaled_eq] at h
  change |((gridSteps n d : ℕ) : ℚ) - (n : ℚ) / d / (2 : ℚ) ^ gridExp n d| ≤ 1 / 2 at h
  obtain ⟨_, hlt, _, _⟩ := gridExp_spec n d hn hd
  constructor
  · have hsub : ((gridSteps n d : ℕ) : ℚ) * (2 : ℚ) ^ gridExp n d - (n : ℚ) / d
        = (((gridSteps n d : ℕ) : ℚ) - (n : ℚ) / d / (2 : ℚ) ^ gridExp n d)
          * (2 : ℚ) ^ gridExp n d := by
      field_simp
      ring
    rw [hsub, abs_mul, abs_of_pos hp]
    calc _ ≤ 1 / 2 * (2 : ℚ) ^ gridExp n d := mul_le_mul_of_nonneg_right h (le_of_lt hp)
      _ = (2 : ℚ) ^ gridExp n d / 2 := by ring
  · have hy : (n : ℚ) / d / (2 : ℚ) ^ gridExp n d < (2 : ℚ) ^ (53 : ℕ) := by
      rw [div_lt_iff₀ hp]
      rw [zpow_add₀ (by norm_num : (2 : ℚ) ≠ 0)] at hlt
      have : ((2 : ℚ) ^ (53 : ℤ)) = (2 : ℚ) ^ (53 : ℕ) := by norm_cast
      rw [this] at hlt
      linarith
    have h2 := (abs_le.mp h).2
    have h3 : ((gridSteps n d : ℕ) : ℚ) < (2 : ℚ) ^ (53 : ℕ) + 1 := by linarith
    have h5 : gridSteps n d < 2 ^ 53 + 1 := by exact_mod_cast h3
    omega

theorem natAbs_num_div_den (q : ℚ) : ((q.num.natAbs : ℕ) : ℚ) / (q.den : ℚ) = |q| := by
  have hden : (0 : ℚ) < q.den := by exact_mod_cast q.den_pos
  have h1 : ((q.num.natAbs : ℕ) : ℚ) = |(q.num : ℚ)| := by
    rw [Nat.cast_natAbs, Int.cast_abs]
  rw [h1]
  conv_rhs => rw [← Rat.num_div_den q]
  rw [abs_div, abs_of_pos hden]

/-- The float64 nearest to `q ≠ 0`: `M` steps of the grid `2 ^ e` of `|q|`,
with the sign of `q`, or an infinity when that is `2 ^ 1024` or more. -/
theorem round64_spec (q : ℚ) (hq : q ≠ 0) :
    ∃ (M : ℕ) (e : ℤ), -1074 ≤ e ∧ M ≤ 2 ^ 53
      ∧ |(M : ℚ) * (2 : ℚ) ^ e - abs q| ≤ (2 : ℚ) ^ e / 2
      ∧ |q| < (2 : ℚ) ^ (e + 53)
      ∧ (e = -1074 ∨ (2 : ℚ) ^ (e + 52) ≤ |q|)
      ∧ (∀ e' : ℤ, -1074 ≤ e' → |q| < (2 : ℚ) ^ (e' + 53) → e ≤ e')
      ∧ round64 q
          = if (M : ℚ) * (2 : ℚ) ^ e < (2 : ℚ) ^ (1024 : ℤ) then
              .fin (if q < 0 then -((M : ℚ) * (2 : ℚ) ^ e) else (M : ℚ) * (2 : ℚ) ^ e)
            else .inf (decide (q < 0)) := by
  have hn : 0 < q.num.natAbs := Int.natAbs_pos.mpr (Rat.num_ne_zero.mpr hq)
  have hd : 0 < q.den := q.den_pos
  obtain ⟨g0, g1, g2, g3⟩ := gridExp_spec q.num.natAbs q.den hn hd
  obtain ⟨s1, s2⟩ := gridSteps_spec q.num.natAbs q.den hn hd
  rw [natAbs_num_div_den] at g1 g2 g3 s1
  refine ⟨gridSteps q.num.natAbs q.den, gridExp q.num.natAbs q.den, g0, s2, s1, g1, g2, g3, ?_⟩
  unfold round64
  rw [if_neg hq, roundPos_eq]
  split_ifs <;> rfl

/-! ## Properties of `round64` -/

theorem round64_zero : round64 0 = .fin 0 := by
  unfold round64; rw [if_pos rfl]

theorem two_zpow_53 : (2 : ℚ) ^ (53 : ℤ) = ((2 ^ 53 : ℕ) : ℚ) := by norm_num

/-- An integer is a multiple of every grid step `2 ^ e` with `e ≤ 0`. -/
theorem int_on_grid (n e : ℤ) (he : e ≤ 0) :
    (n : ℚ) = ((n * 2 ^ (-e).toNat : ℤ) : ℚ) * (2 : ℚ) ^ e := by
  have h1 : e = -(((-e).toNat : ℕ) : ℤ) := by omega
  have hk : (2 : ℚ) ^ e = ((2 : ℚ) ^ (-e).toNat)⁻¹ := by
    conv_lhs => rw [h1]
    rw [zpow_neg, zpow_natCast]
  rw [hk]; push_cast
  rw [mul_assoc, mul_inv_cancel₀ (by positivity), mul_one]

/-- The finite result of rounding `q ≠ 0`, with its sign: a multiple `K` of
the grid step `2 ^ e` within half a step of `q`. -/
theorem round64_fin_spec (q t : ℚ) (hq : q ≠ 0) (h : round64 q = .fin t) :
    ∃ (K e : ℤ), -1074 ≤ e ∧ |K| ≤ 2 ^ 53 ∧ t = K * (2 : ℚ) ^ e
      ∧ |t - q| ≤ (2 : ℚ) ^ e / 2
      ∧ |q| < (2 : ℚ) ^ (e + 53)
      ∧ (∀ e' : ℤ, -1074 ≤ e' → |q| < (2 : ℚ) ^ (e' + 53) → e ≤ e')
      ∧ |t| < (2 : ℚ) ^ (1024 : ℤ) ∧ (0 ≤ q → 0 ≤ K) ∧ (q ≤ 0 → K ≤ 0) := by
  obtain ⟨M, e, he, hM, herr, hlt, _, hmin, hr⟩ := round64_spec q hq
  have hp := pow2_pos e
  rw [h] at hr
  by_cases hc : (M : ℚ) * (2 : ℚ) ^ e < (2 : ℚ) ^ (1024 : ℤ)
  · rw [if_pos hc] at hr
    have ht := F64.fin.inj hr
    have hM0 : (0 : ℚ) ≤ (M : ℚ) * (2 : ℚ) ^ e := by positivity
    by_cases hneg : q < 0
    · rw [if_pos hneg] at ht
      refine ⟨-(M : ℤ), e, he, ?_, ?_, ?_, hlt, hmin, ?_, ?_, ?_⟩
      · rw [abs_neg]; simpa using hM
      · rw [ht]; push_cast; ring
      · rw [ht, abs_of_neg hneg] at *
        rw [abs_sub_comm] at herr
        have : -q - (M : ℚ) * (2 : ℚ) ^ e = -((M : ℚ) * (2 : ℚ) ^ e) - q := by ring
        rw [← this, abs_sub_comm]; rw [abs_sub_comm] at herr; exact herr
      · rw [ht, abs_neg, abs_of_nonneg hM0]; exact hc
      · intro h0; exact absurd hneg (not_lt.mpr h0)
      · intro _; omega
    · rw [if_neg hneg] at ht
      have hpos : 0 < q := lt_of_le_of_ne (not_lt.mp hneg) (Ne.symm hq)
      refine ⟨(M : ℤ), e, he, ?_, ?_, ?_, hlt, hmin, ?_, ?_, ?_⟩
      · simpa using hM
      · rw [ht]; push_cast; ring
      · rw [ht]; rw [abs_of_pos hpos] at herr; exact herr
      · rw [ht, abs_of_nonneg hM0]; exact hc
      · intro _; omega
      · intro h0; exact absurd hpos (not_lt.mpr h0)
  · rw [if_neg hc] at hr
    exact absurd hr (by simp)

/-- Every finite result of `round64` is a binary64 number. -/
theorem round64_isF64 (q t : ℚ) (h : round64 q = .fin t) : IsF64 t := by
  by_cases hq : q = 0
  · subst hq
    rw [round64_zero] at h
    have := F64.fin.inj h
    subst this
    exact ⟨0, 0, by norm_num, by norm_num, by simp, by simp; positivity⟩
  · obtain ⟨K, e, he, hK, ht, _, _, _, hlim, _, _⟩ := round64_fin_spec q t hq h
    by_cases hK2 : |K| < 2 ^ 53
    · exact ⟨K, e, hK2, he, ht, hlim⟩
    · have hKeq : |K| = 2 ^ 53 := le_antisymm hK (not_lt.mp hK2)
      refine ⟨K / 2, e + 1, ?_, by omega, ?_, hlim⟩
      · rcases abs_cases K with ⟨h1, _⟩ | ⟨h1, _⟩ <;> rw [abs_lt] <;> constructor <;> omega
      · have h2 : K = 2 * (K / 2) := by
          rcases abs_cases K with ⟨h1, _⟩ | ⟨h1, _⟩ <;> omega
        rw [ht, zpow_add₀ (by norm_num : (2 : ℚ) ≠ 0)]
        conv_lhs => rw [h2]
        push_cast; ring

/-- Rounding leaves a binary64 number as it is. -/
theorem round64_of_isF64 (q : ℚ) (h : IsF64 q) : round64 q = .fin q := by
  by_cases hq : q = 0
  · subst hq; exact round64_zero
  · obtain ⟨M0, e0, hM0, he0, hq0, hlim⟩ := h
    obtain ⟨M, e, he, hM, herr, hlt, _, hmin, hr⟩ := round64_spec q hq
    have hp := pow2_pos e
    have habs : |q| = (|M0| : ℤ) * (2 : ℚ) ^ e0 := by
      rw [hq0, abs_mul, abs_of_pos (pow2_pos e0), Int.cast_abs]
    have hlt0 : |q| < (2 : ℚ) ^ (e0 + 53) := by
      rw [habs, zpow_add₀ (by norm_num : (2 : ℚ) ≠ 0), mul_comm]
      have : ((|M0| : ℤ) : ℚ) < (2 : ℚ) ^ (53 : ℤ) := by
        rw [two_zpow_53]; exact_mod_cast hM0
      exact mul_lt_mul_of_pos_left this (pow2_pos e0)
    have hee : e ≤ e0 := hmin e0 he0 hlt0
    -- |q| = K * 2^e with K a natural number
    have hsplit : (2 : ℚ) ^ e0 = ((2 ^ (e0 - e).toNat : ℕ) : ℚ) * (2 : ℚ) ^ e := by
      have : e0 = ((e0 - e).toNat : ℤ) + e := by omega
      conv_lhs => rw [this]
      rw [zpow_add₀ (by norm_num : (2 : ℚ) ≠ 0), zpow_natCast]; push_cast; ring
    have hK : |q| = ((M0.natAbs * 2 ^ (e0 - e).toNat : ℕ) : ℚ) * (2 : ℚ) ^ e := by
      rw [habs, hsplit]; push_cast
      rw [Nat.cast_natAbs]; push_cast; ring
    have hMK : M = M0.natAbs * 2 ^ (e0 - e).toNat := by
      rw [hK, ← sub_mul, abs_mul, abs_of_pos hp] at herr
      generalize M0.natAbs * 2 ^ (e0 - e).toNat = N at herr ⊢
      have h0 : |(M : ℚ) - (N : ℚ)| * (2 : ℚ) ^ e ≤ 1 / 2 * (2 : ℚ) ^ e := by linarith
      have h1 := abs_le.mp (le_of_mul_le_mul_right h0 hp)
      have h2 : (N : ℚ) < ((M + 1 : ℕ) : ℚ) := by
        push_cast; linarith [h1.1]
      have h3 : (M : ℚ) < ((N + 1 : ℕ) : ℚ) := by
        push_cast; linarith [h1.2]
      have h4 : N < M + 1 := by exact_mod_cast h2
      have h5 : M < N + 1 := by exact_mod_cast h3
      omega
    have hval : (M : ℚ) * (2 : ℚ) ^ e = |q| := by rw [hK, hMK]
    rw [hr, hval, if_pos hlim]
    congr 1
    by_cases hneg : q < 0
    · rw [if_pos hneg, abs_of_neg hneg]; ring
    · rw [if_neg hneg, abs_of_nonneg (not_lt.mp hneg)]

/-- Rounding never crosses an integer of at most 53 bits. -/
theorem round64_le_int (q t : ℚ) (n : ℤ) (hq : |q| < (2 : ℚ) ^ (53 : ℤ))
    (h : round64 q = .fin t) (hn : q ≤ n) : t ≤ n := by
  by_cases hq0 : q = 0
  · subst hq0; rw [round64_zero] at h; rw [← F64.fin.inj h]; exact hn
  · obtain ⟨K, e, he, _, ht, herr, _, hmin, _, _, _⟩ := round64_fin_spec q t hq0 h
    have hp := pow2_pos e
    have he0 : e ≤ 0 := hmin 0 (by norm_num) (by simpa using hq)
    have hgrid := int_on_grid n e he0
    by_contra hcon
    push_neg at hcon
    rw [ht, hgrid] at hcon
    have h1 : ((n * 2 ^ (-e).toNat : ℤ) : ℚ) < (K : ℚ) := lt_of_mul_lt_mul_right hcon (le_of_lt hp)
    have h2 : n * 2 ^ (-e).toNat + 1 ≤ K := by
      have : n * 2 ^ (-e).toNat < K := by exact_mod_cast h1
      omega
    have h3 : ((n * 2 ^ (-e).toNat : ℤ) : ℚ) + 1 ≤ (K : ℚ) := by exact_mod_cast h2
    have h4 : (n : ℚ) + (2 : ℚ) ^ e ≤ t := by
      rw [ht, hgrid]; nlinarith
    have h5 := (abs_le.mp herr).2
    linarith

/-- Rounding never crosses an integer of at most 53 bits from above. -/
theorem round64_ge_int (q t : ℚ) (n : ℤ) (hq : |q| < (2 : ℚ) ^ (53 : ℤ))
    (h : round64 q = .fin t) (hn : (n : ℚ) ≤ q) : (n : ℚ) ≤ t := by
  by_cases hq0 : q = 0
  · subst hq0; rw [round64_zero] at h; rw [← F64.fin.inj h]; exact hn
  · obtain ⟨K, e, he, _, ht, herr, _, hmin, _, _, _⟩ := round64_fin_spec q t hq0 h
    have hp := pow2_pos e
    have he0 : e ≤ 0 := hmin 0 (by norm_num) (by simpa using hq)
    have hgrid := int_on_grid n e he0
    by_contra hcon
    push_neg at hcon
    rw [ht, hgrid] at hcon
    have h1 : (K : ℚ) < ((n * 2 ^ (-e).toNat : ℤ) : ℚ) := lt_of_mul_lt_mul_right hcon (le_of_lt hp)
    have h2 : K + 1 ≤ n * 2 ^ (-e).toNat := by
      have : K < n * 2 ^ (-e).toNat := by exact_mod_cast h1
      omega
    have h3 : (K : ℚ) + 1 ≤ ((n * 2 ^ (-e).toNat : ℤ) : ℚ) := by exact_mod_cast h2
    have h4 : t + (2 : ℚ) ^ e ≤ (n : ℚ) := by
      rw [ht, hgrid]; nlinarith
    have h5 := (abs_le.mp herr).1
    linarith

/-- A rational below `2 ^ 53` in magnitude does not round to an infinity. -/
theorem round64_fin_of_lt (q : ℚ) (hq : |q| < (2 : ℚ) ^ (53 : ℤ)) : ∃ t, round64 q = .fin t := by
  by_cases hq0 : q = 0
  · subst hq0; exact ⟨0, round64_zero⟩
  · obtain ⟨M, e, he, hM, herr, hlt, _, hmin, hr⟩ := round64_spec q hq0
    have he0 : e ≤ 0 := hmin 0 (by norm_num) (by simpa using hq)
    have hc : (M : ℚ) * (2 : ℚ) ^ e < (2 : ℚ) ^ (1024 : ℤ) := by
      have h1 : (M : ℚ) ≤ (2 : ℚ) ^ (53 : ℤ) := by
        rw [two_zpow_53]; exact_mod_cast hM
      have h2 : (2 : ℚ) ^ e ≤ 1 := by
        have := zpow_two_le he0; simpa using this
      have h3 : (2 : ℚ) ^ (53 : ℤ) < (2 : ℚ) ^ (1024 : ℤ) :=
        (zpow_lt_zpow_iff_right₀ (by norm_num : (1 : ℚ) < 2)).mpr (by norm_num)
      calc (M : ℚ) * (2 : ℚ) ^ e ≤ (2 : ℚ) ^ (53 : ℤ) * 1 :=
            mul_le_mul h1 h2 (le_of_lt (pow2_pos e)) (le_of_lt (pow2_pos 53))
        _ < (2 : ℚ) ^ (1024 : ℤ) := by rw [mul_one]; exact h3
    rw [if_pos hc] at hr
    exact ⟨_, hr⟩

/-! ## Truncation and the float/integer conversions -/

theorem trunc_of_nonneg (q : ℚ) (h : 0 ≤ q) : trunc q = ⌊q⌋ := by
  unfold trunc
  rw [Rat.floor_def, Int.tdiv_eq_ediv (Rat.num_nonneg.mpr h) (by positivity)]

theorem trunc_neg (q : ℚ) : trunc (-q) = -trunc q := by
  unfold trunc
  rw [Rat.neg_num, Rat.neg_den, Int.neg_tdiv]

theorem trunc_of_nonpos (q : ℚ) (h : q ≤ 0) : trunc q = ⌈q⌉ := by
  have h1 : trunc q = -trunc (-q) := by rw [trunc_neg, neg_neg]
  rw [h1, trunc_of_nonneg (-q) (by linarith), Int.floor_neg, neg_neg]

theorem trunc_intCast (k : ℤ) : trunc (k : ℚ) = k := by
  rcases le_total 0 k with h | h
  · rw [trunc_of_nonneg _ (by exact_mod_cast h), Int.floor_intCast]
  · rw [trunc_of_nonpos _ (by exact_mod_cast h), Int.ceil_intCast]

/-- Truncation moves towards zero, by less than one. -/
theorem trunc_bounds (q : ℚ) :
    (0 ≤ q → 0 ≤ trunc q ∧ (trunc q : ℚ) ≤ q) ∧ (q ≤ 0 → trunc q ≤ 0 ∧ q ≤ (trunc q : ℚ)) := by
  constructor
  · intro h
    rw [trunc_of_nonneg q h]
    exact ⟨Int.floor_nonneg.mpr h, Int.floor_le q⟩
  · intro h
    rw [trunc_of_nonpos q h]
    exact ⟨Int.ceil_le.mpr (by simpa using h), Int.le_ceil q⟩

theorem trunc_range (q : ℚ) (h1 : -2 ^ 63 ≤ q) (h2 : q < 2 ^ 63) :
    -2 ^ 63 ≤ trunc q ∧ trunc q < 2 ^ 63 := by
  obtain ⟨hp, hn⟩ := trunc_bounds q
  rcases le_total 0 q with h | h
  · obtain ⟨a, b⟩ := hp h
    refine ⟨by omega, ?_⟩
    have : (trunc q : ℚ) < ((2 ^ 63 : ℤ) : ℚ) := by push_cast; linarith
    exact_mod_cast this
  · obtain ⟨a, b⟩ := hn h
    refine ⟨?_, by omega⟩
    have : ((-2 ^ 63 : ℤ) : ℚ) ≤ (trunc q : ℚ) := by push_cast; linarith
    exact_mod_cast this

/-- Within the range of `int64` the conversion of a float truncates it. -/
theorem toInt_fin (cv : Conv) (q : ℚ) (h1 : -2 ^ 63 ≤ q) (h2 : q < 2 ^ 63) :
    toInt cv (.fin q) = trunc q := by
  simp only [toInt]
  rw [if_pos (trunc_range q h1 h2)]

/-- An integer of at most 53 bits is a binary64 number. -/
theorem isF64_intCast (k : ℤ) (hk : |k| ≤ 2 ^ 53) : IsF64 (k : ℚ) := by
  have hlim : |(k : ℚ)| < (2 : ℚ) ^ (1024 : ℤ) := by
    have h1 : |(k : ℚ)| ≤ (2 : ℚ) ^ (53 : ℤ) := by
      rw [two_zpow_53, ← Int.cast_abs]; exact_mod_cast hk
    exact lt_of_le_of_lt h1
      ((zpow_lt_zpow_iff_right₀ (by norm_num : (1 : ℚ) < 2)).mpr (by norm_num))
  by_cases h : |k| < 2 ^ 53
  · exact ⟨k, 0, h, by norm_num, by simp, hlim⟩
  · have hk2 : |k| = 2 ^ 53 := le_antisymm hk (not_lt.mp h)
    refine ⟨k / 2, 1, ?_, by norm_num, ?_, hlim⟩
    · rcases abs_cases k with ⟨h1, _⟩ | ⟨h1, _⟩ <;> rw [abs_lt] <;> constructor <;> omega
    · have h2 : k = 2 * (k / 2) := by
        rcases abs_cases k with ⟨h1, _⟩ | ⟨h1, _⟩ <;> omega
      conv_lhs => rw [h2]
      push_cast; ring

/-- The integer part of a binary64 number is a binary64 number. -/
theorem isF64_trunc (q : ℚ) (h : IsF64 q) : IsF64 (trunc q : ℚ) := by
  obtain ⟨M, e, hM, he, hq, hlim⟩ := h
  rcases le_total 0 e with h0 | h0
  · -- `q` is an integer
    have hint : q = ((M * 2 ^ e.toNat : ℤ) : ℚ) := by
      have : e = ((e.toNat : ℕ) : ℤ) := by omega
      rw [hq]; conv_lhs => rw [this]
      rw [zpow_natCast]; push_cast; rfl
    have : (trunc q : ℚ) = q := by
      conv_lhs => rw [hint]
      rw [trunc_intCast]; exact hint.symm
    rw [this]
    exact ⟨M, e, hM, he, hq, hlim⟩
  · have hq53 : |q| < (2 : ℚ) ^ (53 : ℤ) := by
      rw [hq, abs_mul, abs_of_pos (pow2_pos e)]
      have h1 : |(M : ℚ)| < (2 : ℚ) ^ (53 : ℤ) := by
        rw [two_zpow_53, ← Int.cast_abs]; exact_mod_cast hM
      have h2 : (2 : ℚ) ^ e ≤ 1 := by simpa using zpow_two_le h0
      calc |(M : ℚ)| * (2 : ℚ) ^ e ≤ |(M : ℚ)| * 1 :=
            mul_le_mul_of_nonneg_left h2 (abs_nonneg _)
        _ < (2 : ℚ) ^ (53 : ℤ) := by rw [mul_one]; exact h1
    apply isF64_intCast
    obtain ⟨hp, hn⟩ := trunc_bounds q
    rw [two_zpow_53] at hq53
    rcases le_total 0 q with h | h
    · obtain ⟨a, b⟩ := hp h
      rw [abs_of_nonneg h] at hq53
      have : (trunc q : ℚ) < ((2 ^ 53 : ℤ) : ℚ) := by push_cast; push_cast at hq53; linarith
      have : trunc q < 2 ^ 53 := by exact_mod_cast this
      rw [abs_of_nonneg a]; omega
    · obtain ⟨a, b⟩ := hn h
      rw [abs_of_nonpos h] at hq53
      have : ((-2 ^ 53 : ℤ) : ℚ) < (trunc q : ℚ) := by push_cast; push_cast at hq53; linarith
      have : -2 ^ 53 < trunc q := by exact_mod_cast this
      rw [abs_of_nonpos a]; omega

/-- Converting the integer part of a float64 back to float64 is exact. -/
theorem ofInt_trunc (q : ℚ) (h : IsF64 q) : ofInt (trunc q) = .fin (trunc q : ℚ) :=
  round64_of_isF64 _ (isF64_trunc q h)

/-- A float and the float of its integer part are equal exactly when the
float has no fractional part. -/
theorem trunc_eq_iff (q : ℚ) : q = (trunc q : ℚ) ↔ Int.fract q = 0 := by
  constructor
  · intro h; rw [h]; exact Int.fract_intCast _
  · intro h
    have h1 : q = (⌊q⌋ : ℚ) := by
      have := Int.floor_add_fract q
      rw [h, add_zero] at this
      exact this.symm
    conv_rhs => rw [h1]
    rw [trunc_intCast]; exact h1

/-! ## `strconv.ParseFloat` returns float64 values -/

theorem special_not_fin (s : GoString) (t : ℚ) (n : Nat) : special s ≠ some (.fin t, n) := by
  intro h
  unfold special at h
  split at h
  · simp at h
  · split_ifs at h
    · cases hi : infinityLen _ with
      | none => rw [hi] at h; simp at h
      | some k => rw [hi] at h; simp at h
    · cases hi : infinityLen _ with
      | none => rw [hi] at h; simp at h
      | some k => rw [hi] at h; simp at h
    · simp at h

/-- A finite value returned by `ParseFloat`, with or without an error, is a
binary64 number. -/
theorem ParseFloat_isF64 (s : GoString) (t : ℚ) (err : Bool)
    (h : ParseFloat s = (.fin t, err)) : IsF64 t := by
  have hzero : IsF64 0 := ⟨0, 0, by norm_num, by norm_num, by simp, by simp; positivity⟩
  unfold ParseFloat at h
  split at h
  · rename_i v n hs
    split_ifs at h
    · have : v = .fin t := (Prod.mk.inj h).1
      rw [this] at hs
      exact absurd hs (special_not_fin s t n)
    · have h0 : (0 : ℚ) = t := F64.fin.inj (Prod.mk.inj h).1
      rw [← h0]; exact hzero
  · split at h
    · have : (0 : ℚ) = t := F64.fin.inj (Prod.mk.inj h).1
      rw [← this]; exact hzero
    · rename_i x hx
      split at h
      · simp at h
      · rename_i v hv
        have : round64 x.value = .fin t := (Prod.mk.inj h).1
        exact round64_isF64 _ _ this

/-! ## The two rules on the total -/

/-- If a float64 `t` times 100, rounded to float64, is an integer multiple of
25, then `t` is a multiple of one quarter: rounding the product cannot hide
a fraction of `t` finer than a quarter. -/
theorem quarter_key (t v : ℚ) (j : ℤ) (ht : IsF64 t) (h : round64 (t * 100) = .fin v)
    (hv : v = 25 * (j : ℚ)) : ∃ k : ℤ, t * 4 = k := by
  obtain ⟨M0, e0, hM0, he0, hq0, _⟩ := ht
  rcases le_or_lt (-2) e0 with h2 | h2
  · -- `t * 4 = M0 * 2 ^ (e0 + 2)` is an integer
    refine ⟨M0 * 2 ^ (e0 + 2).toNat, ?_⟩
    have : e0 = (((e0 + 2).toNat : ℕ) : ℤ) + (-2) := by omega
    rw [hq0]; conv_lhs => rw [this]
    rw [zpow_add₀ (by norm_num : (2 : ℚ) ≠ 0), zpow_natCast]
    push_cast; norm_num; ring
  · by_cases ht0 : t = 0
    · exact ⟨0, by rw [ht0]; simp⟩
    have hx0 : t * 100 ≠ 0 := mul_ne_zero ht0 (by norm_num)
    obtain ⟨K, e, he, _, hvK, herr, _, hmin, _, _, _⟩ := round64_fin_spec _ v hx0 h
    -- the grid of the product is at most 7 binary places coarser than that of `t`
    have hM0q : |(M0 : ℚ)| < (2 : ℚ) ^ (53 : ℤ) := by
      rw [two_zpow_53, ← Int.cast_abs]; exact_mod_cast hM0
    have hlt : |t * 100| < (2 : ℚ) ^ (e0 + 7 + 53) := by
      rw [hq0, abs_mul, abs_mul, abs_of_pos (pow2_pos e0)]
      have h7 : (2 : ℚ) ^ (e0 + 7 + 53) = (2 : ℚ) ^ (53 : ℤ) * (2 : ℚ) ^ e0 * 128 := by
        rw [zpow_add₀ (by norm_num : (2 : ℚ) ≠ 0), zpow_add₀ (by norm_num : (2 : ℚ) ≠ 0)]
        norm_num; ring
      rw [h7]
      have hp0 := pow2_pos e0
      have h100 : |(100 : ℚ)| = 100 := by norm_num
      rw [h100]
      have : |(M0 : ℚ)| * (2 : ℚ) ^ e0 < (2 : ℚ) ^ (53 : ℤ) * (2 : ℚ) ^ e0 :=
        mul_lt_mul_of_pos_right hM0q hp0
      nlinarith [abs_nonneg (M0 : ℚ)]
    have hee : e ≤ e0 + 7 := hmin (e0 + 7) (by omega) hlt
    -- write `2 ^ e0 = 1 / (8 * P)`
    obtain ⟨k, hk⟩ : ∃ k : ℕ, e0 = -((k : ℤ) + 3) := ⟨(-e0 - 3).toNat, by omega⟩
    have hP : (2 : ℚ) ^ e0 = 1 / (8 * (2 : ℚ) ^ k) := by
      rw [hk, zpow_neg, ← Nat.cast_ofNat (n := 3), ← Nat.cast_add, zpow_natCast, pow_add]
      norm_num; ring
    have hPpos : (0 : ℚ) < (2 : ℚ) ^ k := by positivity
    have hstep : (2 : ℚ) ^ e / 2 ≤ 64 * (2 : ℚ) ^ e0 := by
      have h1 := zpow_two_le hee
      have h2 : (2 : ℚ) ^ (e0 + 7) = (2 : ℚ) ^ e0 * 128 := by
        rw [zpow_add₀ (by norm_num : (2 : ℚ) ≠ 0)]; norm_num
      rw [h2] at h1; linarith
    have herr2 : |25 * (j : ℚ) - (M0 : ℚ) * (2 : ℚ) ^ e0 * 100| ≤ 64 * (2 : ℚ) ^ e0 := by
      rw [← hv, ← hq0]; exact le_trans herr hstep
    rw [hP] at herr2
    -- multiply by `8 * P`
    have h8P : (0 : ℚ) < 8 * (2 : ℚ) ^ k := by positivity
    have herr3 : |200 * ((j * 2 ^ k : ℤ) : ℚ) - 100 * (M0 : ℚ)| ≤ 64 := by
      have hmul : |25 * (j : ℚ) - (M0 : ℚ) * (1 / (8 * (2 : ℚ) ^ k)) * 100| * (8 * (2 : ℚ) ^ k)
          ≤ 64 * (1 / (8 * (2 : ℚ) ^ k)) * (8 * (2 : ℚ) ^ k) :=
        mul_le_mul_of_nonneg_right herr2 (le_of_lt h8P)
      rw [← abs_of_pos h8P, ← abs_mul, abs_of_pos h8P] at hmul
      have e1 : (25 * (j : ℚ) - (M0 : ℚ) * (1 / (8 * (2 : ℚ) ^ k)) * 100) * (8 * (2 : ℚ) ^ k)
          = 200 * ((j * 2 ^ k : ℤ) : ℚ) - 100 * (M0 : ℚ) := by
        push_cast; field_simp; ring
      have e2 : 64 * (1 / (8 * (2 : ℚ) ^ k)) * (8 * (2 : ℚ) ^ k) = 64 := by
        field_simp
      rw [e1, e2] at hmul; exact hmul
    have herr4 : |200 * (j * 2 ^ k) - 100 * M0| ≤ 64 := by
      have : ((|200 * (j * 2 ^ k) - 100 * M0| : ℤ) : ℚ) ≤ ((64 : ℤ) : ℚ) := by
        push_cast; push_cast at herr3; exact herr3
      exact_mod_cast this
    have hM : M0 = 2 * (j * 2 ^ k) := by
      generalize j * 2 ^ k = w at herr4
      rw [abs_le] at herr4; omega
    refine ⟨j, ?_⟩
    rw [hq0, hP, hM]; push_cast; field_simp; ring

/-- The round-dollar rule within the range of `int64`: when the total parses to
a float64 `t` with `-2 ^ 63 ≤ t < 2 ^ 63`, lines 98-105 add 50 points exactly
when `t` has no fractional part. -/
theorem round_dollar_rule (cv : Conv) (r : Receipt) (t : ℚ)
    (hp : ParseFloat r.total = (.fin t, false)) (h1 : -2 ^ 63 ≤ t) (h2 : t < 2 ^ 63) :
    afterRoundDollar cv r
      = if Int.fract t = 0 then add64 (afterRetailer r) 50 else afterRetailer r := by
  have hF := ParseFloat_isF64 _ _ _ hp
  unfold afterRoundDollar roundDollarRule
  simp only [hp]
  rw [toInt_fin cv t h1 h2, ofInt_trunc t hF]
  simp only [F64.eq, Bool.false_eq_true, if_false, decide_eq_true_eq]
  exact if_congr (trunc_eq_iff t) rfl rfl

/-- The test of line 108 on a total below `2 ^ 46` in magnitude: it holds
exactly when the float64 total is a multiple of one quarter. -/
theorem quarter_test (cv : Conv) (t : ℚ) (ht : IsF64 t) (hb : |t| < 2 ^ 46) :
    ((toInt cv ((F64.fin t).mul (.fin 100))).tmod 25 = 0
        ∧ F64.eq (ofInt (toInt cv ((F64.fin t).mul (.fin 100)))) ((F64.fin t).mul (.fin 100))
          = true)
      ↔ Int.fract (t * 4) = 0 := by
  have hmul : (F64.fin t).mul (.fin 100) = round64 (t * 100) := rfl
  have hx53 : |t * 100| < (2 : ℚ) ^ (53 : ℤ) := by
    rw [abs_mul, two_zpow_53]
    have : |(100 : ℚ)| = 100 := by norm_num
    rw [this]; push_cast; nlinarith [abs_nonneg t]
  obtain ⟨v, hv⟩ := round64_fin_of_lt _ hx53
  have hle : v ≤ ((2 ^ 53 : ℤ) : ℚ) :=
    round64_le_int _ v (2 ^ 53) hx53 hv (by
      have := (abs_lt.mp hx53).2; rw [two_zpow_53] at this; push_cast at this ⊢; linarith)
  have hge : ((-2 ^ 53 : ℤ) : ℚ) ≤ v :=
    round64_ge_int _ v (-2 ^ 53) hx53 hv (by
      have := (abs_lt.mp hx53).1; rw [two_zpow_53] at this; push_cast at this ⊢; linarith)
  push_cast at hle hge
  have hFv : IsF64 v := round64_isF64 _ _ hv
  rw [hmul, hv, toInt_fin cv v (by linarith) (by linarith), ofInt_trunc v hFv]
  simp only [F64.eq, decide_eq_true_eq]
  constructor
  · rintro ⟨hmod, heq⟩
    obtain ⟨j, hj⟩ := Int.dvd_of_tmod_eq_zero hmod
    have hvj : v = 25 * (j : ℚ) := by rw [← heq, hj]; push_cast; ring
    obtain ⟨k, hk⟩ := quarter_key t v j ht hv hvj
    rw [hk]; exact Int.fract_intCast k
  · intro hfr
    have hk : t * 4 = (⌊t * 4⌋ : ℚ) := by
      have := Int.floor_add_fract (t * 4)
      rw [hfr, add_zero] at this; exact this.symm
    set k : ℤ := ⌊t * 4⌋ with hkdef
    have h100 : t * 100 = ((25 * k : ℤ) : ℚ) := by push_cast; linarith
    have hk53 : |25 * k| ≤ 2 ^ 53 := by
      have h1 : |((25 * k : ℤ) : ℚ)| < ((2 ^ 53 : ℤ) : ℚ) := by
        rw [← h100]; rw [two_zpow_53] at hx53; push_cast at hx53 ⊢; exact hx53
      rw [← Int.cast_abs] at h1
      have : |25 * k| < 2 ^ 53 := by exact_mod_cast h1
      omega
    have hr : round64 (t * 100) = .fin ((25 * k : ℤ) : ℚ) := by
      rw [h100]; exact round64_of_isF64 _ (isF64_intCast _ hk53)
    have hvk : v = ((25 * k : ℤ) : ℚ) := F64.fin.inj (hv.symm.trans hr)
    rw [hvk, trunc_intCast]
    exact ⟨Int.mul_tmod_right 25 k, rfl⟩

/-- Claim C5 as amended: when the total parses to a float64 `t` below
`2 ^ 46` in magnitude (about 70 trillion), the quarter-multiple rule adds 25
points exactly when `t` is a multiple of 0.25, that is when `t * 4` has no
fractional part. -/
theorem quarter_rule (cv : Conv) (r : Receipt) (t : ℚ)
    (hp : ParseFloat r.total = (.fin t, false)) (hb : |t| < 2 ^ 46) :
    afterQuarter cv r
      = if Int.fract (t * 4) = 0 then add64 (afterRoundDollar cv r) 25
        else afterRoundDollar cv r := by
  have hF := ParseFloat_isF64 _ _ _ hp
  unfold afterQuarter quarterRule
  simp only [hp]
  exact if_congr (quarter_test cv t hF hb) rfl rfl

/-- Witness of C5 as amended: the totals "100.00" and "25.50" earn the 25
points, "10.33" and "35.35" do not. -/
theorem quarter_rule_witness :
    afterQuarter amd64 { plain with total := go "100.00" }
        = add64 (afterRoundDollar amd64 { plain with total := go "100.00" }) 25 ∧
      afterQuarter amd64 { plain with total := go "25.50" }
        = add64 (afterRoundDollar amd64 { plain with total := go "25.50" }) 25 ∧
      afterQuarter amd64 { plain with total := go "10.33" }
        = afterRoundDollar amd64 { plain with total := go "10.33" } ∧
      afterQuarter amd64 { plain with total := go "35.35" }
        = afterRoundDollar amd64 { plain with total := go "35.35" } :=
  ⟨(quarter_rule amd64 { plain with total := go "100.00" } 100
      (by decide!) (by norm_num [abs_lt])).trans (by decide!),
    (quarter_rule amd64 { plain with total := go "25.50" } (51 / 2)
      (by decide!) (by norm_num [abs_lt])).trans (by decide!),
    (quarter_rule amd64 { plain with total := go "10.33" } (5815273018842153 / 562949953421312)
      (by decide!) (by norm_num [abs_lt])).trans (by decide!),
    (quarter_rule amd64 { plain with total := go "35.35" } (4975070213360845 / 140737488355328)
      (by decide!) (by norm_num [abs_lt])).trans (by decide!)⟩

/-- Counterexample to C5 as stated: the total "140737488355328.25" parses
exactly, to `2 ^ 47 + 1 / 4`, a multiple of 0.25, but its product with 100
needs 54 bits and is rounded to a number that is not a multiple of 25: the
rule adds nothing. -/
theorem quarter_multiple_without_points :
    ParseFloat (go "140737488355328.25") = (.fin (2 ^ 47 + 1 / 4), false) ∧
      Int.fract (((2 : ℚ) ^ 47 + 1 / 4) * 4) = 0 ∧
      afterQuarter amd64 { plain with total := go "140737488355328.25" }
        = afterRoundDollar amd64 { plain with total := go "140737488355328.25" } ∧
      afterQuarter arm64 { plain with total := go "140737488355328.25" }
        = afterRoundDollar arm64 { plain with total := go "140737488355328.25" } ∧
      calculatePoints amd64 { plain with total := go "140737488355328.25" } = some 0 ∧
      calculatePoints amd64 { plain with total := go "0.25" } = some 25 := by
  refine ⟨by decide!, by decide!, by decide!, by decide!, by decide!, by decide!⟩

/-- The round-dollar rule on three totals within the range of `int64`:
"100.00" earns the 50 points, "25.50" and "10.33" do not. -/
theorem round_dollar_rule_witness :
    afterRoundDollar amd64 { plain with total := go "100.00" }
        = add64 (afterRetailer { plain with total := go "100.00" }) 50 ∧
      afterRoundDollar amd64 { plain with total := go "25.50" }
        = afterRetailer { plain with total := go "25.50" } ∧
      afterRoundDollar amd64 { plain with total := go "10.33" }
        = afterRetailer { plain with total := go "10.33" } :=
  ⟨(round_dollar_rule amd64 { plain with total := go "100.00" } 100
      (by decide!) (by norm_num) (by norm_num)).trans (by decide!),
    (round_dollar_rule amd64 { plain with total := go "25.50" } (51 / 2)
      (by decide!) (by norm_num) (by norm_num)).trans (by decide!),
    (round_dollar_rule amd64 { plain with total := go "10.33" }
      (5815273018842153 / 562949953421312)
      (by decide!) (by norm_num) (by norm_num)).trans (by decide!)⟩

/-- Claim C6, the failing input: the total "1e19" parses exactly, to
`10 ^ 19`, a round amount without fractional part, but beyond the range of
`int`; `int(totalFloat)` is then whatever the processor yields, on amd64 and
on arm64 not `10 ^ 19`, and the rule adds nothing: the receipt scores 0 where
"1e3" scores 75. What happens past the range depends on the processor: the
total "9223372036854775808", which is `2 ^ 63`, earns the 50 points on arm64,
where the conversion saturates and the result is rounded back to `2 ^ 63`, and
nothing on amd64. -/
theorem round_total_beyond_int64_scores_nothing :
    ParseFloat (go "1e19") = (.fin (10 ^ 19), false) ∧
      Int.fract ((10 : ℚ) ^ 19) = 0 ∧
      afterRoundDollar amd64 { plain with total := go "1e19" }
        = afterRetailer { plain with total := go "1e19" } ∧
      afterRoundDollar arm64 { plain with total := go "1e19" }
        = afterRetailer { plain with total := go "1e19" } ∧
      calculatePoints amd64 { plain with total := go "1e19" } = some 0 ∧
      calculatePoints arm64 { plain with total := go "1e19" } = some 0 ∧
      calculatePoints amd64 { plain with total := go "1e3" } = some 75 ∧
      ParseFloat (go "9223372036854775808") = (.fin (2 ^ 63), false) ∧
      calculatePoints amd64 { plain with total := go "9223372036854775808" } = some 0 ∧
      calculatePoints arm64 { plain with total := go "9223372036854775808" } = some 50 := by
  refine ⟨by decide!, by decide!, by decide!, by decide!, by decide!, by decide!, by decide!,
    by decide!, by decide!, by decide!⟩

/-! ## The description-length bonus -/

/-- The float64 constant `0.2`. -/
theorem round64_fifth : round64 (1 / 5) = .fin (3602879701896397 / 18014398509481984) := by
  decide!

/-- A binary64 number below `2 ^ 53` in magnitude lies on a grid `2 ^ e`
with `e ≤ 0` on which it has at most 53 bits. -/
theorem isF64_grid (p : ℚ) (hF : IsF64 p) (hp : |p| < (2 : ℚ) ^ (53 : ℤ)) :
    ∃ M e : ℤ, e ≤ 0 ∧ -1074 ≤ e ∧ p = M * (2 : ℚ) ^ e ∧ |p| < (2 : ℚ) ^ (e + 53) := by
  obtain ⟨M0, e0, hM0, he0, hq0, _⟩ := hF
  rcases le_or_lt e0 0 with h | h
  · refine ⟨M0, e0, h, he0, hq0, ?_⟩
    rw [hq0, abs_mul, abs_of_pos (pow2_pos e0), zpow_add₀ (by norm_num : (2 : ℚ) ≠ 0), mul_comm]
    have : |(M0 : ℚ)| < (2 : ℚ) ^ (53 : ℤ) := by
      rw [two_zpow_53, ← Int.cast_abs]; exact_mod_cast hM0
    exact mul_lt_mul_of_pos_left this (pow2_pos e0)
  · refine ⟨M0 * 2 ^ e0.toNat, 0, le_refl 0, by norm_num, ?_, by simpa using hp⟩
    have : e0 = ((e0.toNat : ℕ) : ℤ) := by omega
    rw [hq0]; conv_lhs => rw [this]
    rw [zpow_natCast]; push_cast; simp

/-- The product of a price `0 < p < 2 ^ 53` with the float64 `0.2`, rounded
to float64, is at least 0 and at most the least integer not below `p / 5`. -/
theorem fifth_upper (p v : ℚ) (hp0 : 0 < p) (hp : p < (2 : ℚ) ^ (53 : ℤ))
    (h : round64 (p * (3602879701896397 / 18014398509481984)) = .fin v) :
    0 ≤ v ∧ v ≤ (⌈p / 5⌉ : ℚ) := by
  set x : ℚ := p * (3602879701896397 / 18014398509481984) with hx
  have hx1 : x = p / 5 + p / 5 / 2 ^ 54 := by rw [hx]; ring
  have hxpos : 0 < x := by rw [hx]; positivity
  have hxp : x < p := by rw [hx]; linarith
  have hx53 : |x| < (2 : ℚ) ^ (53 : ℤ) := by rw [abs_of_pos hxpos]; linarith
  refine ⟨by simpa using round64_ge_int x v 0 hx53 h (by simpa using le_of_lt hxpos), ?_⟩
  obtain ⟨K, e, he, _, hvK, herr, hxe, hmin, _, _, _⟩ := round64_fin_spec x v (ne_of_gt hxpos) h
  have he0 : e ≤ 0 := hmin 0 (by norm_num) (by simpa using hx53)
  have hpe := pow2_pos e
  have hgrid := int_on_grid ⌈p / 5⌉ e he0
  have hn2 : p / 5 ≤ (⌈p / 5⌉ : ℚ) := Int.le_ceil _
  -- the excess of `x` over `p / 5` is below half a grid step
  have hexc : p / 5 / 2 ^ 54 < (2 : ℚ) ^ e / 2 := by
    rw [abs_of_pos hxpos, zpow_add₀ (by norm_num : (2 : ℚ) ≠ 0)] at hxe
    have h53 : (2 : ℚ) ^ (53 : ℤ) = 2 ^ 53 := by norm_cast
    rw [h53] at hxe
    have : p / 5 < (2 : ℚ) ^ e * 2 ^ 53 := by
      have : p / 5 ≤ x := by rw [hx1]; have : 0 ≤ p / 5 / 2 ^ 54 := by positivity
                             linarith
      linarith
    have h54 : (0 : ℚ) < 2 ^ 54 := by positivity
    rw [div_lt_iff₀ h54]
    have : (2 : ℚ) ^ e / 2 * 2 ^ 54 = (2 : ℚ) ^ e * 2 ^ 53 := by ring
    linarith
  by_contra hcon
  push_neg at hcon
  rw [hvK, hgrid] at hcon
  have h1 : ((⌈p / 5⌉ * 2 ^ (-e).toNat : ℤ) : ℚ) < (K : ℚ) :=
    lt_of_mul_lt_mul_right hcon (le_of_lt hpe)
  have h2 : ⌈p / 5⌉ * 2 ^ (-e).toNat + 1 ≤ K := by
    have : ⌈p / 5⌉ * 2 ^ (-e).toNat < K := by exact_mod_cast h1
    omega
  have h3 : ((⌈p / 5⌉ * 2 ^ (-e).toNat : ℤ) : ℚ) + 1 ≤ (K : ℚ) := by exact_mod_cast h2
  have h4 : (⌈p / 5⌉ : ℚ) + (2 : ℚ) ^ e ≤ v := by
    rw [hvK, hgrid]; nlinarith
  have h5 := (abs_le.mp herr).2
  linarith

/-- For a float64 price `p` from `2 ^ (-1020)` up and below `2 ^ 53`, the
float64 product with `0.2` lies above the integers below `p / 5`. -/
theorem fifth_lower (p v : ℚ) (hF : IsF64 p) (hlo : 1 / 2 ^ 1020 ≤ p) (hp : p < (2 : ℚ) ^ (53 : ℤ))
    (h : round64 (p * (3602879701896397 / 18014398509481984)) = .fin v) :
    (⌈p / 5⌉ : ℚ) - 1 < v := by
  have hp0 : 0 < p := lt_of_lt_of_le (by positivity) hlo
  obtain ⟨Mp, ep, hep0, _, hpM, hplt⟩ := isF64_grid p hF (by rw [abs_of_pos hp0]; exact hp)
  rw [abs_of_pos hp0] at hplt
  have hep : -1072 ≤ ep := by
    have h1 : (2 : ℚ) ^ (-1020 : ℤ) ≤ p := by
      have : (2 : ℚ) ^ (-1020 : ℤ) = 1 / 2 ^ 1020 := by
        rw [zpow_neg, one_div]; norm_cast
      rw [this]; exact hlo
    have := zpow_two_lt (lt_of_le_of_lt h1 hplt)
    omega
  set x : ℚ := p * (3602879701896397 / 18014398509481984) with hx
  have hx1 : x = p / 5 + p / 5 / 2 ^ 54 := by rw [hx]; ring
  have hxpos : 0 < x := by rw [hx]; positivity
  have hxlt : |x| < (2 : ℚ) ^ (ep - 2 + 53) := by
    rw [abs_of_pos hxpos]
    have h4 : (2 : ℚ) ^ (ep - 2 + 53) = (2 : ℚ) ^ (ep + 53) / 4 := by
      have : ep - 2 + 53 = ep + 53 + (-2) := by ring
      rw [this, zpow_add₀ (by norm_num : (2 : ℚ) ≠ 0)]; norm_num; ring
    rw [h4, hx]; linarith
  obtain ⟨K, e, he, _, hvK, herr, _, hmin, _, _, _⟩ := round64_fin_spec x v (ne_of_gt hxpos) h
  have hee : e ≤ ep - 2 := hmin (ep - 2) (by omega) hxlt
  have hstep : (2 : ℚ) ^ e / 2 ≤ (2 : ℚ) ^ ep / 8 := by
    have h1 := zpow_two_le hee
    have h2 : (2 : ℚ) ^ (ep - 2) = (2 : ℚ) ^ ep / 4 := by
      have : ep - 2 = ep + (-2) := by ring
      rw [this, zpow_add₀ (by norm_num : (2 : ℚ) ≠ 0)]; norm_num; ring
    rw [h2] at h1; linarith
  have hpp := pow2_pos ep
  -- `p` and `5 * (n - 1)` lie on the grid `2 ^ ep`
  have hn1 : ((⌈p / 5⌉ - 1 : ℤ) : ℚ) < p / 5 := by
    have := Int.ceil_lt_add_one (p / 5)
    push_cast; linarith
  have hgrid := int_on_grid (5 * (⌈p / 5⌉ - 1)) ep hep0
  have hgap : ((5 * (⌈p / 5⌉ - 1) : ℤ) : ℚ) + (2 : ℚ) ^ ep ≤ p := by
    have h1 : ((5 * (⌈p / 5⌉ - 1) : ℤ) : ℚ) < p := by push_cast; push_cast at hn1; linarith
    rw [hgrid] at h1 ⊢
    conv at h1 => rhs; rw [hpM]
    have h2 : ((5 * (⌈p / 5⌉ - 1) * 2 ^ (-ep).toNat : ℤ) : ℚ) < (Mp : ℚ) :=
      lt_of_mul_lt_mul_right h1 (le_of_lt hpp)
    have h3 : 5 * (⌈p / 5⌉ - 1) * 2 ^ (-ep).toNat + 1 ≤ Mp := by
      have : 5 * (⌈p / 5⌉ - 1) * 2 ^ (-ep).toNat < Mp := by exact_mod_cast h2
      omega
    have h4 : ((5 * (⌈p / 5⌉ - 1) * 2 ^ (-ep).toNat : ℤ) : ℚ) + 1 ≤ (Mp : ℚ) := by
      exact_mod_cast h3
    conv_rhs => rw [hpM]
    nlinarith
  have h5 := (abs_le.mp herr).1
  push_cast at hgap
  have hxge : p / 5 ≤ x := by
    rw [hx1]; have : 0 ≤ p / 5 / 2 ^ 54 := by positivity
    linarith
  linarith

/-- The amount line 130 adds for a price that parses to the float64 `p`,
`p = 0` or `2 ^ (-1020) ≤ p < 2 ^ 53`: the least integer not below `p / 5`. -/
theorem bonus_eq_ceil (cv : Conv) (p : ℚ) (hF : IsF64 p) (hlo : p = 0 ∨ 1 / 2 ^ 1020 ≤ p)
    (hp : p < 2 ^ 53) :
    toInt cv (F64.ceil ((F64.fin p).mul (round64 (1 / 5)))) = ⌈p * (1 / 5)⌉ := by
  have hmul : (F64.fin p).mul (round64 (1 / 5))
      = round64 (p * (3602879701896397 / 18014398509481984)) := by
    rw [round64_fifth]; rfl
  rw [hmul]
  have hp53 : p < (2 : ℚ) ^ (53 : ℤ) := by rw [two_zpow_53]; push_cast; exact hp
  rcases hlo with h0 | hlo
  · subst h0
    rw [zero_mul, round64_zero]
    simp only [F64.ceil]
    rw [Int.ceil_zero]
    rw [toInt_fin cv _ (by norm_num) (by norm_num)]
    have := trunc_intCast 0
    simpa using this
  · have hp0 : 0 < p := lt_of_lt_of_le (by positivity) hlo
    have hx53 : |p * (3602879701896397 / 18014398509481984)| < (2 : ℚ) ^ (53 : ℤ) := by
      rw [abs_of_pos (by positivity)]; linarith
    obtain ⟨v, hv⟩ := round64_fin_of_lt _ hx53
    obtain ⟨_, hup⟩ := fifth_upper p v hp0 hp53 hv
    have hlow := fifth_lower p v hF hlo hp53 hv
    have hceil : ⌈v⌉ = ⌈p / 5⌉ := Int.ceil_eq_iff.mpr ⟨hlow, hup⟩
    rw [hv]
    simp only [F64.ceil]
    have h15 : p * (1 / 5) = p / 5 := by ring
    rw [hceil, h15]
    have hn0 : 0 ≤ ⌈p / 5⌉ := Int.ceil_nonneg (by positivity)
    have hn1 : ⌈p / 5⌉ < 2 ^ 53 := by
      have : ⌈p / 5⌉ ≤ 2 ^ 53 - 1 := by
        apply Int.ceil_le.mpr
        push_cast; linarith
      omega
    have hq0 : (0 : ℚ) ≤ (⌈p / 5⌉ : ℚ) := by exact_mod_cast hn0
    have hq1 : (⌈p / 5⌉ : ℚ) < 2 ^ 53 := by exact_mod_cast hn1
    rw [toInt_fin cv _ (by linarith) (by linarith), trunc_intCast]

/-- One iteration of the loop of lines 124-137 adds the bonus of the
specification, for an item whose price, if the item qualifies and the price
parses, parses to 0 or to a float64 from `2 ^ (-1020)` up and below `2 ^ 53`. -/
theorem itemStep_spec (cv : Conv) (a : Int) (item : Item)
    (h : (TrimSpace item.shortDescription).length % 3 = 0 → (ParseFloat item.price).2 = false →
      ∃ p : ℚ, (ParseFloat item.price).1 = .fin p ∧ (p = 0 ∨ 1 / 2 ^ 1020 ≤ p) ∧ p < 2 ^ 53) :
    itemStep cv (wrap64 a) item = wrap64 (a + specBonus item) := by
  unfold itemStep specBonus
  by_cases hel : (TrimSpace item.shortDescription).length % 3 = 0
  · simp only [hel, if_true]
    cases herr : (ParseFloat item.price).2 with
    | true =>
      have hm : ParseFloat item.price = ((ParseFloat item.price).1, true) := by rw [← herr]
      rw [hm]; simp
    | false =>
      obtain ⟨p, hp, hlo, hhi⟩ := h hel herr
      have hm : ParseFloat item.price = (.fin p, false) := by rw [← hp, ← herr]
      have hF := ParseFloat_isF64 _ _ _ hm
      rw [hm]
      simp only [Bool.false_eq_true, if_false]
      rw [bonus_eq_ceil cv p hF hlo hhi]
      exact wrap64_add_wrap64_left a _
  · simp only [hel, if_false, Int.add_zero]

theorem descriptionRule_spec (cv : Conv) (items : List Item) :
    ∀ a : Int,
      (∀ item ∈ items, (TrimSpace item.shortDescription).length % 3 = 0 →
        (ParseFloat item.price).2 = false →
        ∃ p : ℚ, (ParseFloat item.price).1 = .fin p ∧ (p = 0 ∨ 1 / 2 ^ 1020 ≤ p) ∧ p < 2 ^ 53) →
      descriptionRule cv items (wrap64 a) = wrap64 (a + (items.map specBonus).sum) := by
  unfold descriptionRule
  induction items with
  | nil => intro a _; simp
  | cons item items ih =>
    intro a h
    rw [List.foldl_cons, itemStep_spec cv a item (h item (List.mem_cons_self _ _)),
      ih _ (fun i hi => h i (List.mem_cons_of_mem _ hi)), List.map_cons, List.sum_cons]
    congr 1; ring

/-- Claim C7 as amended: the description-length rule adds to the score the
sum over all items of `b(item)` (an `int64` sum), where `b(item)` is the
least integer not below one fifth of the parsed price when the trimmed
description has a length that is a multiple of 3 (0 included) and the price
parses, and 0 otherwise; provided every such price parses to 0 or to a
float64 from `2 ^ (-1020)` up and below `2 ^ 53`. -/
theorem description_rule (cv : Conv) (r : Receipt)
    (h : ∀ item ∈ r.items, (TrimSpace item.shortDescription).length % 3 = 0 →
      (ParseFloat item.price).2 = false →
      ∃ p : ℚ, (ParseFloat item.price).1 = .fin p ∧ (p = 0 ∨ 1 / 2 ^ 1020 ≤ p) ∧ p < 2 ^ 53) :
    afterItems cv r = add64 (afterPairs cv r) ((r.items.map specBonus).sum) := by
  have hw : afterPairs cv r = wrap64 (afterPairs cv r) := by
    unfold afterPairs pairRule add64; rw [wrap64_wrap64]
  unfold afterItems
  rw [hw, descriptionRule_spec cv r.items _ h, ← hw]
  rfl

/-- Witness of C7 as amended: a blank description of three spaces with the
price "6.49" contributes 2, and so does the sample receipt's pair of
qualifying items contribute 3 each. -/
theorem description_rule_witness :
    afterItems amd64 { plain with items := [⟨go "   ", go "6.49"⟩] }
        = add64 (afterPairs amd64 { plain with items := [⟨go "   ", go "6.49"⟩] }) 2 ∧
      specBonus ⟨go "   ", go "6.49"⟩ = 2 ∧
      (sample.items.map specBonus) = [0, 3, 0, 0, 3] := by
  refine ⟨?_, by decide!, by decide!⟩
  have h := description_rule amd64 { plain with items := [⟨go "   ", go "6.49"⟩] } (by
    intro item hi _ _
    have : item = ⟨go "   ", go "6.49"⟩ := by simpa [plain] using hi
    subst this
    exact ⟨3653545197704315 / 562949953421312, by decide!, Or.inr (by norm_num), by norm_num⟩)
  exact h.trans (by decide!)

/-- Counterexample to C7 as stated: the price "1152921504606846976" parses
exactly, to `2 ^ 60`; one fifth of it is no integer and the least integer
above is 230584300921369396, but the float64 product with `0.2` keeps only
53 bits and line 130 adds 230584300921369408. -/
theorem bonus_of_large_price_is_rounded :
    ParseFloat (go "1152921504606846976") = (.fin (2 ^ 60), false) ∧
      specBonus ⟨go "", go "1152921504606846976"⟩ = 230584300921369396 ∧
      itemStep amd64 0 ⟨go "", go "1152921504606846976"⟩ = 230584300921369408 ∧
      itemStep arm64 0 ⟨go "", go "1152921504606846976"⟩ = 230584300921369408 := by
  refine ⟨by decide!, by decide!, by decide!, by decide!⟩

/-! ## The sign of the score -/

theorem add64_bounds {p d B D : Int} (h0 : 0 ≤ p) (h1 : p ≤ B) (h2 : 0 ≤ d) (h3 : d ≤ D)
    (h4 : B + D < 2 ^ 63) : 0 ≤ add64 p d ∧ add64 p d ≤ B + D := by
  unfold add64
  rw [wrap64_of_range (by omega) (by omega)]
  omega

theorem roundDollarRule_cases (cv : Conv) (total : GoString) (p : Int) :
    roundDollarRule cv total p = p ∨ roundDollarRule cv total p = add64 p 50 := by
  unfold roundDollarRule
  simp only []
  split_ifs
  · left; rfl
  · right; rfl
  · left; rfl

theorem quarterRule_cases (cv : Conv) (total : GoString) (p : Int) :
    quarterRule cv total p = p ∨ quarterRule cv total p = add64 p 25 := by
  unfold quarterRule
  simp only []
  split_ifs
  · right; rfl
  · left; rfl

theorem dayRule_cases (purchaseDate : GoString) (p : Int) (h : 8 ≤ purchaseDate.length) :
    dayRule purchaseDate p = some p ∨ dayRule purchaseDate p = some (add64 p 6) := by
  unfold dayRule
  rw [if_neg (by omega)]
  split
  · left; rfl
  · split_ifs
    · right; rfl
    · left; rfl

theorem timeRule_cases (purchaseTime : GoString) (p : Int) (h : 3 ≤ purchaseTime.length) :
    timeRule purchaseTime p = some p ∨ timeRule purchaseTime p = some (add64 p 10) := by
  unfold timeRule
  rw [if_neg (by omega), if_neg (by omega)]
  split
  · split_ifs
    · right; rfl
    · left; rfl
  · left; rfl

/-- The amount line 130 adds for a price that parses to a float64 between 0
and `10 ^ 9` lies between 0 and `2 * 10 ^ 8`. -/
theorem bonus_bounds (cv : Conv) (p : ℚ) (h0 : 0 ≤ p) (h1 : p ≤ 10 ^ 9) :
    0 ≤ toInt cv (F64.ceil ((F64.fin p).mul (round64 (1 / 5))))
      ∧ toInt cv (F64.ceil ((F64.fin p).mul (round64 (1 / 5)))) ≤ 2 * 10 ^ 8 := by
  have hmul : (F64.fin p).mul (round64 (1 / 5))
      = round64 (p * (3602879701896397 / 18014398509481984)) := by
    rw [round64_fifth]; rfl
  rw [hmul]
  rcases eq_or_lt_of_le h0 with h | hp0
  · subst h
    rw [zero_mul, round64_zero]
    simp only [F64.ceil]
    rw [Int.ceil_zero, toInt_fin cv _ (by norm_num) (by norm_num)]
    have := trunc_intCast 0
    simp only [Int.cast_zero] at this ⊢
    rw [this]; norm_num
  · have hp53 : p < (2 : ℚ) ^ (53 : ℤ) := by rw [two_zpow_53]; push_cast; linarith
    have hx53 : |p * (3602879701896397 / 18014398509481984)| < (2 : ℚ) ^ (53 : ℤ) := by
      rw [abs_of_pos (by positivity)]; linarith
    obtain ⟨v, hv⟩ := round64_fin_of_lt _ hx53
    obtain ⟨hv0, hup⟩ := fifth_upper p v hp0 hp53 hv
    rw [hv]
    simp only [F64.ceil]
    have hc0 : 0 ≤ ⌈v⌉ := Int.ceil_nonneg hv0
    have hn : ⌈p / 5⌉ ≤ 2 * 10 ^ 8 := Int.ceil_le.mpr (by push_cast; linarith)
    have hc1 : ⌈v⌉ ≤ 2 * 10 ^ 8 := le_trans (Int.ceil_le.mpr hup) hn
    have hq0 : (0 : ℚ) ≤ (⌈v⌉ : ℚ) := by exact_mod_cast hc0
    have hq1 : (⌈v⌉ : ℚ) ≤ 2 * 10 ^ 8 := by exact_mod_cast hc1
    rw [toInt_fin cv _ (by linarith) (by linarith), trunc_intCast]
    exact ⟨hc0, hc1⟩

theorem itemStep_bounds (cv : Conv) (item : Item) (p B : Int) (h0 : 0 ≤ p) (h1 : p ≤ B)
    (hB : B + 2 * 10 ^ 8 < 2 ^ 63)
    (h : (TrimSpace item.shortDescription).length % 3 = 0 → (ParseFloat item.price).2 = false →
      ∃ q : ℚ, (ParseFloat item.price).1 = .fin q ∧ 0 ≤ q ∧ q ≤ 10 ^ 9) :
    0 ≤ itemStep cv p item ∧ itemStep cv p item ≤ B + 2 * 10 ^ 8 := by
  unfold itemStep
  simp only []
  split_ifs with hel herr
  · exact ⟨h0, by omega⟩
  · obtain ⟨q, hq, hq0, hq1⟩ := h hel (by simpa using herr)
    rw [hq]
    obtain ⟨b0, b1⟩ := bonus_bounds cv q hq0 hq1
    exact add64_bounds h0 h1 b0 b1 hB
  · exact ⟨h0, by omega⟩

theorem descriptionRule_bounds (cv : Conv) (items : List Item) :
    ∀ p B : Int, 0 ≤ p → p ≤ B → B + items.length * (2 * 10 ^ 8) < 2 ^ 63 →
      (∀ item ∈ items, (TrimSpace item.shortDescription).length % 3 = 0 →
        (ParseFloat item.price).2 = false →
        ∃ q : ℚ, (ParseFloat item.price).1 = .fin q ∧ 0 ≤ q ∧ q ≤ 10 ^ 9) →
      0 ≤ descriptionRule cv items p
        ∧ descriptionRule cv items p ≤ B + items.length * (2 * 10 ^ 8) := by
  unfold descriptionRule
  induction items with
  | nil => intro p B h0 h1 _ _; simpa using ⟨h0, h1⟩
  | cons item items ih =>
    intro p B h0 h1 hB h
    simp only [List.length_cons, Nat.cast_add, Nat.cast_one] at hB ⊢
    have hlen : (0 : Int) ≤ (items.length : Int) := Int.natCast_nonneg _
    obtain ⟨s0, s1⟩ := itemStep_bounds cv item p B h0 h1 (by nlinarith)
      (h item (List.mem_cons_self _ _))
    obtain ⟨r0, r1⟩ := ih (itemStep cv p item) (B + 2 * 10 ^ 8) s0 s1 (by nlinarith)
      (fun i hi => h i (List.mem_cons_of_mem _ hi))
    rw [List.foldl_cons]
    exact ⟨r0, by nlinarith⟩

theorem roundDollarRule_bounds (cv : Conv) (total : GoString) (p B : Int) (h0 : 0 ≤ p)
    (h1 : p ≤ B) (hB : B + 50 < 2 ^ 63) :
    0 ≤ roundDollarRule cv total p ∧ roundDollarRule cv total p ≤ B + 50 := by
  rcases roundDollarRule_cases cv total p with h | h <;> rw [h]
  · exact ⟨h0, by omega⟩
  · exact add64_bounds h0 h1 (by norm_num) (le_refl 50) hB

theorem quarterRule_bounds (cv : Conv) (total : GoString) (p B : Int) (h0 : 0 ≤ p)
    (h1 : p ≤ B) (hB : B + 25 < 2 ^ 63) :
    0 ≤ quarterRule cv total p ∧ quarterRule cv total p ≤ B + 25 := by
  rcases quarterRule_cases cv total p with h | h <;> rw [h]
  · exact ⟨h0, by omega⟩
  · exact add64_bounds h0 h1 (by norm_num) (le_refl 25) hB

theorem pairRule_bounds (items : List Item) (p B : Int) (h0 : 0 ≤ p) (h1 : p ≤ B)
    (hB : B + 5 * 10 ^ 6 < 2 ^ 63) (hlen : items.length ≤ 10 ^ 6) :
    0 ≤ pairRule items p ∧ pairRule items p ≤ B + 5 * 10 ^ 6 := by
  have hlenI : (items.length : Int) ≤ 10 ^ 6 := by exact_mod_cast hlen
  have hlen0 : (0 : Int) ≤ (items.length : Int) := Int.natCast_nonneg _
  unfold pairRule
  have hdiv : (items.length : Int).tdiv 2 = (items.length : Int) / 2 :=
    Int.tdiv_eq_ediv hlen0 (by norm_num)
  have hg0 : 0 ≤ (items.length : Int) / 2 := Int.ediv_nonneg hlen0 (by norm_num)
  have hg1 : (items.length : Int) / 2 ≤ 10 ^ 6 := by omega
  have hw1 : wrap64 ((items.length : Int) / 2) = (items.length : Int) / 2 :=
    wrap64_of_range (by omega) (by omega)
  have hw2 : wrap64 ((items.length : Int) / 2 * 5) = (items.length : Int) / 2 * 5 :=
    wrap64_of_range (by omega) (by omega)
  rw [hdiv, hw1, hw2]
  exact add64_bounds h0 h1 (by omega) (by omega) hB

theorem dayRule_bounds (purchaseDate : GoString) (p B : Int) (h : 8 ≤ purchaseDate.length)
    (h0 : 0 ≤ p) (h1 : p ≤ B) (hB : B + 6 < 2 ^ 63) :
    ∃ v, dayRule purchaseDate p = some v ∧ 0 ≤ v ∧ v ≤ B + 6 := by
  rcases dayRule_cases purchaseDate p h with hc | hc <;> rw [hc]
  · exact ⟨_, rfl, h0, by omega⟩
  · exact ⟨_, rfl, add64_bounds h0 h1 (by norm_num) (le_refl 6) hB⟩

theorem timeRule_bounds (purchaseTime : GoString) (p B : Int) (h : 3 ≤ purchaseTime.length)
    (h0 : 0 ≤ p) (h1 : p ≤ B) (hB : B + 10 < 2 ^ 63) :
    ∃ v, timeRule purchaseTime p = some v ∧ 0 ≤ v ∧ v ≤ B + 10 := by
  rcases timeRule_cases purchaseTime p h with hc | hc <;> rw [hc]
  · exact ⟨_, rfl, h0, by omega⟩
  · exact ⟨_, rfl, add64_bounds h0 h1 (by norm_num) (le_refl 10) hB⟩

theorem afterRetailer_bounds (r : Receipt) (hret : r.retailer.length ≤ 10 ^ 6) :
    0 ≤ afterRetailer r ∧ afterRetailer r ≤ 10 ^ 6 := by
  have hcount : (alnumBytes r.retailer : Int) ≤ 10 ^ 6 := by
    have h1 : alnumBytes r.retailer ≤ r.retailer.length := List.countP_le_length _
    have h2 : alnumBytes r.retailer ≤ 10 ^ 6 := le_trans h1 hret
    exact_mod_cast h2
  unfold afterRetailer
  rw [retailerRule_eq]
  have := add64_bounds (le_refl (0 : Int)) (le_refl 0) (Int.natCast_nonneg (alnumBytes r.retailer))
    hcount (by norm_num)
  simpa using this

/-- Claim C1 as amended: the score is not negative for every receipt on
which the call returns (a purchase date of at least 8 bytes and a purchase
time of at least 3), whose retailer name has at most `10 ^ 6` bytes, which
has at most `10 ^ 6` items, and in which every item that qualifies for the
description bonus has a price that does not parse or parses to a float64
between 0 and `10 ^ 9`. -/
theorem score_nonneg (cv : Conv) (r : Receipt)
    (hdate : 8 ≤ r.purchaseDate.length) (htime : 3 ≤ r.purchaseTime.length)
    (hret : r.retailer.length ≤ 10 ^ 6) (hitems : r.items.length ≤ 10 ^ 6)
    (hprice : ∀ item ∈ r.items, (TrimSpace item.shortDescription).length % 3 = 0 →
      (ParseFloat item.price).2 = false →
      ∃ q : ℚ, (ParseFloat item.price).1 = .fin q ∧ 0 ≤ q ∧ q ≤ 10 ^ 9) :
    ∃ v : Int, calculatePoints cv r = some v ∧ 0 ≤ v := by
  obtain ⟨a0, a1⟩ := afterRetailer_bounds r hret
  obtain ⟨b0, b1⟩ := roundDollarRule_bounds cv r.total _ _ a0 a1 (by norm_num)
  obtain ⟨c0, c1⟩ := quarterRule_bounds cv r.total _ _ b0 b1 (by norm_num)
  obtain ⟨d0, d1⟩ := pairRule_bounds r.items _ _ c0 c1 (by norm_num) hitems
  have hsum : (r.items.length : Int) * (2 * 10 ^ 8) ≤ 10 ^ 6 * (2 * 10 ^ 8) :=
    Int.mul_le_mul_of_nonneg_right (by exact_mod_cast hitems) (by norm_num)
  obtain ⟨e0, e1⟩ := descriptionRule_bounds cv r.items _ _ d0 d1
    (lt_of_le_of_lt (add_le_add_left hsum _) (by norm_num)) hprice
  have e2 : descriptionRule cv r.items
      (pairRule r.items (quarterRule cv r.total (roundDollarRule cv r.total (afterRetailer r))))
      ≤ 2 ^ 62 := le_trans e1 (le_trans (add_le_add_left hsum _) (by norm_num))
  obtain ⟨v, hv, f0, f1⟩ := dayRule_bounds r.purchaseDate _ _ hdate e0 e2 (by norm_num)
  obtain ⟨w, hw, g0, _⟩ := timeRule_bounds r.purchaseTime _ _ htime f0 f1 (by norm_num)
  refine ⟨w, ?_, g0⟩
  show (dayRule r.purchaseDate (descriptionRule cv r.items
      (pairRule r.items (quarterRule cv r.total (roundDollarRule cv r.total
        (afterRetailer r)))))).bind (timeRule r.purchaseTime) = some w
  rw [hv, Option.some_bind, hw]

/-- Witness of C1 as amended: the sample receipt. -/
theorem score_nonneg_witness : ∃ v : Int, calculatePoints amd64 sample = some v ∧ 0 ≤ v :=
  score_nonneg amd64 sample (by decide) (by decide) (by decide) (by decide) (by
    intro item hi hel _
    have hmem : item = ⟨go "Mountain Dew 12PK", go "6.49"⟩
        ∨ item = ⟨go "Emils Cheese Pizza", go "12.25"⟩
        ∨ item = ⟨go "Knorr Creamy Chicken", go "1.26"⟩
        ∨ item = ⟨go "Doritos Nacho Cheese", go "3.35"⟩
        ∨ item = ⟨go "   Klarbrunn 12-PK 12 FL OZ  ", go "12.00"⟩ := by
      simpa [sample] using hi
    rcases hmem with h | h | h | h | h <;> subst h
    · exact absurd hel (by decide)
    · exact ⟨49 / 4, by decide!, by norm_num, by norm_num⟩
    · exact absurd hel (by decide)
    · exact absurd hel (by decide)
    · exact ⟨12, by decide!, by norm_num, by norm_num⟩)

/-- Counterexample to C1 as stated: one item with an empty description and
the price "-100" makes the score negative: `ceil(-100 * 0.2) = -20`. -/
theorem negative_price_negative_score :
    calculatePoints amd64 { plain with items := [⟨go "", go "-100"⟩] } = some (-20) ∧
      calculatePoints arm64 { plain with items := [⟨go "", go "-100"⟩] } = some (-20) ∧
      (-20 : Int) < 0 := by
  refine ⟨by decide!, by decide!, by decide⟩

/-! ## The item rules and the two slices -/

/-- The points after line 111 are an `int64` value. -/
theorem afterQuarter_wrap (cv : Conv) (r : Receipt) :
    wrap64 (afterQuarter cv r) = afterQuarter cv r := by
  have h0 : wrap64 (afterRetailer r) = afterRetailer r := by
    unfold afterRetailer retailerRule add64; exact wrap64_wrap64 _
  have h1 : wrap64 (afterRoundDollar cv r) = afterRoundDollar cv r := by
    unfold afterRoundDollar
    rcases roundDollarRule_cases cv r.total (afterRetailer r) with h | h
    · rw [h, h0]
    · rw [h]; unfold add64; exact wrap64_wrap64 _
  unfold afterQuarter
  rcases quarterRule_cases cv r.total (afterRoundDollar cv r) with h | h
  · rw [h, h1]
  · rw [h]; unfold add64; exact wrap64_wrap64 _

/-- Lines 113-119 add five times the number of pairs of items. -/
theorem pairRule_eq (items : List Item) (p : Int) :
    pairRule items p = add64 p (5 * ((items.length / 2 : Nat) : Int)) := by
  have h : (items.length : Int).tdiv 2 = ((items.length / 2 : Nat) : Int) :=
    (Int.ofNat_tdiv items.length 2).symm
  unfold pairRule add64 wrap64
  rw [h]
  omega

/-- The body of the loop over the items can be run on two items in either
order. -/
theorem itemStep_right_comm (cv : Conv) (p : Int) (a b : Item) :
    itemStep cv (itemStep cv p a) b = itemStep cv (itemStep cv p b) a := by
  unfold itemStep
  simp only []
  split_ifs <;> first | rfl | exact add64_right_comm _ _ _

/-- The loop over the items ends on the same points for every order of the
items. -/
theorem descriptionRule_perm (cv : Conv) {items items2 : List Item} (h : items.Perm items2)
    (p : Int) : descriptionRule cv items p = descriptionRule cv items2 p := by
  haveI : RightCommutative (itemStep cv) := ⟨itemStep_right_comm cv⟩
  unfold descriptionRule
  exact h.foldl_eq p

/-- Claim C11: the item-pair rule adds `5 * floor(n / 2)` for a receipt of
`n` items (an `int64` sum), whatever the items are: the points after line 119
are those after line 111 plus that amount, and the score is the score that the
remaining rules give from the points after line 111, plus that amount. For 0
or 1 items nothing is added, for 2 or 3 items 5 points, for 4 or 5 items 10
points. -/
theorem pair_rule (cv : Conv) (r : Receipt) :
    afterPairs cv r = add64 (afterQuarter cv r) (5 * ((r.items.length / 2 : Nat) : Int))
      ∧ calculatePoints cv r
          = ((dayRule r.purchaseDate (descriptionRule cv r.items (afterQuarter cv r))).bind
              (timeRule r.purchaseTime)).map
                (fun p => add64 p (5 * ((r.items.length / 2 : Nat) : Int)))
      ∧ (∀ (items : List Item) (p : Int), items.length = r.items.length →
          pairRule items p = pairRule r.items p)
      ∧ (r.items.length ≤ 1 → afterPairs cv r = afterQuarter cv r)
      ∧ (r.items.length = 2 ∨ r.items.length = 3 →
          afterPairs cv r = add64 (afterQuarter cv r) 5)
      ∧ (r.items.length = 4 ∨ r.items.length = 5 →
          afterPairs cv r = add64 (afterQuarter cv r) 10) := by
  have hp : afterPairs cv r
      = add64 (afterQuarter cv r) (5 * ((r.items.length / 2 : Nat) : Int)) := by
    unfold afterPairs; exact pairRule_eq _ _
  refine ⟨hp, ?_, ?_, ?_, ?_, ?_⟩
  · unfold calculatePoints afterDay afterItems
    rw [hp, descriptionRule_add64, dayRule_add64]
    cases dayRule r.purchaseDate (descriptionRule cv r.items (afterQuarter cv r)) with
    | none => rfl
    | some q => simp [timeRule_add64]
  · intro items p h
    rw [pairRule_eq, pairRule_eq, h]
  · intro h
    have h2 : r.items.length / 2 = 0 := by omega
    rw [hp, h2]
    unfold add64
    simpa using afterQuarter_wrap cv r
  · intro h
    have h2 : r.items.length / 2 = 1 := by omega
    rw [hp, h2]; rfl
  · intro h
    have h2 : r.items.length / 2 = 2 := by omega
    rw [hp, h2]; rfl

/-- Claim C13: the score of a receipt does not depend on the order of its
items: a receipt whose items are a permutation of the items of `r`, the other
fields being those of `r`, has the score of `r` (and panics when `r` does). -/
theorem items_order_irrelevant (cv : Conv) (r : Receipt) (items : List Item)
    (h : items.Perm r.items) :
    calculatePoints cv { r with items := items } = calculatePoints cv r := by
  have h1 : afterQuarter cv { r with items := items } = afterQuarter cv r := rfl
  have h2 : afterPairs cv { r with items := items } = afterPairs cv r := by
    unfold afterPairs
    rw [h1, pairRule_eq, pairRule_eq, h.length_eq]
  have h3 : afterItems cv { r with items := items } = afterItems cv r := by
    unfold afterItems
    rw [h2]
    exact descriptionRule_perm cv h _
  unfold calculatePoints afterDay
  rw [h3]

/-- Witness of C13: the sample receipt with its five items in the opposite
order scores 28, like the sample receipt. -/
theorem items_order_irrelevant_witness :
    calculatePoints amd64 { sample with items := sample.items.reverse }
        = calculatePoints amd64 sample
      ∧ calculatePoints amd64 { sample with items := sample.items.reverse } = some 28 :=
  ⟨items_order_irrelevant amd64 sample sample.items.reverse (List.reverse_perm _), by decide!⟩

/-- The call `calculatePoints(r)` returns when the purchase date has at least
8 bytes and the purchase time at least 3. -/
theorem returns_of_lengths (cv : Conv) (r : Receipt) (hd : 8 ≤ r.purchaseDate.length)
    (ht : 3 ≤ r.purchaseTime.length) : ∃ points : Int, calculatePoints cv r = some points := by
  unfold calculatePoints afterDay
  rcases dayRule_cases r.purchaseDate (afterItems cv r) hd with h | h <;>
    · rw [h]
      simp only [Option.some_bind]
      rcases timeRule_cases r.purchaseTime _ ht with h2 | h2 <;> exact ⟨_, h2⟩

/-- Claim C19: the call `calculatePoints(r)` returns, and does not stop on a
slice out of range, exactly when the purchase date has at least 8 bytes and
the purchase time at least 3 bytes, whatever the retailer, the total and the
items. With a purchase date of exactly 8 bytes the day is the empty string and
the odd-day rule adds nothing; with a purchase time of exactly 3 bytes the
minute is the empty string and the afternoon rule adds nothing. -/
theorem calculatePoints_returns_iff (cv : Conv) (r : Receipt) :
    ((∃ points : Int, calculatePoints cv r = some points)
        ↔ 8 ≤ r.purchaseDate.length ∧ 3 ≤ r.purchaseTime.length)
      ∧ (r.purchaseDate.length = 8 → afterDay cv r = some (afterItems cv r))
      ∧ (r.purchaseDate.length = 8 → 3 ≤ r.purchaseTime.length →
          calculatePoints cv r = timeRule r.purchaseTime (afterItems cv r))
      ∧ (r.purchaseTime.length = 3 → ∀ p : Int, timeRule r.purchaseTime p = some p)
      ∧ (r.purchaseTime.length = 3 → 8 ≤ r.purchaseDate.length →
          calculatePoints cv r = afterDay cv r) := by
  have hday : r.purchaseDate.length = 8 → afterDay cv r = some (afterItems cv r) := by
    intro h
    have hd : r.purchaseDate.drop 8 = [] := List.drop_eq_nil_of_le (by omega)
    unfold afterDay dayRule
    rw [if_neg (by omega), hd]
    rfl
  have htime : r.purchaseTime.length = 3 → ∀ p : Int, timeRule r.purchaseTime p = some p := by
    intro h p
    have hd : r.purchaseTime.drop 3 = [] := List.drop_eq_nil_of_le (by omega)
    unfold timeRule
    rw [if_neg (by omega), if_neg (by omega), hd]
    cases Atoi (r.purchaseTime.take 2) <;> rfl
  refine ⟨?_, hday, ?_, htime, ?_⟩
  · constructor
    · rintro ⟨points, hp⟩
      unfold calculatePoints afterDay at hp
      by_cases hd : r.purchaseDate.length < 8
      · simp [dayRule, hd] at hp
      · by_cases ht : r.purchaseTime.length < 3
        · rcases dayRule_cases r.purchaseDate (afterItems cv r) (by omega) with h | h <;>
            · rw [h] at hp
              simp only [Option.some_bind] at hp
              unfold timeRule at hp
              by_cases ht2 : r.purchaseTime.length < 2
              · simp [ht2] at hp
              · simp [ht2, ht] at hp
        · omega
    · rintro ⟨hd, ht⟩
      exact returns_of_lengths cv r hd ht
  · intro h ht
    unfold calculatePoints
    rw [hday h]; rfl
  · intro h hd
    unfold calculatePoints
    rcases dayRule_cases r.purchaseDate (afterItems cv r) hd with h2 | h2 <;>
      · unfold afterDay
        rw [h2]
        simp only [Option.some_bind]
        exact htime h _

/-- Witness of C11: the sample receipt has five items and gets 10 points from
the item-pair rule, 16 with the 6 of the retailer rule. -/
theorem pair_rule_witness :
    afterPairs amd64 sample = add64 (afterQuarter amd64 sample) 10
      ∧ afterQuarter amd64 sample = 6 ∧ afterPairs amd64 sample = 16 :=
  ⟨(pair_rule amd64 sample).2.2.2.2.2 (Or.inr rfl), by decide!, by decide!⟩

/-- Witness of C19: with the purchase date "2022-01-", of 8 bytes, the plain
receipt scores 0, and so with the purchase time "13:"; with the purchase date
"2022-01" or the purchase time "13" the call does not return. -/
theorem calculatePoints_returns_iff_witness :
    calculatePoints amd64 { plain with purchaseDate := go "2022-01-" }
        = timeRule (go "13:00") (afterItems amd64 { plain with purchaseDate := go "2022-01-" })
      ∧ calculatePoints amd64 { plain with purchaseDate := go "2022-01-" } = some 0
      ∧ calculatePoints amd64 { plain with purchaseTime := go "13:" } = some 0
      ∧ calculatePoints amd64 { plain with purchaseDate := go "2022-01" } = none
      ∧ calculatePoints amd64 { plain with purchaseTime := go "13" } = none :=
  ⟨(calculatePoints_returns_iff amd64 { plain with purchaseDate := go "2022-01-" }).2.2.1
      (by decide) (by decide),
    by decide!, by decide!, by decide!, by decide!⟩

/-! ## The two rules on the total, together -/

/-- The test of line 102 on a float64 within the range of `int64`: it holds
exactly when the number has no fractional part. -/
theorem round_test (cv : Conv) (t : ℚ) (ht : IsF64 t) (h1 : -2 ^ 63 ≤ t) (h2 : t < 2 ^ 63) :
    F64.eq (.fin t) (ofInt (toInt cv (.fin t))) = true ↔ Int.fract t = 0 := by
  rw [toInt_fin cv t h1 h2, ofInt_trunc t ht]
  simp only [F64.eq, decide_eq_true_eq]
  exact trunc_eq_iff t

/-- The test of line 108 when the float64 product `totalFloat * 100` is the
number `v` within the range of `int64`: it holds exactly when `v` is an
integer multiple of 25. -/
theorem product_test (cv : Conv) (t v : ℚ) (hv : (F64.fin t).mul (.fin 100) = .fin v)
    (h1 : -2 ^ 63 ≤ v) (h2 : v < 2 ^ 63) :
    ((toInt cv ((F64.fin t).mul (.fin 100))).tmod 25 = 0
        ∧ F64.eq (ofInt (toInt cv ((F64.fin t).mul (.fin 100)))) ((F64.fin t).mul (.fin 100))
          = true)
      ↔ Int.fract (v / 25) = 0 := by
  have hmul : (F64.fin t).mul (.fin 100) = round64 (t * 100) := rfl
  have hFv : IsF64 v := round64_isF64 (t * 100) v (hmul.symm.trans hv)
  rw [hv, toInt_fin cv v h1 h2, ofInt_trunc v hFv]
  simp only [F64.eq, decide_eq_true_eq]
  constructor
  · rintro ⟨hmod, heq⟩
    obtain ⟨j, hj⟩ := Int.dvd_of_tmod_eq_zero hmod
    have hvj : v / 25 = (j : ℚ) := by rw [← heq, hj]; push_cast; ring
    rw [hvj]; exact Int.fract_intCast j
  · intro hfr
    have hk : v / 25 = (⌊v / 25⌋ : ℚ) := by
      have := Int.floor_add_fract (v / 25)
      rw [hfr, add_zero] at this; exact this.symm
    have hvk : v = ((25 * ⌊v / 25⌋ : ℤ) : ℚ) := by push_cast; linarith
    have htr : trunc v = 25 * ⌊v / 25⌋ := by
      conv_lhs => rw [hvk]
      exact trunc_intCast _
    rw [htr]
    exact ⟨Int.mul_tmod_right 25 _, hvk.symm⟩

/-- Claim C12 as amended: the quarter-multiple rule does not round. When the
total parses to a float64 `t` and the float64 product `t * 100` is the number
`v`, within the range of `int64`, the rule adds its 25 points exactly when `v`
is itself an integer multiple of 25 (`v / 25` has no fractional part). -/
theorem quarter_rule_exact (cv : Conv) (r : Receipt) (t v : ℚ)
    (hp : ParseFloat r.total = (.fin t, false)) (hv : (F64.fin t).mul (.fin 100) = .fin v)
    (h1 : -2 ^ 63 ≤ v) (h2 : v < 2 ^ 63) :
    afterQuarter cv r
      = if Int.fract (v / 25) = 0 then add64 (afterRoundDollar cv r) 25
        else afterRoundDollar cv r := by
  unfold afterQuarter quarterRule
  simp only [hp]
  exact if_congr (product_test cv t v hv h1 h2) rfl rfl

/-- Witness of C12 as amended: for the total "25.50" the product is 2550 and
the 25 points are added; for "0.2501" the product is a float64 just below
25.01, not an integer, and nothing is added. -/
theorem quarter_rule_exact_witness :
    afterQuarter amd64 { plain with total := go "25.50" }
        = add64 (afterRoundDollar amd64 { plain with total := go "25.50" }) 25 ∧
      afterQuarter amd64 { plain with total := go "0.2501" }
        = afterRoundDollar amd64 { plain with total := go "0.2501" } :=
  ⟨(quarter_rule_exact amd64 { plain with total := go "25.50" } (51 / 2) 2550
      (by decide!) (by decide!) (by norm_num) (by norm_num)).trans (by decide!),
    (quarter_rule_exact amd64 { plain with total := go "0.2501" }
      (1126350266805361 / 4503599627370496) (3519844583766753 / 140737488355328)
      (by decide!) (by decide!) (by norm_num) (by norm_num)).trans (by decide!)⟩

/-- Counterexample to C12 as stated: the total "0.2501" parses to a float64
`t` whose product with 100 is a float64 `v` just below 25.01; both `t * 100`
and `v` round to 25, a multiple of 25, yet the rule adds nothing: the receipt
scores 0, where the total "0.25" scores 25. -/
theorem rounded_cents_earn_nothing :
    ParseFloat (go "0.2501") = (.fin (1126350266805361 / 4503599627370496), false) ∧
      (F64.fin (1126350266805361 / 4503599627370496)).mul (.fin 100)
        = .fin (3519844583766753 / 140737488355328) ∧
      round ((1126350266805361 / 4503599627370496 : ℚ) * 100) = 25 ∧
      round (3519844583766753 / 140737488355328 : ℚ) = 25 ∧
      afterQuarter amd64 { plain with total := go "0.2501" }
        = afterRoundDollar amd64 { plain with total := go "0.2501" } ∧
      afterQuarter arm64 { plain with total := go "0.2501" }
        = afterRoundDollar arm64 { plain with total := go "0.2501" } ∧
      calculatePoints amd64 { plain with total := go "0.2501" } = some 0 ∧
      calculatePoints amd64 { plain with total := go "0.25" } = some 25 := by
  refine ⟨by decide!, by decide!, ?_, ?_, by decide!, by decide!, by decide!, by decide!⟩
  · rw [round_eq]; decide!
  · rw [round_eq]; decide!

/-- Points added to an `int64` value twice are their sum added once. -/
theorem add64_add64 (p a b : Int) : add64 (add64 p a) b = add64 p (a + b) := by
  unfold add64
  rw [wrap64_add_wrap64_left, Int.add_assoc]

/-- One hundred times an integer below `2 ^ 55 / 100` in magnitude is a
binary64 number: 25 times the integer has at most 53 bits. -/
theorem isF64_hundredfold (k : ℤ) (hk : |k| * 100 < 2 ^ 55) : IsF64 ((k : ℚ) * 100) := by
  have h53 : |25 * k| < 2 ^ 53 := by
    rw [abs_mul]
    have : |(25 : ℤ)| = 25 := by norm_num
    rw [this]; omega
  refine ⟨25 * k, 2, h53, by norm_num, by push_cast; ring, ?_⟩
  have h1 : |(k : ℚ) * 100| < (2 : ℚ) ^ (55 : ℤ) := by
    rw [abs_mul]
    have e1 : |(100 : ℚ)| = 100 := by norm_num
    have e2 : ((2 : ℚ) ^ (55 : ℤ)) = ((2 ^ 55 : ℤ) : ℚ) := by norm_num
    rw [e1, e2, ← Int.cast_abs]
    exact_mod_cast hk
  exact lt_trans h1 ((zpow_lt_zpow_iff_right₀ (by norm_num : (1 : ℚ) < 2)).mpr (by norm_num))

/-- Adding 50 to an `int64` value gives another value than adding 0, 25 or
75. -/
theorem add64_fifty_ne (p : Int) :
    add64 p 50 ≠ add64 p 0 ∧ add64 p 50 ≠ add64 p 25 ∧ add64 p 50 ≠ add64 p 75 := by
  unfold add64 wrap64
  refine ⟨?_, ?_, ?_⟩ <;> omega

/-- Claim C20 as amended: when the total parses to a float64 `t` with
`|t| * 100 < 2 ^ 55` (a total below about 360 trillion), the round-dollar rule
never adds its 50 points without the quarter-multiple rule adding its 25: the
two rules on the total add 75 points together when `t` has no fractional part,
and 0 or 25 points otherwise, never exactly 50; below `2 ^ 46` they add 25
points exactly for the other multiples of 0.25. -/
theorem total_rules_together (cv : Conv) (r : Receipt) (t : ℚ)
    (hp : ParseFloat r.total = (.fin t, false)) (hb : |t| * 100 < 2 ^ 55) :
    (afterRoundDollar cv r ≠ afterRetailer r →
        afterQuarter cv r = add64 (afterRoundDollar cv r) 25)
      ∧ (Int.fract t = 0 → afterQuarter cv r = add64 (afterRetailer r) 75)
      ∧ (Int.fract t ≠ 0 →
          afterQuarter cv r = add64 (afterRetailer r) 0
            ∨ afterQuarter cv r = add64 (afterRetailer r) 25)
      ∧ afterQuarter cv r ≠ add64 (afterRetailer r) 50
      ∧ (|t| < 2 ^ 46 →
          afterQuarter cv r
            = add64 (afterRetailer r)
                (if Int.fract t = 0 then 75 else if Int.fract (t * 4) = 0 then 25 else 0)) := by
  have hF := ParseFloat_isF64 _ _ _ hp
  have hb49 : |t| < 2 ^ 49 := by
    by_contra hn
    have : (2 : ℚ) ^ 49 ≤ |t| := not_lt.mp hn
    norm_num at hb this
    linarith
  have hb2 := abs_lt.mp hb49
  have hr : afterRoundDollar cv r
      = if Int.fract t = 0 then add64 (afterRetailer r) 50 else afterRetailer r := by
    unfold afterRoundDollar roundDollarRule
    simp only [hp, Bool.false_eq_true, if_false]
    exact if_congr (round_test cv t hF (by linarith [hb2.1]) (by linarith [hb2.2])) rfl rfl
  have h0 : add64 (afterRetailer r) 0 = afterRetailer r := by
    unfold afterRetailer retailerRule add64
    rw [Int.add_zero, wrap64_wrap64]
  have h75 : Int.fract t = 0 → afterQuarter cv r = add64 (afterRetailer r) 75 := by
    intro hfr
    have hk : t = (⌊t⌋ : ℚ) := by
      have := Int.floor_add_fract t
      rw [hfr, add_zero] at this; exact this.symm
    have hkb : |⌊t⌋| * 100 < 2 ^ 55 := by
      have : ((|⌊t⌋| * 100 : ℤ) : ℚ) < ((2 ^ 55 : ℤ) : ℚ) := by
        push_cast; rw [← hk]; exact hb
      exact_mod_cast this
    have hF100 : IsF64 (t * 100) := by
      rw [hk]; exact isF64_hundredfold _ hkb
    have hmul : (F64.fin t).mul (.fin 100) = round64 (t * 100) := rfl
    have hv : (F64.fin t).mul (.fin 100) = .fin (t * 100) :=
      hmul.trans (round64_of_isF64 (t * 100) hF100)
    have hfq : Int.fract (t * 100 / 25) = 0 := by
      have : t * 100 / 25 = ((⌊t⌋ * 4 : ℤ) : ℚ) := by push_cast; rw [← hk]; ring
      rw [this]; exact Int.fract_intCast _
    have hq : afterQuarter cv r = add64 (afterRoundDollar cv r) 25 := by
      unfold afterQuarter quarterRule
      simp only [hp]
      rw [if_pos ((product_test cv t (t * 100) hv (by linarith [hb2.1]) (by linarith [hb2.2])).mpr
        hfq)]
    rw [hq, hr, if_pos hfr, add64_add64]; rfl
  have h025 : Int.fract t ≠ 0 →
      afterQuarter cv r = add64 (afterRetailer r) 0
        ∨ afterQuarter cv r = add64 (afterRetailer r) 25 := by
    intro hfr
    have hr2 : afterRoundDollar cv r = afterRetailer r := by rw [hr, if_neg hfr]
    unfold afterQuarter
    rw [hr2, h0]
    exact quarterRule_cases cv r.total (afterRetailer r)
  refine ⟨?_, h75, h025, ?_, ?_⟩
  · intro hne
    by_cases hfr : Int.fract t = 0
    · rw [h75 hfr, hr, if_pos hfr, add64_add64]; rfl
    · rw [hr, if_neg hfr] at hne
      exact absurd rfl hne
  · have hne := add64_fifty_ne (afterRetailer r)
    by_cases hfr : Int.fract t = 0
    · rw [h75 hfr]; exact fun h => hne.2.2 h.symm
    · rcases h025 hfr with h | h
      · rw [h]; exact fun h => hne.1 h.symm
      · rw [h]; exact fun h => hne.2.1 h.symm
  · intro h46
    by_cases hfr : Int.fract t = 0
    · rw [if_pos hfr]; exact h75 hfr
    · rw [if_neg hfr]
      have hq : afterQuarter cv r
          = if Int.fract (t * 4) = 0 then add64 (afterRoundDollar cv r) 25
            else afterRoundDollar cv r := by
        unfold afterQuarter quarterRule
        simp only [hp]
        exact if_congr (quarter_test cv t hF h46) rfl rfl
      rw [hq, hr, if_neg hfr]
      by_cases hfq : Int.fract (t * 4) = 0
      · rw [if_pos hfq, if_pos hfq]
      · rw [if_neg hfq, if_neg hfq, h0]

/-- Witness of C20 as amended: the total "100.00" earns 75 points from the two
rules, "25.50" earns 25 and "10.33" earns nothing; so does
"360287970189639", the last odd total below the bound, earn 75. -/
theorem total_rules_together_witness :
    calculatePoints amd64 { plain with total := go "100.00" } = some 75 ∧
      afterQuarter amd64 { plain with total := go "100.00" }
        = add64 (afterRetailer { plain with total := go "100.00" }) 75 ∧
      afterQuarter amd64 { plain with total := go "25.50" }
        = add64 (afterRetailer { plain with total := go "25.50" }) 25 ∧
      afterQuarter amd64 { plain with total := go "10.33" }
        = add64 (afterRetailer { plain with total := go "10.33" }) 0 ∧
      afterQuarter amd64 { plain with total := go "360287970189639" }
        = add64 (afterRetailer { plain with total := go "360287970189639" }) 75 :=
  ⟨by decide!,
    (total_rules_together amd64 { plain with total := go "100.00" } 100
      (by decide!) (by norm_num [abs_of_pos])).2.1 (by decide!),
    ((total_rules_together amd64 { plain with total := go "25.50" } (51 / 2)
      (by decide!) (by norm_num [abs_of_pos])).2.2.2.2 (by norm_num [abs_lt])).trans
        (by decide!),
    ((total_rules_together amd64 { plain with total := go "10.33" }
      (5815273018842153 / 562949953421312)
      (by decide!) (by norm_num [abs_of_pos])).2.2.2.2 (by norm_num [abs_lt])).trans
        (by decide!),
    (total_rules_together amd64 { plain with total := go "360287970189639" } 360287970189639
      (by decide!) (by norm_num [abs_of_pos])).2.1 (by decide!)⟩

/-- Counterexample to C20 as stated: the total "360287970189641" parses
exactly and has no fractional part, so the round-dollar rule adds its 50
points; the product with 100 is above `2 ^ 55`, where the float64 numbers are
the multiples of 8, and is rounded to a number that is not a multiple of 25,
so the quarter-multiple rule adds nothing: the two rules add exactly 50. The
same holds for "1125899906842625", which is `2 ^ 50 + 1`. -/
theorem round_total_without_quarter_points :
    ParseFloat (go "360287970189641") = (.fin 360287970189641, false) ∧
      afterRoundDollar amd64 { plain with total := go "360287970189641" }
        = add64 (afterRetailer { plain with total := go "360287970189641" }) 50 ∧
      afterQuarter amd64 { plain with total := go "360287970189641" }
        = afterRoundDollar amd64 { plain with total := go "360287970189641" } ∧
      afterQuarter arm64 { plain with total := go "360287970189641" }
        = add64 (afterRetailer { plain with total := go "360287970189641" }) 50 ∧
      calculatePoints amd64 { plain with total := go "360287970189641" } = some 50 ∧
      calculatePoints arm64 { plain with total := go "360287970189641" } = some 50 ∧
      calculatePoints amd64 { plain with total := go "1125899906842625" } = some 50 := by
  refine ⟨by decide!, by decide!, by decide!, by decide!, by decide!, by decide!, by decide!⟩

/-! ## The end-to-end scenario -/

/-- One iteration of the loop over the items adds the bonus of the item. -/
theorem itemStep_bonus (cv : Conv) (a : Int) (item : Item) :
    itemStep cv (wrap64 a) item = wrap64 (a + bonus cv item) := by
  unfold bonus itemStep
  simp only []
  split_ifs
  · rw [Int.add_zero]
  · unfold add64
    rw [wrap64_add_wrap64_left, wrap64_add_wrap64_right, Int.zero_add]
  · rw [Int.add_zero]

/-- The loop over the items adds the sum of the bonuses of the items. -/
theorem descriptionRule_bonus (cv : Conv) (items : List Item) :
    ∀ a : Int,
      descriptionRule cv items (wrap64 a) = wrap64 (a + (items.map (bonus cv)).sum) := by
  unfold descriptionRule
  induction items with
  | nil => intro a; simp
  | cons item items ih =>
    intro a
    rw [List.foldl_cons, itemStep_bonus, ih, List.map_cons, List.sum_cons]
    congr 1; ring

/-- The total "35.35" earns nothing from the round-dollar rule. -/
theorem roundDollarRule_sample (cv : Conv) (p : Int) :
    roundDollarRule cv (go "35.35") p = p := by
  have hp : ParseFloat (go "35.35")
      = (.fin (4975070213360845 / 140737488355328), false) := by decide!
  have hF := ParseFloat_isF64 _ _ _ hp
  have ht := round_test cv (4975070213360845 / 140737488355328) hF (by norm_num) (by norm_num)
  have hfr : ¬ Int.fract (4975070213360845 / 140737488355328 : ℚ) = 0 := by decide!
  unfold roundDollarRule
  simp only [hp, Bool.false_eq_true, if_false]
  rw [if_neg (fun h => hfr (ht.mp h))]

/-- The total "35.35" earns nothing from the quarter-multiple rule: the
product with 100 is 3535. -/
theorem quarterRule_sample (cv : Conv) (p : Int) :
    quarterRule cv (go "35.35") p = p := by
  have hp : ParseFloat (go "35.35")
      = (.fin (4975070213360845 / 140737488355328), false) := by decide!
  have hv : (F64.fin (4975070213360845 / 140737488355328)).mul (.fin 100) = .fin 3535 := by
    decide!
  have ht := product_test cv _ 3535 hv (by norm_num) (by norm_num)
  have hfr : ¬ Int.fract (3535 / 25 : ℚ) = 0 := by decide!
  unfold quarterRule
  simp only [hp]
  rw [if_neg (fun h => hfr (ht.mp h))]

/-- Claim C14: a receipt with retailer "Target", total "35.35", purchase date
"2022-01-01", purchase time "13:01" and five items has 6 points after the
retailer rule, still 6 after the two rules on the total, 16 after the
item-pair rule, 6 more for the odd day and none for the time: its score is 22
plus the sum of the bonuses of its items (an `int64` sum). -/
theorem sample_scenario (cv : Conv) (r : Receipt)
    (hret : r.retailer = go "Target") (htot : r.total = go "35.35")
    (hdate : r.purchaseDate = go "2022-01-01") (htime : r.purchaseTime = go "13:01")
    (hlen : r.items.length = 5) :
    afterRetailer r = 6 ∧ afterRoundDollar cv r = 6 ∧ afterQuarter cv r = 6
      ∧ afterPairs cv r = 16
      ∧ afterDay cv r = some (add64 (afterItems cv r) 6)
      ∧ calculatePoints cv r = afterDay cv r
      ∧ calculatePoints cv r = some (add64 22 ((r.items.map (bonus cv)).sum)) := by
  have h1 : afterRetailer r = 6 := by
    unfold afterRetailer
    rw [hret]; decide!
  have h2 : afterRoundDollar cv r = 6 := by
    unfold afterRoundDollar
    rw [htot, roundDollarRule_sample, h1]
  have h3 : afterQuarter cv r = 6 := by
    unfold afterQuarter
    rw [htot, quarterRule_sample, h2]
  have h4 : afterPairs cv r = 16 := by
    unfold afterPairs
    rw [pairRule_eq, hlen, h3]; rfl
  have h5 : afterItems cv r = wrap64 (16 + (r.items.map (bonus cv)).sum) := by
    unfold afterItems
    rw [h4]
    exact descriptionRule_bonus cv r.items 16
  have h6 : ∀ p : Int, dayRule (go "2022-01-01") p = some (add64 p 6) := by
    intro p
    have hA : Atoi ((go "2022-01-01").drop 8) = some 1 := by decide!
    unfold dayRule
    rw [if_neg (by decide), hA]
    rfl
  have h7 : ∀ p : Int, timeRule (go "13:01") p = some p := by
    intro p
    have hA : Atoi ((go "13:01").take 2) = some 13 := by decide!
    have hB : Atoi ((go "13:01").drop 3) = some 1 := by decide!
    unfold timeRule
    rw [if_neg (by decide), if_neg (by decide), hA, hB]
    rfl
  have h8 : afterDay cv r = some (add64 (afterItems cv r) 6) := by
    unfold afterDay
    rw [hdate, h6]
  have h9 : calculatePoints cv r = afterDay cv r := by
    unfold calculatePoints
    rw [h8, htime]
    exact h7 _
  refine ⟨h1, h2, h3, h4, h8, h9, ?_⟩
  rw [h9, h8, h5]
  unfold add64
  rw [wrap64_add_wrap64_left]
  congr 2; ring

/-- Witness of C14: in the sample receipt the second and the fifth item
qualify (trimmed descriptions of 18 and 24 bytes) and earn 3 points each, the
least integers above a fifth of 12.25 and of 12.00; the score is 28. -/
theorem sample_scenario_witness :
    calculatePoints amd64 sample = some (add64 22 ((sample.items.map (bonus amd64)).sum))
      ∧ sample.items.map (bonus amd64) = [0, 3, 0, 0, 3]
      ∧ sample.items.map specBonus = [0, 3, 0, 0, 3]
      ∧ sample.items.map (fun item => (TrimSpace item.shortDescription).length)
          = [17, 18, 20, 20, 24]
      ∧ calculatePoints amd64 sample = some 28
      ∧ calculatePoints arm64 sample = some 28 :=
  ⟨(sample_scenario amd64 sample rfl rfl rfl rfl rfl).2.2.2.2.2.2,
    by decide!, by decide!, by decide!, by decide!, by decide!⟩

/-! ## Identifiers -/

/-- The byte that `fmt` writes for a digit is the digit again. -/
theorem digit_byte_val (d : Nat) (h : d < 10) : (Fin.ofNat (48 + d) : Byte).val - 48 = d := by
  have : (Fin.ofNat (48 + d) : Byte).val = (48 + d) % 256 := rfl
  rw [this]; omega

/-- The decimal numerals of two numbers differ. -/
theorem decimal_injective : Function.Injective decimal := by
  intro a b h
  have key : ∀ n : Nat,
      (decimal n).map (fun x : Byte => x.val - 48) = (Nat.digits 10 n).reverse := by
    intro n
    unfold decimal
    rw [List.map_map]
    conv_rhs => rw [← List.map_id (Nat.digits 10 n).reverse]
    apply List.map_congr_left
    intro d hd
    have hlt : d < 10 := Nat.digits_lt_base (by norm_num) (List.mem_reverse.mp hd)
    simpa using digit_byte_val d hlt
  have h2 : (Nat.digits 10 a).reverse = (Nat.digits 10 b).reverse := by
    rw [← key a, ← key b, h]
  exact Nat.digits.injective 10 (List.reverse_injective h2)

/-- The decimal numeral of a positive number is not empty and made of ASCII
digits. -/
theorem decimal_bytes (n : Nat) (hn : 0 < n) :
    decimal n ≠ [] ∧ ∀ b ∈ decimal n, 48 ≤ b.val ∧ b.val ≤ 57 := by
  constructor
  · unfold decimal
    intro h
    have h1 : Nat.digits 10 n = [] := by simpa using h
    exact absurd (Nat.digits_eq_nil_iff_eq_zero.mp h1) (by omega)
  · intro b hb
    unfold decimal at hb
    obtain ⟨d, hd, rfl⟩ := List.mem_map.mp hb
    have hlt : d < 10 := Nat.digits_lt_base (by norm_num) (List.mem_reverse.mp hd)
    have : (Fin.ofNat (48 + d) : Byte).val = (48 + d) % 256 := rfl
    rw [this]; omega

/-- The digit loop of `fmt` writes the decimal numeral. -/
theorem fmtDecimal_eq (fuel : Nat) :
    ∀ (u : Nat) (buf : GoString), u ≤ fuel → 0 < u →
      fmtDecimal fuel u buf = decimal u ++ buf := by
  induction fuel with
  | zero => intro u buf h hu; omega
  | succ fuel ih =>
    intro u buf h hu
    unfold fmtDecimal
    by_cases h10 : 10 ≤ u
    · rw [if_pos h10, ih (u / 10) _ (by omega) (by omega)]
      have hd : Nat.digits 10 u = (u % 10) :: Nat.digits 10 (u / 10) :=
        Nat.digits_def' (by norm_num) hu
      have hm : u - u / 10 * 10 = u % 10 := by omega
      unfold decimal
      rw [hd, hm]
      simp
    · rw [if_neg h10]
      have hd : Nat.digits 10 u = [u] := Nat.digits_of_lt 10 u (by omega) (by omega)
      unfold decimal
      rw [hd]
      rfl

/-- The call `fmt.Sprintf("%d", n)` of a positive `n` is the decimal numeral
of `n`. -/
theorem Sprintf_pos (n : Nat) (hn : 0 < n) : Sprintf (n : Int) = decimal n := by
  unfold Sprintf
  rw [if_neg (by omega), Int.natAbs_ofNat, fmtDecimal_eq n n [] (Nat.le_refl n) hn]
  simp

/-! ## The identifier syntax -/

theorem reSpace_of_ge {n : Nat} (h : 128 ≤ n) : reSpace n = false := by
  simp [reSpace]; omega

/-- The code points read by the regular expression include one of the class
`\s` exactly when the bytes of the string include one. -/
theorem any_runesAux (fuel : Nat) :
    ∀ s : GoString, s.length ≤ fuel →
      (runesAux fuel s).any reSpace = s.any (fun b => reSpace b.val) := by
  induction fuel with
  | zero =>
    intro s hs
    have : s = [] := List.length_eq_zero.mp (Nat.le_zero.mp hs)
    subst this; simp [runesAux]
  | succ fuel ih =>
    intro s hs
    cases s with
    | nil => simp [runesAux]
    | cons b rest =>
      have hw : 1 ≤ (decodeRune (b :: rest)).2 := by
        rcases decodeRune_cons b rest with ⟨_, h⟩ | ⟨_, h, _⟩
        · rw [h]
        · exact h
      have hlen : ((b :: rest).drop (decodeRune (b :: rest)).2).length ≤ fuel := by
        rw [List.length_drop]; simp only [List.length_cons] at hs ⊢; omega
      have hsplit : (b :: rest).any (fun x => reSpace x.val)
          = (((b :: rest).take (decodeRune (b :: rest)).2).any (fun x => reSpace x.val)
            || ((b :: rest).drop (decodeRune (b :: rest)).2).any (fun x => reSpace x.val)) := by
        rw [← List.any_append, List.take_append_drop]
      have htake : ((b :: rest).take (decodeRune (b :: rest)).2).any (fun x => reSpace x.val)
          = reSpace (decodeRune (b :: rest)).1 := by
        rcases decodeRune_cons b rest with ⟨_, h⟩ | ⟨h1, _, h3⟩
        · rw [h]; simp
        · rw [reSpace_of_ge h1, List.any_eq_false]
          intro x hx
          simp [reSpace_of_ge (h3 x hx)]
      rw [runesAux, List.any_cons, ih _ hlen, hsplit, htake]

/-- The expression `^\S+$` matches the strings that are not empty and have
no byte of the class `\s`. -/
theorem idRegex_iff (id : GoString) :
    idRegex id = true ↔ id ≠ [] ∧ ∀ b ∈ id, reSpace b.val = false := by
  have hany := any_runesAux id.length id (Nat.le_refl _)
  have hall : ((runes id).all fun r => !reSpace r) = !((runes id).any reSpace) := by
    rw [List.any_eq_not_all_not, Bool.not_not]
  have hemp : (runes id).isEmpty = id.isEmpty := by
    cases id with
    | nil => rfl
    | cons b rest => simp [runes, runesAux]
  unfold idRegex
  rw [hall, hemp]
  unfold runes
  rw [hany]
  cases id with
  | nil => simp
  | cons b rest =>
    simp only [List.isEmpty_cons, Bool.not_false, Bool.true_and, Bool.not_eq_true',
      List.any_eq_false, ne_eq, not_false_eq_true, true_and, reduceCtorEq]
    constructor
    · intro h x hx
      simpa using h x hx
    · intro h x hx
      simpa using h x hx

/-- The identifiers written by line 51 match the expression `^\S+$`. -/
theorem idRegex_decimal (n : Nat) (hn : 0 < n) : idRegex (decimal n) = true := by
  rw [idRegex_iff]
  refine ⟨(decimal_bytes n hn).1, ?_⟩
  intro b hb
  have := (decimal_bytes n hn).2 b hb
  simp [reSpace]; omega

/-! ## The map -/

theorem Store.get_set_self (s : Store) (id : GoString) (r : Receipt) :
    (s.set id r).get id = some r := by
  simp [Store.get, Store.set]

theorem Store.get_set_ne (s : Store) (id id2 : GoString) (r : Receipt) (h : id2 ≠ id) :
    (s.set id r).get id2 = s.get id2 := by
  simp [Store.get, Store.set, List.find?_cons, Ne.symm h]

/-- A lookup fails exactly for the strings that are not keys. -/
theorem Store.get_eq_none_iff (s : Store) (id : GoString) :
    s.get id = none ↔ id ∉ s.map Prod.fst := by
  unfold Store.get
  simp only [Option.map_eq_none', List.find?_eq_none, decide_eq_true_eq, List.mem_map,
    not_exists, not_and]

/-- A lookup succeeds exactly for the keys. -/
theorem Store.get_isSome_iff (s : Store) (id : GoString) :
    (s.get id).isSome = true ↔ id ∈ s.map Prod.fst := by
  rw [← not_iff_not, ← Store.get_eq_none_iff]
  cases s.get id <;> simp

/-- The list of the first `m` identifiers, the latest first. -/
theorem ids_nodup (m : Nat) :
    ((List.range m).map (fun k => decimal (k + 1))).reverse.Nodup := by
  rw [List.nodup_reverse]
  apply List.Nodup.map _ (List.nodup_range m)
  intro a b h
  have := decimal_injective h
  omega

theorem mem_ids (m : Nat) (id : GoString) :
    id ∈ ((List.range m).map (fun k => decimal (k + 1))).reverse
      ↔ ∃ k : Nat, 1 ≤ k ∧ k ≤ m ∧ id = decimal k := by
  simp only [List.mem_reverse, List.mem_map, List.mem_range]
  constructor
  · rintro ⟨k, hk, rfl⟩; exact ⟨k + 1, by omega, by omega, rfl⟩
  · rintro ⟨k, h1, h2, rfl⟩
    exact ⟨k - 1, by omega, by rw [Nat.sub_add_cancel h1]⟩

/-- When the keys are the first `m` identifiers, `len(receipts)` is `m`. -/
theorem Store.len_of_keys (s : Store) (m : Nat)
    (h : s.map Prod.fst = ((List.range m).map (fun k => decimal (k + 1))).reverse) :
    s.len = m := by
  unfold Store.len Store.keys
  rw [h, (ids_nodup m).dedup]
  simp

/-- When the keys are the first `m` identifiers, line 51 yields the next
one. -/
theorem nextId_of_keys (s : Store) (m : Nat)
    (h : s.map Prod.fst = ((List.range m).map (fun k => decimal (k + 1))).reverse) :
    nextId s = decimal (m + 1) := by
  unfold nextId
  rw [Store.len_of_keys s m h]
  exact_mod_cast Sprintf_pos (m + 1) (by omega)

/-- A submission to a map whose keys are the first `m` identifiers makes the
keys the first `m + 1` identifiers. -/
theorem submit_keys (s : Store) (m : Nat) (r : Receipt)
    (h : s.map Prod.fst = ((List.range m).map (fun k => decimal (k + 1))).reverse) :
    (submit s r).1.map Prod.fst
      = ((List.range (m + 1)).map (fun k => decimal (k + 1))).reverse := by
  unfold submit
  simp only [Store.set, List.map_cons]
  rw [nextId_of_keys s m h, h, List.range_succ, List.map_append, List.reverse_append]
  rfl

/-! ## Submissions one after another -/

/-- Submissions to a map whose keys are the first `m` identifiers: the
identifiers returned are the next ones, in order; the keys are afterwards the
first `m + n` identifiers; each new identifier leads to its own receipt; and the
records of the `m` old keys are as they were. -/
theorem submitAll_spec (rs : List Receipt) :
    ∀ (s : Store) (m : Nat),
      s.map Prod.fst = ((List.range m).map (fun k => decimal (k + 1))).reverse →
      (submitAll s rs).2 = (List.range rs.length).map (fun k => decimal (m + k + 1))
        ∧ (submitAll s rs).1.map Prod.fst
            = ((List.range (m + rs.length)).map (fun k => decimal (k + 1))).reverse
        ∧ (∀ (k : Nat) (hk : k < rs.length),
            (submitAll s rs).1.get (decimal (m + k + 1)) = some (rs.get ⟨k, hk⟩))
        ∧ (∀ id : GoString, id ∈ s.map Prod.fst →
            (submitAll s rs).1.get id = s.get id) := by
  induction rs with
  | nil =>
    intro s m h
    refine ⟨rfl, h, ?_, fun _ _ => rfl⟩
    intro k hk
    exact absurd hk (Nat.not_lt_zero k)
  | cons r rs ih =>
    intro s m h
    have hk1 := submit_keys s m r h
    have hid : (submit s r).2 = decimal (m + 1) := nextId_of_keys s m h
    have hs1 : (submit s r).1 = s.set (decimal (m + 1)) r := by
      unfold submit
      simp only []
      rw [nextId_of_keys s m h]
    obtain ⟨i1, i2, i3, i4⟩ := ih (submit s r).1 (m + 1) hk1
    have hnew : decimal (m + 1) ∈ (submit s r).1.map Prod.fst := by
      rw [hk1, mem_ids]; exact ⟨m + 1, by omega, by omega, rfl⟩
    have hfresh : decimal (m + 1) ∉ s.map Prod.fst := by
      rw [h, mem_ids]
      rintro ⟨k, _, h2, h3⟩
      have := decimal_injective h3
      omega
    refine ⟨?_, ?_, ?_, ?_⟩
    · show (submit s r).2 :: (submitAll (submit s r).1 rs).2 = _
      rw [i1, hid, List.length_cons, List.range_succ_eq_map, List.map_cons, List.map_map]
      congr 1
      apply List.map_congr_left
      intro k _
      show decimal (m + 1 + k + 1) = decimal (m + (k + 1) + 1)
      congr 1; omega
    · show (submitAll (submit s r).1 rs).1.map Prod.fst = _
      rw [i2, List.length_cons]
      congr 3; omega
    · intro k hk
      show (submitAll (submit s r).1 rs).1.get (decimal (m + k + 1)) = _
      cases k with
      | zero =>
        rw [i4 _ hnew, hs1]
        exact Store.get_set_self s _ r
      | succ k =>
        have hk2 : k < rs.length := by simpa using hk
        have := i3 k hk2
        have e : m + (k + 1) + 1 = m + 1 + k + 1 := by omega
        rw [e, this]
        rfl
    · intro id hmem
      show (submitAll (submit s r).1 rs).1.get id = _
      have hmem1 : id ∈ (submit s r).1.map Prod.fst := by
        rw [hs1]; simp only [Store.set, List.map_cons]
        exact List.mem_cons_of_mem _ hmem
      have hne : id ≠ decimal (m + 1) := fun e => hfresh (e ▸ hmem)
      rw [i4 id hmem1, hs1]
      exact Store.get_set_ne s _ id r hne

/-- One more submission after the others. -/
theorem submitAll_append (rs : List Receipt) (r : Receipt) :
    ∀ s : Store, submitAll s (rs ++ [r])
      = ((submit (submitAll s rs).1 r).1,
          (submitAll s rs).2 ++ [(submit (submitAll s rs).1 r).2]) := by
  induction rs with
  | nil => intro s; rfl
  | cons r1 rs ih =>
    intro s
    show ((submitAll (submit s r1).1 (rs ++ [r])).1,
      (submit s r1).2 :: (submitAll (submit s r1).1 (rs ++ [r])).2) = _
    rw [ih]
    rfl

/-- Claim C15: starting from the empty map, the submissions of the receipts
`rs`, served one after another, return the decimal numerals of 1, 2, ... in
this order, which are pairwise distinct; the keys are then exactly the
numerals of 1 to `n`, for `n` the number of submissions, and `len(receipts)` is
`n`; the next call of `processReceiptHandler` returns the numeral of `n + 1`,
which was not a key before it, and leaves the map that is reached by submitting
one more receipt. What line 51 writes for a positive number is its decimal
numeral, the digits in base 10 from the most significant one. -/
theorem identifiers_sequential (rs : List Receipt) :
    (submitAll [] rs).2 = (List.range rs.length).map (fun k : Nat => Sprintf ((k : Int) + 1))
      ∧ (submitAll [] rs).2.Nodup
      ∧ (∀ id : GoString, ((submitAll [] rs).1.get id).isSome = true
          ↔ ∃ k : Nat, 1 ≤ k ∧ k ≤ rs.length ∧ id = Sprintf k)
      ∧ (submitAll [] rs).1.len = rs.length
      ∧ (∀ r : Receipt,
          (processReceiptHandler (submitAll [] rs).1 (some r)).2
              = .receiptResponse (Sprintf ((rs.length : Int) + 1))
            ∧ (submitAll [] rs).1.get (Sprintf ((rs.length : Int) + 1)) = none
            ∧ (processReceiptHandler (submitAll [] rs).1 (some r)).1
              = (submitAll [] (rs ++ [r])).1
            ∧ (submitAll [] (rs ++ [r])).2
              = (submitAll [] rs).2 ++ [Sprintf ((rs.length : Int) + 1)])
      ∧ (∀ k : Nat, 0 < k → Sprintf k = decimal k)
      ∧ Function.Injective decimal := by
  have hS : ∀ k : Nat, Sprintf ((k : Int) + 1) = decimal (k + 1) := by
    intro k
    exact_mod_cast Sprintf_pos (k + 1) (by omega)
  obtain ⟨i1, i2, _, _⟩ := submitAll_spec rs [] 0 rfl
  simp only [Nat.zero_add] at i1 i2
  have hkeys : ∀ id : GoString, ((submitAll [] rs).1.get id).isSome = true
      ↔ ∃ k : Nat, 1 ≤ k ∧ k ≤ rs.length ∧ id = Sprintf k := by
    intro id
    rw [Store.get_isSome_iff, i2, mem_ids]
    constructor
    · rintro ⟨k, h1, h2, h3⟩
      exact ⟨k, h1, h2, by rw [Sprintf_pos k (by omega)]; exact h3⟩
    · rintro ⟨k, h1, h2, h3⟩
      exact ⟨k, h1, h2, by rw [← Sprintf_pos k (by omega)]; exact h3⟩
  have hnext : ∀ r : Receipt,
      (submit (submitAll [] rs).1 r).2 = Sprintf ((rs.length : Int) + 1) := by
    intro r
    rw [hS]
    exact nextId_of_keys _ _ i2
  refine ⟨?_, ?_, hkeys, Store.len_of_keys _ _ i2, ?_, Sprintf_pos, decimal_injective⟩
  · rw [i1]
    apply List.map_congr_left
    intro k _
    exact (hS k).symm
  · rw [i1]
    apply List.Nodup.map _ (List.nodup_range _)
    intro a b h
    have := decimal_injective h
    omega
  · intro r
    refine ⟨?_, ?_, ?_, ?_⟩
    · show Response.receiptResponse (submit (submitAll [] rs).1 r).2 = _
      rw [hnext]
    · rw [Store.get_eq_none_iff, i2, hS, mem_ids]
      rintro ⟨k, _, h2, h3⟩
      have := decimal_injective h3
      omega
    · rw [submitAll_append]; rfl
    · rw [submitAll_append, hnext]

/-- The call `calculatePoints(r)` panics when the purchase date has fewer than
8 bytes or the purchase time fewer than 3. -/
theorem panics_of_short (cv : Conv) (r : Receipt)
    (h : r.purchaseDate.length < 8 ∨ r.purchaseTime.length < 3) :
    calculatePoints cv r = none := by
  unfold calculatePoints afterDay
  by_cases hd : r.purchaseDate.length < 8
  · simp [dayRule, hd]
  · have ht : r.purchaseTime.length < 3 := by
      rcases h with h | h
      · exact absurd h hd
      · exact h
    have hnone : ∀ p : Int, timeRule r.purchaseTime p = none := by
      intro p
      unfold timeRule
      by_cases h2 : r.purchaseTime.length < 2
      · rw [if_pos h2]
      · rw [if_neg h2, if_pos ht]
    rcases dayRule_cases r.purchaseDate (afterItems cv r) (by omega) with h1 | h1 <;>
      · rw [h1]
        simp only [Option.some_bind]
        exact hnone _

/-- What `getPointsHandler` does once the identifier has passed the syntax
check and a receipt is stored under it: its outcome is that of
`calculatePoints` on that receipt. -/
theorem getPointsHandler_of_get (cv : Conv) (receipts : Store) (id : GoString)
    (receipt : Receipt) (hv : idRegex id = true) (hg : receipts.get id = some receipt) :
    getPointsHandler cv receipts id
      = (calculatePoints cv receipt).map Response.pointsResponse := by
  unfold getPointsHandler
  rw [hv, hg]
  rfl

/-- Claim C16, the defect: after the submissions of the receipts `rs`, served
one after another from the empty map, the query for the identifier returned for
the receipt number `k` finds that receipt and no other, and its outcome is that
of `calculatePoints` on it: a response with the score when the call returns,
but a panic, and so no response, when the purchase date has fewer than 8 bytes
or the purchase time fewer than 3, as for a receipt submitted as `{}`. A
further submission adds one record, under a new key, and leaves the record of
every key as it was; a request whose body cannot be decoded leaves the map as
it was. -/
theorem query_outcome_is_own_receipt (cv : Conv) (rs : List Receipt) (k : Nat)
    (hk : k < rs.length) :
    (submitAll [] rs).2.get? k = some (Sprintf ((k : Int) + 1))
      ∧ (submitAll [] rs).1.get (Sprintf ((k : Int) + 1)) = some (rs.get ⟨k, hk⟩)
      ∧ getPointsHandler cv (submitAll [] rs).1 (Sprintf ((k : Int) + 1))
          = (calculatePoints cv (rs.get ⟨k, hk⟩)).map Response.pointsResponse
      ∧ (8 ≤ (rs.get ⟨k, hk⟩).purchaseDate.length →
          3 ≤ (rs.get ⟨k, hk⟩).purchaseTime.length →
          ∃ points : Int, calculatePoints cv (rs.get ⟨k, hk⟩) = some points
            ∧ getPointsHandler cv (submitAll [] rs).1 (Sprintf ((k : Int) + 1))
              = some (.pointsResponse points))
      ∧ ((rs.get ⟨k, hk⟩).purchaseDate.length < 8
            ∨ (rs.get ⟨k, hk⟩).purchaseTime.length < 3 →
          getPointsHandler cv (submitAll [] rs).1 (Sprintf ((k : Int) + 1)) = none)
      ∧ (∀ (r : Receipt) (id : GoString), ((submitAll [] rs).1.get id).isSome = true →
          (processReceiptHandler (submitAll [] rs).1 (some r)).1.get id
            = (submitAll [] rs).1.get id)
      ∧ (∀ r : Receipt,
          (processReceiptHandler (submitAll [] rs).1 (some r)).1.len
            = (submitAll [] rs).1.len + 1)
      ∧ (∀ r : Receipt,
          (processReceiptHandler (submitAll [] rs).1 (some r)).1.get
              (Sprintf ((rs.length : Int) + 1)) = some r)
      ∧ (processReceiptHandler (submitAll [] rs).1 none).1 = (submitAll [] rs).1 := by
  have hS : ∀ j : Nat, Sprintf ((j : Int) + 1) = decimal (j + 1) := by
    intro j
    exact_mod_cast Sprintf_pos (j + 1) (by omega)
  obtain ⟨i1, i2, i3, _⟩ := submitAll_spec rs [] 0 rfl
  simp only [Nat.zero_add] at i1 i2 i3
  have hget := i3 k hk
  have hq : getPointsHandler cv (submitAll [] rs).1 (Sprintf ((k : Int) + 1))
      = (calculatePoints cv (rs.get ⟨k, hk⟩)).map Response.pointsResponse := by
    unfold getPointsHandler
    rw [hS, idRegex_decimal (k + 1) (by omega), hget]
    rfl
  have hnext : ∀ r : Receipt,
      (submit (submitAll [] rs).1 r) = ((submitAll [] rs).1.set (decimal (rs.length + 1)) r,
        decimal (rs.length + 1)) := by
    intro r
    unfold submit
    simp only []
    rw [nextId_of_keys _ _ i2]
  have hfresh : decimal (rs.length + 1) ∉ (submitAll [] rs).1.map Prod.fst := by
    rw [i2, mem_ids]
    rintro ⟨j, _, h2, h3⟩
    have := decimal_injective h3
    omega
  refine ⟨?_, ?_, hq, ?_, ?_, ?_, ?_, ?_, rfl⟩
  · rw [i1, hS, List.get?_eq_getElem?, List.getElem?_map, List.getElem?_range hk]
    rfl
  · rw [hS]; exact hget
  · intro hd ht
    obtain ⟨points, hp⟩ := returns_of_lengths cv (rs.get ⟨k, hk⟩) hd ht
    exact ⟨points, hp, by rw [hq, hp]; rfl⟩
  · intro hshort
    rw [hq, panics_of_short cv _ hshort]
    rfl
  · intro r id hid
    show (submit (submitAll [] rs).1 r).1.get id = _
    rw [hnext]
    apply Store.get_set_ne
    intro e
    rw [Store.get_isSome_iff] at hid
    exact hfresh (e ▸ hid)
  · intro r
    show (submit (submitAll [] rs).1 r).1.len = _
    rw [Store.len_of_keys _ _ (submit_keys _ _ r i2), Store.len_of_keys _ _ i2]
    push_cast; ring
  · intro r
    show (submit (submitAll [] rs).1 r).1.get _ = _
    rw [hnext, hS]
    exact Store.get_set_self _ _ r

/-- Claim C16 at the failing input: the body `{}` is submitted to the empty
map and gets the identifier "1", then the sample receipt gets "2"; the query for
"1" panics in `calculatePoints` and answers nothing, the query for "2" answers
28. -/
theorem query_outcome_is_own_receipt_witness :
    getPointsHandler amd64 (submitAll [] [blank, sample]).1 (Sprintf 1) = none
      ∧ (submitAll [] [blank, sample]).2 = [go "1", go "2"]
      ∧ (submitAll [] [blank, sample]).1.get (go "1") = some blank
      ∧ calculatePoints amd64 blank = none
      ∧ getPointsHandler amd64 (submitAll [] [blank, sample]).1 (go "1") = none
      ∧ getPointsHandler arm64 (submitAll [] [blank, sample]).1 (go "1") = none
      ∧ getPointsHandler amd64 (submitAll [] [blank, sample]).1 (go "2")
        = some (.pointsResponse 28) :=
  ⟨(query_outcome_is_own_receipt amd64 [blank, sample] 0 (by decide)).2.2.2.2.1
      (Or.inl (by decide)),
    by decide!, by decide!, by decide!, by decide!, by decide!, by decide!⟩

/-- Claim C17 as amended: whatever the map holds, the points query answers 400
exactly when the identifier is empty or has one of the five characters of the
class `\s` of the regular expression (tab, line feed, form feed, carriage
return, space), and then the answer is the same for every map; for the other
identifiers it answers 404 exactly when the map has no record under the
identifier; and otherwise, when the purchase date of the record has at least 8
bytes and its purchase time at least 3, it answers 200 with the score of the
record. -/
theorem query_responses (cv : Conv) (receipts : Store) (id : GoString) :
    (getPointsHandler cv receipts id = some (.error StatusBadRequest)
        ↔ id = [] ∨ ∃ b ∈ id, reSpace b.val = true)
      ∧ (id = [] ∨ (∃ b ∈ id, reSpace b.val = true) →
          ∀ other : Store, getPointsHandler cv other id = some (.error StatusBadRequest))
      ∧ (getPointsHandler cv receipts id = some (.error StatusNotFound)
        ↔ ¬ (id = [] ∨ ∃ b ∈ id, reSpace b.val = true) ∧ receipts.get id = none)
      ∧ (receipts.get id = none ↔ id ∉ receipts.map Prod.fst)
      ∧ (∀ receipt : Receipt, ¬ (id = [] ∨ ∃ b ∈ id, reSpace b.val = true) →
          receipts.get id = some receipt →
          8 ≤ receipt.purchaseDate.length → 3 ≤ receipt.purchaseTime.length →
          ∃ points : Int, calculatePoints cv receipt = some points
            ∧ getPointsHandler cv receipts id = some (.pointsResponse points)) := by
  have hvalid : idRegex id = true ↔ ¬ (id = [] ∨ ∃ b ∈ id, reSpace b.val = true) := by
    rw [idRegex_iff, not_or]
    constructor
    · rintro ⟨h1, h2⟩
      refine ⟨h1, ?_⟩
      rintro ⟨b, hb, hs⟩
      rw [h2 b hb] at hs
      exact Bool.noConfusion hs
    · rintro ⟨h1, h2⟩
      refine ⟨h1, ?_⟩
      intro b hb
      cases hs : reSpace b.val with
      | false => rfl
      | true => exact absurd ⟨b, hb, hs⟩ h2
  have hbad : ∀ s : Store, idRegex id = false →
      getPointsHandler cv s id = some (.error StatusBadRequest) := by
    intro s h
    unfold getPointsHandler
    rw [h]; rfl
  have hgood : idRegex id = true → getPointsHandler cv receipts id
      = match receipts.get id with
        | none => some (.error StatusNotFound)
        | some receipt => (calculatePoints cv receipt).map Response.pointsResponse := by
    intro h
    unfold getPointsHandler
    rw [h]; rfl
  have hmap : ∀ (o : Option Int) (c : Nat),
      o.map Response.pointsResponse ≠ some (.error c) := by
    intro o c
    cases o <;> simp
  refine ⟨?_, ?_, ?_, Store.get_eq_none_iff receipts id, ?_⟩
  · constructor
    · intro h
      by_contra hn
      have hv := hvalid.mpr hn
      rw [hgood hv] at h
      cases hg : receipts.get id with
      | none => rw [hg] at h; simp [StatusBadRequest, StatusNotFound] at h
      | some receipt => rw [hg] at h; exact hmap _ _ h
    · intro h
      apply hbad
      cases hv : idRegex id with
      | false => rfl
      | true => exact absurd h (hvalid.mp hv)
  · intro h other
    apply hbad
    cases hv : idRegex id with
    | false => rfl
    | true => exact absurd h (hvalid.mp hv)
  · constructor
    · intro h
      have hv : idRegex id = true := by
        cases hv : idRegex id with
        | true => rfl
        | false =>
          rw [hbad receipts hv] at h
          simp [StatusBadRequest, StatusNotFound] at h
      refine ⟨hvalid.mp hv, ?_⟩
      rw [hgood hv] at h
      cases hg : receipts.get id with
      | none => rfl
      | some receipt => rw [hg] at h; exact absurd h (hmap _ _)
    · rintro ⟨hv, hg⟩
      rw [hgood (hvalid.mpr hv), hg]
  · intro receipt hv hg hd ht
    obtain ⟨points, hp⟩ := returns_of_lengths cv receipt hd ht
    refine ⟨points, hp, ?_⟩
    rw [getPointsHandler_of_get cv receipts id receipt (hvalid.mpr hv) hg, hp]
    rfl

/-- Counterexample to C17 as stated: the vertical tab and the no-break space
are white space (`unicode.IsSpace`, as `strings.TrimSpace` sees them) but not in
the class `\s`; an identifier with either of them passes the syntax check and
is looked up, and the answer is 404, not 400 as for the identifier with a
space. -/
theorem white_space_identifier_is_looked_up :
    isSpace 11 = true ∧ reSpace 11 = false
      ∧ runes (go "a\x0bb") = [97, 11, 98]
      ∧ getPointsHandler amd64 (submitAll [] [sample]).1 (go "a\x0bb")
        = some (.error StatusNotFound)
      ∧ isSpace 160 = true ∧ reSpace 160 = false
      ∧ runes (go "a\u00a0b") = [97, 160, 98]
      ∧ getPointsHandler amd64 (submitAll [] [sample]).1 (go "a\u00a0b")
        = some (.error StatusNotFound)
      ∧ StatusNotFound ≠ StatusBadRequest
      ∧ getPointsHandler amd64 (submitAll [] [sample]).1 (go "a b")
        = some (.error StatusBadRequest) := by
  refine ⟨by decide, by decide, by decide!, by decide!, by decide, by decide, by decide!,
    by decide!, by decide, by decide!⟩

/-- Claim C18, the failing schedule: two calls of `processReceiptHandler`
start on the empty map with two different receipts; both run line 51 before
either takes the mutex. Both read the size 0 and return the identifier "1";
the second assignment replaces the first, so that the map ends with one record
and the sample receipt is under no key. Served one after the other, the same
two calls return "1" and "2" and leave two records. -/
theorem concurrent_submissions_share_identifier :
    ((run (start [sample, plain]) [.line51 0, .line51 1, .line53 0, .line53 1]).calls.map
        fun c => c.id) = [some (go "1"), some (go "1")]
      ∧ (run (start [sample, plain]) [.line51 0, .line51 1, .line53 0, .line53 1]).receipts.len
        = 1
      ∧ (run (start [sample, plain]) [.line51 0, .line51 1, .line53 0, .line53 1]).receipts.get
        (go "1") = some plain
      ∧ (∀ id : GoString,
          (run (start [sample, plain]) [.line51 0, .line51 1, .line53 0, .line53 1]).receipts.get
            id ≠ some sample)
      ∧ sample ≠ plain
      ∧ ((run (start [sample, plain]) [.line51 0, .line53 0, .line51 1, .line53 1]).calls.map
        fun c => c.id) = [some (go "1"), some (go "2")]
      ∧ (run (start [sample, plain]) [.line51 0, .line53 0, .line51 1, .line53 1]).receipts
        = (submitAll [] [sample, plain]).1
      ∧ (submitAll [] [sample, plain]).1.len = 2 := by
  refine ⟨by decide!, by decide!, by decide!, ?_, by decide!, by decide!, by decide!, by decide!⟩
  intro id
  have h : (run (start [sample, plain])
      [.line51 0, .line51 1, .line53 0, .line53 1]).receipts
        = [(go "1", plain), (go "1", sample)] := by decide!
  rw [h]
  unfold Store.get
  by_cases e : go "1" = id
  · simp only [List.find?_cons, e, decide_True, Option.map_some']
    intro h2
    exact absurd (Option.some.inj h2).symm (by decide!)
  · simp [List.find?_cons, e]

/-- Witness of C15: twelve submissions from the empty map return "1" to "12",
and the map then has twelve keys. -/
theorem identifiers_sequential_witness :
    (submitAll [] (List.replicate 12 plain)).2
        = [go "1", go "2", go "3", go "4", go "5", go "6", go "7", go "8", go "9", go "10",
            go "11", go "12"]
      ∧ (submitAll [] (List.replicate 12 plain)).1.len = 12 :=
  ⟨(identifiers_sequential (List.replicate 12 plain)).1.trans (by decide!),
    (identifiers_sequential (List.replicate 12 plain)).2.2.2.1.trans (by decide!)⟩

/-- Witness of C17 as amended: after the submissions of the sample receipt and
of the plain receipt, the queries for "1 " and for the empty string are
answered 400, the query for "3" is answered 404 and the query for "1" is
answered with the score 28. -/
theorem query_responses_witness :
    getPointsHandler amd64 (submitAll [] [sample, plain]).1 (go "1 ")
        = some (.error StatusBadRequest)
      ∧ getPointsHandler amd64 (submitAll [] [sample, plain]).1 []
        = some (.error StatusBadRequest)
      ∧ getPointsHandler amd64 (submitAll [] [sample, plain]).1 (go "3")
        = some (.error StatusNotFound)
      ∧ (∃ points : Int, calculatePoints amd64 sample = some points
          ∧ getPointsHandler amd64 (submitAll [] [sample, plain]).1 (go "1")
            = some (.pointsResponse points))
      ∧ getPointsHandler amd64 (submitAll [] [sample, plain]).1 (go "1")
        = some (.pointsResponse 28) :=
  ⟨(query_responses amd64 (submitAll [] [sample, plain]).1 (go "1 ")).1.mpr
      (Or.inr ⟨32, by decide, by decide⟩),
    (query_responses amd64 (submitAll [] [sample, plain]).1 []).1.mpr (Or.inl rfl),
    (query_responses amd64 (submitAll [] [sample, plain]).1 (go "3")).2.2.1.mpr
      ⟨by decide, by decide!⟩,
    (query_responses amd64 (submitAll [] [sample, plain]).1 (go "1")).2.2.2.2 sample
      (by decide) (by decide!) (by decide) (by decide),
    by decide!⟩

end ReceiptProcessor
